import Mathlib

/-!
# corotest: cooperative tasks on C++20 coroutines, and their timer scheduler

A shallow embedding of `src/coro.h` and `src/AsyncTimer.h`.

* A coroutine frame is a record `Frame`: the promise members
  (`m_awaitingCoroutine`, `m_value`) and the point at which the frame is parked.
* The body of a coroutine function is user code.  It is represented the way a
  compiler lowers it: a control state `σ` and a table `code : σ → Instr σ α`
  giving, for each control state, the next coroutine event (a `co_await` of a
  duration, a `co_await` of a task, the call of another coroutine function, a
  `co_return`).  The library hooks that the C++ coroutine protocol runs at those
  events (`await_transform`, `await_ready`, `await_suspend`, `await_resume`,
  `return_value`, `final_suspend`) are the definitions translated here.
* `steady_clock::now()` is an oracle: the n-th call returns `readings n`.
* Time points and durations are tick counts in `Int`; durations may be negative.
  Arithmetic overflow of the tick representation is undefined in C++ and is not
  modelled.
* Running a body (`run`) is big-step and takes fuel, one unit per coroutine
  event; `Step` lists the single state changes the runs are made of, and `Move`
  the same changes made in their place (by a coroutine that runs, by the loop
  of `processTimers` on its next handle), of which `run`, `invoke` and
  `processTimers` are shown to be sequences.
* A destroyed frame keeps its address: addresses are not reused.
* `Machine.log` is a ghost history of the control transfers into suspended
  coroutines; it separates the `resume()` calls of `processTimers` from the
  symmetric transfers of `final_suspend`.
-/

namespace Corotest

/-! ## Handles, time, errors -/

/-- Address of a coroutine frame: a non-null `std::coroutine_handle<>`.
A nullable handle is an `Option Handle`, with `none` for `nullptr`. -/
abbrev Handle := Nat

/-- Tick count of a `std::chrono::steady_clock::time_point`. -/
abbrev TimePoint := Int

/-- Tick count of a `std::chrono::duration`. -/
abbrev Duration := Int

/-- The three `std::runtime_error`s thrown in `coro.h`, by their message. -/
inductive TaskError where
  /-- Thrown with "get from task without promise" (`Task::get`). -/
  | getWithoutPromise
  /-- Thrown with "coroutine without promise awaited" (`transform`). -/
  | awaitedWithoutPromise
  /-- Thrown with "coroutine already awaited" (`transform`). -/
  | alreadyAwaited
  deriving DecidableEq, Repr

/-- Result of a call that may throw or may have no defined behaviour. -/
inductive Outcome (β : Type) where
  /-- The call returns `b`. -/
  | ok (b : β)
  /-- The call throws `e`. -/
  | throws (e : TaskError)
  /-- The call has no defined behaviour: it dereferences a null or dangling
  handle or an empty `std::optional`, or the member cannot be instantiated for
  the task type. -/
  | undefined
  deriving DecidableEq, Repr

/-- The state a moved-from object of the result type is left in by
`std::move` into a new object.  For scalar types it is the identity. -/
class Movable (α : Type) where
  /-- The value left behind in the source of a move. -/
  movedFrom : α → α

instance : Movable Int := ⟨id⟩

/-! ## The clock -/

/-- The monotonic clock as an oracle: `readings n` is what the n-th call of
`std::chrono::steady_clock::now()` returns, `calls` counts the calls made. -/
structure SteadyClock where
  readings : Nat → TimePoint
  calls : Nat

/-- A call of `std::chrono::steady_clock::now()`: the reading, and the clock
after the call. -/
def SteadyClock.now (c : SteadyClock) : TimePoint × SteadyClock :=
  (c.readings c.calls, { c with calls := c.calls + 1 })

/-! ## The pending-timer set (`src/AsyncTimer.h`) -/

/-- One entry of `m_timerTasks`: `struct AsyncTimerTask`.  Entries are only
ever built by `TimerAwaitable::await_suspend`, from the handle of the coroutine
being suspended, so the handle is never null. -/
structure AsyncTimerTask where
  m_timePoint : TimePoint
  m_coroutineHandle : Handle
  deriving DecidableEq, Repr

/-- The `while` loop of `AsyncTimerTask::processTimers` (lines 29-43).
`m_timerTasks` is `kept ++ rest` with the iterator `it` at the head of `rest`;
`handles` is `m_handlesToResume`.  Each iteration calls `now()` once; a due
entry is pushed on `m_handlesToResume` and erased, another one is stepped
over.  Returns the clock, `m_timerTasks` and `m_handlesToResume` at loop exit. -/
def scanTimers (clock : SteadyClock) (kept : List AsyncTimerTask) (handles : List Handle) :
    List AsyncTimerTask → SteadyClock × List AsyncTimerTask × List Handle
  | [] => (clock, kept, handles)
  | timer :: rest =>
    if timer.m_timePoint < clock.now.1 then
      scanTimers clock.now.2 kept (handles ++ [timer.m_coroutineHandle]) rest
    else
      scanTimers clock.now.2 (kept ++ [timer]) handles rest

/-! ## Tasks, promises and frames (`src/coro.h`) -/

/-- The promise type of a coroutine: `TaskValuePromise<T>` for a `Task<T>`,
`TaskVoidPromise` for a `Task<void>` (`Task::promise_type`). -/
inductive PromiseKind where
  | value
  | void
  deriving DecidableEq, Repr

/-- The object `struct Task<T>`: its one data member. -/
structure Task where
  m_coroutineHandle : Option Handle
  deriving DecidableEq, Repr

/-- The next coroutine event of a task body, with the control states the body
continues in.  `σ` is the type of control states (program point and locals),
`α` the result type `T` of the result-bearing tasks. -/
inductive Instr (σ α : Type) where
  /-- The expression `co_await duration`; the body continues at `next`. -/
  | awaitDuration (duration : Duration) (next : σ)
  /-- The expression `co_await otherTask`; the body continues at `next r` with
  `r` the value of the await expression (`none` for a `Task<void>`). -/
  | awaitTask (otherTask : Task) (next : Option α → σ)
  /-- The call of a coroutine function whose body starts at `entry`; the body
  continues at `next t` with `t` the returned task object. -/
  | call (kind : PromiseKind) (entry : σ) (next : Task → σ)
  /-- The end of the lifetime of the task object `t`, a local or a temporary
  of the body: its destructor runs; the body continues at `next`. -/
  | dropTask (t : Task) (next : σ)
  /-- The statement `co_return val;` of a `Task<T>`. -/
  | coReturn (val : α)
  /-- The end of the body of a `Task<void>`. -/
  | coReturnVoid

/-- Where a frame is parked. -/
inductive SuspendPoint (σ α : Type) where
  /-- Not suspended: executing, or waiting on the call stack for a coroutine
  it called or that was resumed on top of it. -/
  | running
  /-- Suspended in a `TimerAwaitable`; continues at `next`. -/
  | timerAwait (next : σ)
  /-- Suspended in a `TaskAwaitable` with `m_otherCoroutineHandle = other`;
  continues at `next r` with `r` the result of `await_resume`. -/
  | taskAwait (other : Handle) (next : Option α → σ)
  /-- Suspended at `final_suspend`: the body has run to completion. -/
  | finalSuspend

/-- A coroutine frame: the promise object (`TaskPromiseBase` with
`TaskValuePromise` or `TaskVoidPromise`) and the suspension point.
`m_value` is a member of `TaskValuePromise` only; in a frame of kind `void`
the field is never written. -/
structure Frame (σ α : Type) where
  kind : PromiseKind
  m_awaitingCoroutine : Option Handle
  m_value : Option α
  point : SuspendPoint σ α
  /-- Whether `std::coroutine_handle::destroy` has run on the frame. -/
  destroyed : Bool

/-- Whether the process is still running. -/
inductive Status where
  | running
  /-- `std::terminate` was called from `unhandled_exception`. -/
  | terminated
  /-- Behaviour became undefined. -/
  | undefined
  deriving DecidableEq, Repr

/-- A transfer of control into a suspended coroutine. -/
inductive Event where
  /-- The call `handle.resume()` in the `for` loop of `processTimers`. -/
  | resumed (handle : Handle)
  /-- The symmetric transfer out of `final_suspend` of `src` into `dst`. -/
  | transferred (src dst : Handle)
  deriving DecidableEq, Repr

/-- The state of the process: all coroutine frames by address, the two static
vectors of `AsyncTimerTask`, and the clock.  `log` is a ghost field: the
history of control transfers, which no operation reads. -/
structure Machine (σ α : Type) where
  frames : List (Frame σ α)
  m_timerTasks : List AsyncTimerTask
  m_handlesToResume : List Handle
  clock : SteadyClock
  status : Status
  log : List Event

section Operations

variable {σ α : Type}

/-- The process at start-up: no frame, both static vectors empty. -/
def Machine.init (readings : Nat → TimePoint) : Machine σ α where
  frames := []
  m_timerTasks := []
  m_handlesToResume := []
  clock := ⟨readings, 0⟩
  status := .running
  log := []

/-- The live frame at address `h`: `h.promise()` and the frame state.  `none`
when `h` addresses no frame or a destroyed one (a dangling handle). -/
def Machine.frame? (m : Machine σ α) (h : Handle) : Option (Frame σ α) :=
  match m.frames[h]? with
  | some f => if f.destroyed then none else some f
  | none => none

/-- Overwrite the frame at address `h`. -/
def Machine.setFrame (m : Machine σ α) (h : Handle) (f : Frame σ α) : Machine σ α :=
  { m with frames := m.frames.set h f }

/-- Park the frame at `h` at the suspension point `p`. -/
def Machine.setPoint (m : Machine σ α) (h : Handle) (p : SuspendPoint σ α) : Machine σ α :=
  match m.frames[h]? with
  | some f => m.setFrame h { f with point := p }
  | none => m

/-- Behaviour becomes undefined. -/
def Machine.undefinedBehaviour (m : Machine σ α) : Machine σ α :=
  { m with status := .undefined }

/-- The hook `unhandled_exception` (lines 50-54): `std::terminate()`. -/
def unhandled_exception (m : Machine σ α) : Machine σ α :=
  { m with status := .terminated }

/-- Append a control transfer to the ghost log. -/
def Machine.record (m : Machine σ α) (e : Event) : Machine σ α :=
  { m with log := m.log ++ [e] }

/-- Allocation of a coroutine frame when a coroutine function is called: the
promise is default-constructed (`m_awaitingCoroutine` null, `m_value` empty)
and, `initial_suspend` being `std::suspend_never`, the body starts running.
The new frame gets the address `m.frames.length`. -/
def Machine.create (m : Machine σ α) (kind : PromiseKind) : Machine σ α :=
  { m with frames := m.frames ++
      [{ kind := kind, m_awaitingCoroutine := none, m_value := none,
         point := .running, destroyed := false }] }

/-- The call `m_coroutineHandle.destroy()`. -/
def Machine.destroy (m : Machine σ α) (h : Handle) : Machine σ α :=
  match m.frame? h with
  | some f => m.setFrame h { f with destroyed := true }
  | none => m.undefinedBehaviour

/-! ### `struct Task` -/

/-- The member `Task::isValid` (lines 178-181). -/
def Task.isValid (t : Task) : Bool :=
  t.m_coroutineHandle.isSome

/-- The member `Task::isAwaited` (lines 183-186).  It reads the promise without
a null check. -/
def Task.isAwaited (m : Machine σ α) (t : Task) : Outcome Bool :=
  match t.m_coroutineHandle with
  | none => .undefined
  | some h =>
    match m.frame? h with
    | none => .undefined
    | some f => .ok f.m_awaitingCoroutine.isSome

/-- The member `Task::isReady` (lines 168-176).  It names `m_value`, so it
exists for result-bearing tasks only. -/
def Task.isReady (m : Machine σ α) (t : Task) : Outcome Bool :=
  match t.m_coroutineHandle with
  | none => .ok false
  | some h =>
    match m.frame? h with
    | none => .undefined
    | some f =>
      match f.kind with
      | .void => .undefined
      | .value => .ok f.m_value.isSome

/-- The member `Task::get` (lines 188-196): the outcome and the state after
the call.  With a non-null handle it returns `std::move(*m_value)` without
testing `m_value`; the optional stays engaged and holds the moved-from value. -/
def Task.get [Movable α] (m : Machine σ α) (t : Task) : Outcome α × Machine σ α :=
  match t.m_coroutineHandle with
  | none => (.throws .getWithoutPromise, m)
  | some h =>
    match m.frame? h with
    | none => (.undefined, m)
    | some f =>
      match f.kind, f.m_value with
      | .value, some v => (.ok v, m.setFrame h { f with m_value := some (Movable.movedFrom v) })
      | _, _ => (.undefined, m)

/-- The destructor `Task::~Task` (lines 160-166). -/
def Task.drop (m : Machine σ α) (t : Task) : Machine σ α :=
  match t.m_coroutineHandle with
  | some h => m.destroy h
  | none => m

/-! ### Awaiting a duration: `AwaitTransform<TaskPromiseT, duration>` -/

/-- The hook `TimerAwaitable::await_ready` (lines 68-71). -/
def TimerAwaitable.await_ready (_m_duration : Duration) : Bool :=
  false

/-- The hook `TimerAwaitable::await_suspend` (lines 75-81): push
`AsyncTimerTask { now() + m_duration, h }` on `m_timerTasks`. -/
def TimerAwaitable.await_suspend (m : Machine σ α) (m_duration : Duration) (h : Handle) :
    Machine σ α :=
  { m with
    m_timerTasks := m.m_timerTasks ++ [⟨m.clock.now.1 + m_duration, h⟩]
    clock := m.clock.now.2 }

/-! ### Awaiting a task: `AwaitTransform<TaskPromiseT, Task<OtherTaskPromiseT>>` -/

/-- The function `transform` (lines 213-267): the two checks, then the
awaitable `TaskAwaitable { otherTask.m_coroutineHandle }`, represented by its
one member. -/
def transform (m : Machine σ α) (otherTask : Task) : Outcome Handle :=
  if !otherTask.isValid then .throws .awaitedWithoutPromise
  else
    match otherTask.isAwaited m, otherTask.m_coroutineHandle with
    | .ok true, _ => .throws .alreadyAwaited
    | .ok false, some h => .ok h
    | _, _ => .undefined

/-- The hook `TaskAwaitable::await_ready` (lines 229-239), on the frame
`m_otherCoroutineHandle` addresses. -/
def TaskAwaitable.await_ready (other : Frame σ α) : Bool :=
  match other.kind with
  | .void => false
  | .value => other.m_value.isSome

/-- The hook `TaskAwaitable::await_suspend` (lines 246-249). -/
def TaskAwaitable.await_suspend (m : Machine σ α) (m_otherCoroutineHandle : Handle)
    (thisCoroutine : Handle) : Machine σ α :=
  match m.frame? m_otherCoroutineHandle with
  | some f => m.setFrame m_otherCoroutineHandle { f with m_awaitingCoroutine := some thisCoroutine }
  | none => m.undefinedBehaviour

/-- The hook `TaskAwaitable::await_resume` (lines 252-262): nothing for a
`Task<void>`, else `std::move(*m_value)` of the awaited promise. -/
def TaskAwaitable.await_resume [Movable α] (m : Machine σ α) (m_otherCoroutineHandle : Handle) :
    Outcome (Option α) × Machine σ α :=
  match m.frame? m_otherCoroutineHandle with
  | none => (.undefined, m)
  | some f =>
    match f.kind, f.m_value with
    | .void, _ => (.ok none, m)
    | .value, some v =>
      (.ok (some v), m.setFrame m_otherCoroutineHandle { f with m_value := some (Movable.movedFrom v) })
    | .value, none => (.undefined, m)

/-! ### Completion: `return_value`, `return_void`, `final_suspend` -/

/-- The hook `TaskValuePromise::return_value` (lines 115-118) of the promise
of frame `h`. -/
def return_value (m : Machine σ α) (h : Handle) (val : α) : Machine σ α :=
  match m.frame? h with
  | some f => m.setFrame h { f with m_value := some val }
  | none => m.undefinedBehaviour

/-- The hook `TaskVoidPromise::return_void` (lines 123-125). -/
def return_void (m : Machine σ α) (_h : Handle) : Machine σ α :=
  m

/-- The hook `TransferAwaitable::await_suspend` of `final_suspend` (lines
61-96), on the promise of the completing frame: the coroutine to transfer
control to, with `none` for `std::noop_coroutine()`. -/
def final_suspend (promise : Frame σ α) : Option Handle :=
  match promise.m_awaitingCoroutine with
  | some awaiting => some awaiting
  | none => none

/-! ### Running coroutine bodies -/

/-- Resumption of the suspended coroutine `h`: its `await_resume` runs and
yields the control state the body continues in.  `none` when resuming has no
defined behaviour (dangling handle, coroutine not suspended or at its final
suspend point). -/
def resumePoint [Movable α] (m : Machine σ α) (h : Handle) : Option (Machine σ α × σ) :=
  match m.frame? h with
  | none => none
  | some f =>
    match f.point with
    | .timerAwait next => some (m.setPoint h .running, next)
    | .taskAwait other next =>
      match TaskAwaitable.await_resume (m.setPoint h .running) other with
      | (.ok r, m') => some (m', next r)
      | _ => none
    | .running => none
    | .finalSuspend => none

/-- The expression `co_await duration` in the running coroutine `h`
(`await_transform`, then the protocol on the `TimerAwaitable`): the state after
it, and the control state `h` goes on in when it was not suspended. -/
def coAwaitDuration (m : Machine σ α) (h : Handle) (duration : Duration) (next : σ) :
    Machine σ α × Option σ :=
  if TimerAwaitable.await_ready duration then (m, some next)
  else (TimerAwaitable.await_suspend (m.setPoint h (.timerAwait next)) duration h, none)

/-- The expression `co_await otherTask` in the running coroutine `h`
(`await_transform`, then the protocol on the `TaskAwaitable`): the state after
it, and the control state `h` goes on in when it was not suspended.  An
exception of `transform` escapes the body and reaches `unhandled_exception`. -/
def coAwaitTask [Movable α] (m : Machine σ α) (h : Handle) (otherTask : Task)
    (next : Option α → σ) : Machine σ α × Option σ :=
  match transform m otherTask with
  | .throws _ => (unhandled_exception m, none)
  | .undefined => (m.undefinedBehaviour, none)
  | .ok other =>
    match m.frame? other with
    | none => (m.undefinedBehaviour, none)
    | some f =>
      if TaskAwaitable.await_ready f then
        match TaskAwaitable.await_resume m other with
        | (.ok r, m') => (m', some (next r))
        | _ => (m.undefinedBehaviour, none)
      else
        (TaskAwaitable.await_suspend (m.setPoint h (.taskAwait other next)) other h, none)

/-- The final suspend point of coroutine `h`, reached after `return_value` or
`return_void`: `co_await promise.final_suspend()`.  The frame is parked for
good; control goes to the coroutine `TransferAwaitable::await_suspend` returns,
which is resumed on the spot (symmetric transfer), or back to the caller for
`std::noop_coroutine()`.  Returns the state and the coroutine to run next. -/
def finalSuspend [Movable α] (m : Machine σ α) (h : Handle) :
    Machine σ α × Option (Handle × σ) :=
  match m.frame? h with
  | none => (m.undefinedBehaviour, none)
  | some promise =>
    match final_suspend promise with
    | none => (m.setPoint h .finalSuspend, none)
    | some awaiting =>
      match resumePoint ((m.setPoint h .finalSuspend).record (.transferred h awaiting))
          awaiting with
      | none => (((m.setPoint h .finalSuspend).record (.transferred h awaiting)).undefinedBehaviour,
          none)
      | some (m', pc) => (m', some (awaiting, pc))

/-- Execution of the body of the running coroutine `h` from control state
`pc` until control returns to whoever called or resumed it.  Every coroutine
event costs one unit of `fuel`; `none` means the fuel ran out. -/
def run [Movable α] (code : σ → Instr σ α) :
    Nat → Machine σ α → Handle → σ → Option (Machine σ α)
  | 0, _, _, _ => none
  | fuel + 1, m, h, pc =>
    match code pc with
    | .awaitDuration duration next =>
      match coAwaitDuration m h duration next with
      | (m', some pc') => run code fuel m' h pc'
      | (m', none) => some m'
    | .awaitTask otherTask next =>
      match coAwaitTask m h otherTask next with
      | (m', some pc') => run code fuel m' h pc'
      | (m', none) => some m'
    | .call kind entry next =>
      match run code fuel (m.create kind) m.frames.length entry with
      | none => none
      | some m' =>
        if m'.status = .running then run code fuel m' h (next ⟨some m.frames.length⟩)
        else some m'
    | .dropTask t next =>
      if (Task.drop m t).status = .running then run code fuel (Task.drop m t) h next
      else some (Task.drop m t)
    | .coReturn val =>
      match finalSuspend (return_value m h val) h with
      | (m', some (awaiting, pc')) => run code fuel m' awaiting pc'
      | (m', none) => some m'
    | .coReturnVoid =>
      match finalSuspend (return_void m h) h with
      | (m', some (awaiting, pc')) => run code fuel m' awaiting pc'
      | (m', none) => some m'

/-- The call `handle.resume()` from outside any coroutine. -/
def resume [Movable α] (code : σ → Instr σ α) (fuel : Nat) (m : Machine σ α) (handle : Handle) :
    Option (Machine σ α) :=
  match resumePoint m handle with
  | none => some m.undefinedBehaviour
  | some (m', pc) => run code fuel m' handle pc

/-- The call of a coroutine function, with body starting at `entry`, from
outside any coroutine: `get_return_object` makes the task, the body runs to
its first suspension, and the task is returned. -/
def invoke [Movable α] (code : σ → Instr σ α) (fuel : Nat) (m : Machine σ α)
    (kind : PromiseKind) (entry : σ) : Option (Machine σ α × Task) :=
  match run code fuel (m.create kind) m.frames.length entry with
  | none => none
  | some m' => some (m', ⟨some m.frames.length⟩)

/-! ### `AsyncTimerTask::processTimers` -/

/-- The `for` loop of `processTimers` (lines 45-48) over the handles of
`m_handlesToResume` still to visit.  It stops when the process has died. -/
def resumeHandles [Movable α] (code : σ → Instr σ α) (fuel : Nat) :
    Machine σ α → List Handle → Option (Machine σ α)
  | m, [] => some m
  | m, handle :: rest =>
    if m.status = .running then
      match resume code fuel (m.record (.resumed handle)) handle with
      | none => none
      | some m' => resumeHandles code fuel m' rest
    else some m

/-- The state at the end of the scan phase of `processTimers` (lines 27-43):
`m_handlesToResume.clear()`, then the `while` loop from `m_timerTasks.begin()`. -/
def scanPhase (m : Machine σ α) : Machine σ α :=
  { m with
    clock := (scanTimers m.clock [] [] m.m_timerTasks).1
    m_timerTasks := (scanTimers m.clock [] [] m.m_timerTasks).2.1
    m_handlesToResume := (scanTimers m.clock [] [] m.m_timerTasks).2.2 }

/-- The function `AsyncTimerTask::processTimers` (lines 19-49). -/
def processTimers [Movable α] (code : σ → Instr σ α) (fuel : Nat) (m : Machine σ α) :
    Option (Machine σ α) :=
  if m.status = .running then
    resumeHandles code fuel (scanPhase m) (scanPhase m).m_handlesToResume
  else some m

/-- The handles `processTimers` called `resume()` on, oldest first, among the
control transfers `es`. -/
def resumedHandles : List Event → List Handle
  | [] => []
  | .resumed handle :: es => handle :: resumedHandles es
  | .transferred _ _ :: es => resumedHandles es

/-- The handles of the entries a scan finds due, in the order the scan meets
them: the entry met at the k-th call of `now()` is due when its `m_timePoint`
is earlier than that reading. -/
def dueHandles (clock : SteadyClock) : List AsyncTimerTask → List Handle
  | [] => []
  | timer :: rest =>
    if timer.m_timePoint < clock.now.1 then
      timer.m_coroutineHandle :: dueHandles clock.now.2 rest
    else dueHandles clock.now.2 rest

/-- The `m_awaitingCoroutine` stored in the frame at address `h`, whether the
frame was destroyed or not; `none` when it is null or there is no frame. -/
def Machine.awaiting? (m : Machine σ α) (h : Handle) : Option Handle :=
  m.frames[h]?.bind fun f => f.m_awaitingCoroutine

/-- One state change of the process: any await expression, coroutine call or
completion in any coroutine, the scan and any `resume()` of `processTimers`,
and `get()` or the destructor on any task object. -/
inductive Step [Movable α] : Machine σ α → Machine σ α → Prop where
  | awaitDuration (m : Machine σ α) (h : Handle) (duration : Duration) (next : σ) :
    Step m (coAwaitDuration m h duration next).1
  | awaitTask (m : Machine σ α) (h : Handle) (otherTask : Task) (next : Option α → σ) :
    Step m (coAwaitTask m h otherTask next).1
  | call (m : Machine σ α) (kind : PromiseKind) : Step m (m.create kind)
  | coReturn (m : Machine σ α) (h : Handle) (val : α) :
    Step m (finalSuspend (return_value m h val) h).1
  | coReturnVoid (m : Machine σ α) (h : Handle) :
    Step m (finalSuspend (return_void m h) h).1
  | scan (m : Machine σ α) : Step m (scanPhase m)
  | resume (m m' : Machine σ α) (handle : Handle) (pc : σ) :
    resumePoint (m.record (.resumed handle)) handle = some (m', pc) → Step m m'
  | resumeUndefined (m : Machine σ α) (handle : Handle) :
    Step m (m.record (.resumed handle)).undefinedBehaviour
  | get (m : Machine σ α) (t : Task) : Step m (Task.get m t).2
  | drop (m : Machine σ α) (t : Task) : Step m (Task.drop m t)

/-- The state `m'` is reached from `m` by a sequence of state changes. -/
def Reaches [Movable α] (m m' : Machine σ α) : Prop :=
  Relation.ReflTransGen Step m m'

/-! ### The process as its operations drive it -/

/-- The suspension point of the frame at address `h`, whether the frame was
destroyed or not; `none` when there is no frame. -/
def Machine.point? (m : Machine σ α) (h : Handle) : Option (SuspendPoint σ α) :=
  m.frames[h]?.map fun f => f.point

/-- Whether the frame at address `h` holds a result in `m_value`. -/
def Machine.hasValue (m : Machine σ α) (h : Handle) : Bool :=
  (m.frames[h]?.bind fun f => f.m_value).isSome

/-- The coroutine `h` is not suspended: it executes, or waits on the call stack
for a coroutine it called or that was resumed on top of it. -/
def Machine.Running (m : Machine σ α) (h : Handle) : Prop :=
  m.point? h = some .running

/-- The handles a `resume()` of `processTimers` is due to: those of the pending
entries, then those `queue` holds, which the `for` loop of a `processTimers`
call under way has still to visit. -/
def pendingHandles (m : Machine σ α) (queue : List Handle) : List Handle :=
  m.m_timerTasks.map AsyncTimerTask.m_coroutineHandle ++ queue

/-- One state change of the process as its operations make it, on the state
and the handles the `for` loop of a `processTimers` call under way has still to
visit.  It is a `Step` made in its place: an await expression or a completion
is made by a coroutine that is running, the scan starts a `processTimers` call
when none is under way, and `resume()` is called on the next handle of the
loop. -/
inductive Move [Movable α] :
    Machine σ α × List Handle → Machine σ α × List Handle → Prop where
  | awaitDuration (m : Machine σ α) (queue : List Handle) (h : Handle) (duration : Duration)
      (next : σ) : m.Running h → Move (m, queue) ((coAwaitDuration m h duration next).1, queue)
  | awaitTask (m : Machine σ α) (queue : List Handle) (h : Handle) (otherTask : Task)
      (next : Option α → σ) :
      m.Running h → Move (m, queue) ((coAwaitTask m h otherTask next).1, queue)
  | call (m : Machine σ α) (queue : List Handle) (kind : PromiseKind) :
      Move (m, queue) (m.create kind, queue)
  | coReturn (m : Machine σ α) (queue : List Handle) (h : Handle) (val : α) :
      m.Running h → Move (m, queue) ((finalSuspend (return_value m h val) h).1, queue)
  | coReturnVoid (m : Machine σ α) (queue : List Handle) (h : Handle) :
      m.Running h → Move (m, queue) ((finalSuspend (return_void m h) h).1, queue)
  | scan (m : Machine σ α) : Move (m, []) (scanPhase m, (scanPhase m).m_handlesToResume)
  | resume (m m' : Machine σ α) (queue : List Handle) (handle : Handle) (pc : σ) :
      resumePoint (m.record (.resumed handle)) handle = some (m', pc) →
      Move (m, handle :: queue) (m', queue)
  | resumeUndefined (m : Machine σ α) (queue : List Handle) (handle : Handle) :
      Move (m, handle :: queue) ((m.record (.resumed handle)).undefinedBehaviour, queue)
  | leave (m : Machine σ α) (queue : List Handle) : Move (m, queue) (m, [])
  | get (m : Machine σ α) (queue : List Handle) (t : Task) :
      Move (m, queue) ((Task.get m t).2, queue)
  | drop (m : Machine σ α) (queue : List Handle) (t : Task) :
      Move (m, queue) (Task.drop m t, queue)

/-- The state and loop position `c'` are reached from `c` by a sequence of
state changes of the process. -/
def MoveReaches [Movable α] (c c' : Machine σ α × List Handle) : Prop :=
  Relation.ReflTransGen Move c c'

/-- The shape the frames and the pending handles have in every state of the
process: a frame a `resume()` of `processTimers` is due to is suspended in a
`TimerAwaitable`; no frame is due to two of them; a frame that has not
completed and records an awaiting coroutine is awaited by it, suspended in a
`TaskAwaitable` on that frame; and a frame that holds a result has completed. -/
structure WellFormed (m : Machine σ α) (queue : List Handle) : Prop where
  parked : ∀ h ∈ pendingHandles m queue, ∃ next, m.point? h = some (.timerAwait next)
  distinct : (pendingHandles m queue).Nodup
  awaited : ∀ c p, m.awaiting? c = some p → m.point? c ≠ some .finalSuspend →
    ∃ next, m.point? p = some (.taskAwait c next)
  completed : ∀ c, m.hasValue c = true → m.point? c = some .finalSuspend

/-! ### Moving task objects -/

/-- The move constructor `Task(Task&& other)` (lines 141-144), whose member
initialiser is `std::exchange(other.m_coroutineHandle, nullptr)`: the object
constructed, and `other` after the call. -/
def Task.moveConstruct (other : Task) : Task × Task :=
  (⟨other.m_coroutineHandle⟩, ⟨none⟩)

/-- The move constructor on the task objects of the program, kept by address
in `tasks`: the object at address `other` is moved into a new object, which
gets the address `tasks.length`. -/
def moveConstructAt (tasks : List Task) (other : Nat) : List Task :=
  match tasks[other]? with
  | some o => tasks.set other (Task.moveConstruct o).2 ++ [(Task.moveConstruct o).1]
  | none => tasks

/-- The second operand of the test of `operator=` (line 148),
`std::addressof(other.m_coroutineHandle) == m_coroutineHandle`.  Its left side
is a pointer to a handle and its right side a handle; `std::coroutine_handle`
has `operator==` between two handles only and converts neither from nor to a
pointer, so the expression has no value and `operator=` cannot be
instantiated. -/
def handleAddressEqHandle (_other _this : Task) : Outcome Bool :=
  .undefined

/-- The statements of `operator=` after its test (lines 150-157), on the
objects at the addresses `this` and `other`: destroy the frame `this` holds, if
any, then `m_coroutineHandle = std::exchange(other.m_coroutineHandle, nullptr)`. -/
def assignAfterTest (m : Machine σ α) (tasks : List Task) (this other : Nat) :
    Machine σ α × List Task :=
  match tasks[this]?, tasks[other]? with
  | some dst, some src =>
    (Task.drop m dst, (tasks.set this ⟨src.m_coroutineHandle⟩).set other ⟨none⟩)
  | _, _ => (m, tasks)

/-- The move assignment `Task::operator=(Task&& other)` (lines 146-158) on the
objects at the addresses `this` and `other`.  The test is
`std::addressof(other) == this || ...`, whose second operand is evaluated when
the objects differ. -/
def moveAssignAt (m : Machine σ α) (tasks : List Task) (this other : Nat) :
    Outcome (Machine σ α × List Task) :=
  match tasks[this]?, tasks[other]? with
  | some dst, some src =>
    match (if other = this then Outcome.ok true else handleAddressEqHandle src dst) with
    | .ok true => .ok (m, tasks)
    | .ok false => .ok (assignAfterTest m tasks this other)
    | .throws e => .throws e
    | .undefined => .undefined
  | _, _ => .undefined

/-- Every task object is empty or the only one that holds its frame. -/
def SoleOwners (tasks : List Task) : Prop :=
  ∀ (i j : Nat) (h : Handle), tasks[i]? = some ⟨some h⟩ → tasks[j]? = some ⟨some h⟩ → i = j

/-- Every frame of `m` is still there in `m'`, at the same address, and is
related to what it has become by `P`. -/
def FramesRelated (P : Frame σ α → Frame σ α → Prop) (m m' : Machine σ α) : Prop :=
  ∀ (c : Handle) (f : Frame σ α), m.frames[c]? = some f →
    ∃ f', m'.frames[c]? = some f' ∧ P f f'

/-- A relation between a frame and what it becomes that is reflexive and
transitive and holds across the updates the library makes on a frame apart
from `return_value` and `destroy`: parking it at another suspension point,
recording an awaiting coroutine where there was none, and moving its result
out. -/
structure FrameOrder [Movable α] (P : Frame σ α → Frame σ α → Prop) : Prop where
  refl : ∀ f, P f f
  trans : ∀ f g k, P f g → P g k → P f k
  point : ∀ f p, P f { f with point := p }
  awaiting : ∀ f t, f.m_awaitingCoroutine = none → P f { f with m_awaitingCoroutine := some t }
  moved : ∀ f v, f.m_value = some v → P f { f with m_value := some (Movable.movedFrom v) }

end Operations

/-! ## Task bodies of the scenarios -/

/-- Control states of the coroutine functions used in the scenarios:
`delay(d, v)`, which is `task1` of `src/main.cpp` with the delay as a
parameter (`co_await d; co_return v;`); `parent(d, v)`, whose body is
`int r = co_await delay(d, v); co_return r + 1;`; `constant(v)`,
whose body is `co_return v;`; and `twice(v)`, whose body is
`auto c = constant(v); int a = co_await c; int b = co_await c; co_return a + b;`. -/
inductive Demo where
  | delayEntry (d : Duration) (v : Int)
  | delayReturn (v : Int)
  | parentEntry (d : Duration) (v : Int)
  | parentAwait (c : Task)
  | parentDrop (c : Task) (r : Option Int)
  | parentReturn (r : Option Int)
  | constantEntry (v : Int)
  | twiceEntry (v : Int)
  | twiceFirst (c : Task)
  | twiceSecond (c : Task) (a : Option Int)
  | twiceDrop (c : Task) (a b : Option Int)
  | twiceReturn (a b : Option Int)

/-- The bodies of the scenario coroutines, one coroutine event per control
state.  The task object a body made is destroyed where its lifetime ends: the
temporary of `parent` after the await expression, the local `c` of `twice` at
the `co_return`.  An await of a `Task<int>` always yields a value; the value 0
stands in where the table has to cover `none`. -/
def demoCode : Demo → Instr Demo Int
  | .delayEntry d v => .awaitDuration d (.delayReturn v)
  | .delayReturn v => .coReturn v
  | .parentEntry d v => .call .value (.delayEntry d v) .parentAwait
  | .parentAwait c => .awaitTask c (.parentDrop c)
  | .parentDrop c r => .dropTask c (.parentReturn r)
  | .parentReturn r => .coReturn (r.getD 0 + 1)
  | .constantEntry v => .coReturn v
  | .twiceEntry v => .call .value (.constantEntry v) .twiceFirst
  | .twiceFirst c => .awaitTask c (.twiceSecond c)
  | .twiceSecond c a => .awaitTask c (.twiceDrop c a)
  | .twiceDrop c a b => .dropTask c (.twiceReturn a b)
  | .twiceReturn a b => .coReturn (a.getD 0 + b.getD 0)

/-- A clock for the scenarios: it reads 0 at its first two calls and 1000 at
every later call. -/
def demoReadings : Nat → TimePoint :=
  fun n => if n < 2 then 0 else 1000

/-- The process in which `delay(200, 1)` and then `delay(100, 2)` have been
called at time 0 and both are suspended on their timers: frame 0 is due at
200, frame 1 at 100, and the entry of frame 0 was inserted first. -/
def twoDelays : Machine Demo Int where
  frames :=
    [{ kind := .value, m_awaitingCoroutine := none, m_value := none,
       point := .timerAwait (.delayReturn 1), destroyed := false },
     { kind := .value, m_awaitingCoroutine := none, m_value := none,
       point := .timerAwait (.delayReturn 2), destroyed := false }]
  m_timerTasks := [⟨200, 0⟩, ⟨100, 1⟩]
  m_handlesToResume := []
  clock := ⟨demoReadings, 2⟩
  status := .running
  log := []

/-- The process in which three timers are pending, due at 5, 20 and 7, and the
clock reads 10. -/
def threeTimers : Machine Demo Int where
  frames := []
  m_timerTasks := [⟨5, 0⟩, ⟨20, 1⟩, ⟨7, 2⟩]
  m_handlesToResume := [4]
  clock := ⟨fun _ => 10, 0⟩
  status := .running
  log := []

/-- A clock for the scenarios that advances by 60 ticks from one call to the
next. -/
def tickReadings : Nat → TimePoint :=
  fun n => 60 * n

/-- The process in which `parent(d, 3)` was called and, its delay over, the
`for` loop of `processTimers` has just resumed the child: frame 0 (the parent)
is suspended awaiting frame 1 (the child), which runs and is about to execute
`co_return 3;`. -/
def childResumed : Machine Demo Int where
  frames :=
    [{ kind := .value, m_awaitingCoroutine := none, m_value := none,
       point := .taskAwait 1 (.parentDrop ⟨some 1⟩), destroyed := false },
     { kind := .value, m_awaitingCoroutine := some 0, m_value := none,
       point := .running, destroyed := false }]
  m_timerTasks := []
  m_handlesToResume := [1]
  clock := ⟨tickReadings, 2⟩
  status := .running
  log := [.resumed 1]

/-- The process in which `delay(100, 7)` was called at time 0 and a
`processTimers` call at time 60 has left it pending. -/
def delayPending : Machine Demo Int where
  frames :=
    [{ kind := .value, m_awaitingCoroutine := none, m_value := none,
       point := .timerAwait (.delayReturn 7), destroyed := false }]
  m_timerTasks := [⟨100, 0⟩]
  m_handlesToResume := []
  clock := ⟨tickReadings, 2⟩
  status := .running
  log := []

/-- The process `delayPending` after a `processTimers` call at time 120: the
task has completed with the result 7. -/
def delayFinished : Machine Demo Int where
  frames :=
    [{ kind := .value, m_awaitingCoroutine := none, m_value := some 7,
       point := .finalSuspend, destroyed := false }]
  m_timerTasks := []
  m_handlesToResume := [0]
  clock := ⟨tickReadings, 3⟩
  status := .running
  log := [.resumed 0]

/-- The process in which the body of `parent(500, 3)`, called at time 0, has
called its child and is about to await it: frame 0 (the parent) runs, frame 1
(the child) is suspended on its timer and nobody awaits it yet. -/
def childPending : Machine Demo Int where
  frames :=
    [{ kind := .value, m_awaitingCoroutine := none, m_value := none,
       point := .running, destroyed := false },
     { kind := .value, m_awaitingCoroutine := none, m_value := none,
       point := .timerAwait (.delayReturn 3), destroyed := false }]
  m_timerTasks := [⟨500, 1⟩]
  m_handlesToResume := []
  clock := ⟨tickReadings, 1⟩
  status := .running
  log := []

/-- The process in which the body of `twice(7)` has called `constant(7)`,
which ran to completion at once, and is about to await the returned task for
the first time: frame 0 (`twice`) runs, frame 1 (`constant`) is at its final
suspend point with the result 7 and nobody awaiting it. -/
def constantDone : Machine Demo Int where
  frames :=
    [{ kind := .value, m_awaitingCoroutine := none, m_value := none,
       point := .running, destroyed := false },
     { kind := .value, m_awaitingCoroutine := none, m_value := some 7,
       point := .finalSuspend, destroyed := false }]
  m_timerTasks := []
  m_handlesToResume := []
  clock := ⟨tickReadings, 0⟩
  status := .running
  log := []

/-- Control states of the coroutine functions of the scenarios with tasks that
have no result: `pause(d)`, which is `task2` of `src/main.cpp` with the delay
as a parameter (a `Task<void>` whose body is `co_await d;`); `nothing()`, a
`Task<void>` with an empty body; `unit()`, a `Task<int>` whose body is
`co_return 0;`; `waiter()`, a `Task<void>` whose body is
`auto c = nothing(); co_await c;`; and `spinner()`, a `Task<void>` whose body
is `co_await 0s; auto c = unit(); for (;;) co_await c;`. -/
inductive Scene where
  | pauseEntry (d : Duration)
  | pauseEnd
  | nothingEntry
  | unitEntry
  | waiterEntry
  | waiterAwait (c : Task)
  | waiterDrop (c : Task)
  | waiterEnd
  | spinnerEntry
  | spinnerCall
  | spinnerLoop (c : Task)

/-- The bodies of the coroutines of `Scene`, one coroutine event per control
state. -/
def sceneCode : Scene → Instr Scene Int
  | .pauseEntry d => .awaitDuration d .pauseEnd
  | .pauseEnd => .coReturnVoid
  | .nothingEntry => .coReturnVoid
  | .unitEntry => .coReturn 0
  | .waiterEntry => .call .void .nothingEntry .waiterAwait
  | .waiterAwait c => .awaitTask c (fun _ => .waiterDrop c)
  | .waiterDrop c => .dropTask c .waiterEnd
  | .waiterEnd => .coReturnVoid
  | .spinnerEntry => .awaitDuration 0 .spinnerCall
  | .spinnerCall => .call .value .unitEntry .spinnerLoop
  | .spinnerLoop c => .awaitTask c (fun _ => .spinnerLoop c)

/-- The process in which `pause(100)` was called at time 0, was left pending
by a `processTimers` call at time 60 and resumed by one at time 120: its body
has run to completion. -/
def pauseFinished : Machine Scene Int where
  frames :=
    [{ kind := .void, m_awaitingCoroutine := none, m_value := none,
       point := .finalSuspend, destroyed := false }]
  m_timerTasks := []
  m_handlesToResume := [0]
  clock := ⟨tickReadings, 3⟩
  status := .running
  log := [.resumed 0]

/-- The process in which the body of `waiter()` has called `nothing()`, which
ran to completion at once, and is about to await the returned task: frame 0
(`waiter`) runs, frame 1 (`nothing`) is at its final suspend point and nobody
awaits it. -/
def nothingDone : Machine Scene Int where
  frames :=
    [{ kind := .void, m_awaitingCoroutine := none, m_value := none,
       point := .running, destroyed := false },
     { kind := .void, m_awaitingCoroutine := none, m_value := none,
       point := .finalSuspend, destroyed := false }]
  m_timerTasks := []
  m_handlesToResume := []
  clock := ⟨tickReadings, 0⟩
  status := .running
  log := []

/-- The process in which `spinner()` was called at time 0 and is suspended on
its timer of zero duration. -/
def spinnerPending : Machine Scene Int where
  frames :=
    [{ kind := .void, m_awaitingCoroutine := none, m_value := none,
       point := .timerAwait .spinnerCall, destroyed := false }]
  m_timerTasks := [⟨0, 0⟩]
  m_handlesToResume := []
  clock := ⟨tickReadings, 1⟩
  status := .running
  log := []

/-- The process in which a `processTimers` call at time 60 has resumed the
`spinner()` of `spinnerPending`, whose body has called `unit()` and is in its
loop: frame 0 (`spinner`) runs, frame 1 (`unit`) has completed with the
result 0. -/
def spinnerLooping : Machine Scene Int where
  frames :=
    [{ kind := .void, m_awaitingCoroutine := none, m_value := none,
       point := .running, destroyed := false },
     { kind := .value, m_awaitingCoroutine := none, m_value := some 0,
       point := .finalSuspend, destroyed := false }]
  m_timerTasks := []
  m_handlesToResume := [0]
  clock := ⟨tickReadings, 2⟩
  status := .running
  log := [.resumed 0]

/-- The body of `ticker()`, a `Task<void>` that awaits a zero duration for
ever: `for (;;) co_await 0s;`.  It has one control state. -/
def tickerCode : Unit → Instr Unit Int :=
  fun _ => .awaitDuration 0 ()

/-- The process in which `ticker()` was called at time 0 and is suspended on
its first timer of zero duration. -/
def tickerPending : Machine Unit Int where
  frames :=
    [{ kind := .void, m_awaitingCoroutine := none, m_value := none,
       point := .timerAwait (), destroyed := false }]
  m_timerTasks := [⟨0, 0⟩]
  m_handlesToResume := []
  clock := ⟨tickReadings, 1⟩
  status := .running
  log := []

/-- The process `tickerPending` after a `processTimers` call at time 60: the
call has resumed `ticker()`, which awaited a zero duration again at time 120. -/
def tickerAgain : Machine Unit Int where
  frames :=
    [{ kind := .void, m_awaitingCoroutine := none, m_value := none,
       point := .timerAwait (), destroyed := false }]
  m_timerTasks := [⟨120, 0⟩]
  m_handlesToResume := [0]
  clock := ⟨tickReadings, 3⟩
  status := .running
  log := [.resumed 0]

/-! ## The scan phase of `processTimers` -/

section Scan

variable {σ α : Type}

/-- The scan loop under a clock that reads `now` at each of its calls: the
entries not due are kept in order behind `kept`, the handles of the due ones are
pushed in order behind `handles`, and the clock was read once per entry. -/
theorem scanTimers_constant_clock (now : TimePoint) (rest : List AsyncTimerTask) :
    ∀ (clock : SteadyClock) (kept : List AsyncTimerTask) (handles : List Handle),
      (∀ i, i < rest.length → clock.readings (clock.calls + i) = now) →
      scanTimers clock kept handles rest =
        (⟨clock.readings, clock.calls + rest.length⟩,
          kept ++ rest.filter (fun t => !decide (t.m_timePoint < now)),
          handles ++ (rest.filter (fun t => decide (t.m_timePoint < now))).map
            AsyncTimerTask.m_coroutineHandle) := by
  induction rest with
  | nil => intro clock kept handles _; simp [scanTimers]
  | cons timer rest ih =>
    intro clock kept handles hclock
    have hnow : clock.now.1 = now := by simpa [SteadyClock.now] using hclock 0 (by simp)
    have hrest : ∀ i, i < rest.length →
        clock.now.2.readings (clock.now.2.calls + i) = now := by
      intro i hi
      have := hclock (i + 1) (by simpa using hi)
      simpa [SteadyClock.now, Nat.add_assoc, Nat.add_comm 1 i] using this
    have hcalls : clock.now.2.calls + rest.length = clock.calls + (rest.length + 1) := by
      simp [SteadyClock.now]; omega
    have hread : clock.now.2.readings = clock.readings := rfl
    by_cases hdue : timer.m_timePoint < now
    · simp [scanTimers, hnow, hdue, ih _ _ _ hrest, hcalls, hread]
    · simp [scanTimers, hnow, hdue, ih _ _ _ hrest, hcalls, hread]

/-- Claim C1.  For every pending set and every clock reading `now` (the clock
reads `now` at each of the calls the scan makes), the scan phase of
`processTimers` leaves in `m_timerTasks` exactly the entries that are not due,
unchanged and in their original order, removes exactly the entries whose
`m_timePoint` is earlier than `now`, and leaves in `m_handlesToResume` exactly
the handles of the removed entries, in order of encounter. -/
theorem scanPhase_keeps_not_due_moves_due (m : Machine σ α) (now : TimePoint)
    (hclock : ∀ i, i < m.m_timerTasks.length → m.clock.readings (m.clock.calls + i) = now) :
    (scanPhase m).m_timerTasks =
        m.m_timerTasks.filter (fun t => !decide (t.m_timePoint < now)) ∧
      (scanPhase m).m_handlesToResume =
        (m.m_timerTasks.filter (fun t => decide (t.m_timePoint < now))).map
          AsyncTimerTask.m_coroutineHandle := by
  have hscan := scanTimers_constant_clock now m.m_timerTasks m.clock [] [] hclock
  constructor
  · show (scanTimers m.clock [] [] m.m_timerTasks).2.1 = _
    rw [hscan]
    simp
  · show (scanTimers m.clock [] [] m.m_timerTasks).2.2 = _
    rw [hscan]
    simp

theorem scanPhase_keeps_not_due_moves_due_witness :
    (scanPhase threeTimers).m_timerTasks = [⟨20, 1⟩] ∧
      (scanPhase threeTimers).m_handlesToResume = [0, 2] := by
  have h := scanPhase_keeps_not_due_moves_due threeTimers 10 (fun _ _ => rfl)
  exact ⟨h.1.trans (by decide), h.2.trans (by decide)⟩

end Scan

/-! ## The log of control transfers -/

section Log

variable {σ α : Type}

theorem resumedHandles_append (es fs : List Event) :
    resumedHandles (es ++ fs) = resumedHandles es ++ resumedHandles fs := by
  induction es with
  | nil => rfl
  | cons e es ih => cases e <;> simp [resumedHandles, ih]

@[simp] theorem setFrame_log (m : Machine σ α) (h : Handle) (f : Frame σ α) :
    (m.setFrame h f).log = m.log := rfl

@[simp] theorem setPoint_log (m : Machine σ α) (h : Handle) (p : SuspendPoint σ α) :
    (m.setPoint h p).log = m.log := by
  unfold Machine.setPoint; split <;> rfl

@[simp] theorem return_value_log (m : Machine σ α) (h : Handle) (v : α) :
    (return_value m h v).log = m.log := by
  unfold return_value; split <;> rfl

@[simp] theorem timer_await_suspend_log (m : Machine σ α) (d : Duration) (h : Handle) :
    (TimerAwaitable.await_suspend m d h).log = m.log := rfl

@[simp] theorem task_await_suspend_log (m : Machine σ α) (o h : Handle) :
    (TaskAwaitable.await_suspend m o h).log = m.log := by
  unfold TaskAwaitable.await_suspend; split <;> rfl

@[simp] theorem await_resume_log [Movable α] (m : Machine σ α) (o : Handle) :
    (TaskAwaitable.await_resume m o).2.log = m.log := by
  unfold TaskAwaitable.await_resume; split
  · rfl
  · split <;> rfl

@[simp] theorem drop_log (m : Machine σ α) (t : Task) : (Task.drop m t).log = m.log := by
  unfold Task.drop Machine.destroy
  cases t.m_coroutineHandle with
  | none => rfl
  | some h => simp only []; split <;> rfl

theorem resumePoint_log [Movable α] {m m' : Machine σ α} {h : Handle} {pc : σ}
    (hr : resumePoint m h = some (m', pc)) : m'.log = m.log := by
  unfold resumePoint at hr
  cases hf : m.frame? h with
  | none => simp [hf] at hr
  | some f =>
    simp only [hf] at hr
    cases hp : f.point with
    | running => simp [hp] at hr
    | finalSuspend => simp [hp] at hr
    | timerAwait next => simp [hp] at hr; rw [← hr.1]; simp
    | taskAwait o next =>
      simp only [hp] at hr
      have h1 := await_resume_log (m.setPoint h .running) o
      rcases ha : TaskAwaitable.await_resume (m.setPoint h .running) o with ⟨r, m1⟩
      rw [ha] at hr h1
      cases r with
      | ok r => simp at hr h1; rw [← hr.1, h1]
      | throws e => simp at hr
      | undefined => simp at hr

theorem coAwaitDuration_log {m m1 : Machine σ α} {h : Handle} {d : Duration} {next : σ}
    {c : Option σ} (hc : coAwaitDuration m h d next = (m1, c)) : m1.log = m.log := by
  simp [coAwaitDuration, TimerAwaitable.await_ready] at hc
  rw [← hc.1]; simp

theorem coAwaitTask_log [Movable α] {m m1 : Machine σ α} {h : Handle} {t : Task}
    {next : Option α → σ} {c : Option σ} (hc : coAwaitTask m h t next = (m1, c)) :
    m1.log = m.log := by
  unfold coAwaitTask at hc
  cases ht : transform m t with
  | throws e => simp [ht] at hc; rw [← hc.1]; rfl
  | undefined => simp [ht] at hc; rw [← hc.1]; rfl
  | ok o =>
    simp only [ht] at hc
    cases hf : m.frame? o with
    | none => simp [hf] at hc; rw [← hc.1]; rfl
    | some f =>
      simp only [hf] at hc
      by_cases hready : TaskAwaitable.await_ready f = true
      · simp only [hready, if_true] at hc
        have h1 := await_resume_log m o
        rcases ha : TaskAwaitable.await_resume m o with ⟨r, m2⟩
        rw [ha] at hc h1
        cases r with
        | ok r => simp at hc h1; rw [← hc.1, h1]
        | throws e => simp at hc; rw [← hc.1]; rfl
        | undefined => simp at hc; rw [← hc.1]; rfl
      · simp [hready] at hc
        rw [← hc.1]; simp

/-- The final suspend point logs nothing, or the one symmetric transfer. -/
theorem finalSuspend_log [Movable α] {m m1 : Machine σ α} {h : Handle}
    {c : Option (Handle × σ)} (hc : finalSuspend m h = (m1, c)) :
    ∃ es, m1.log = m.log ++ es ∧ resumedHandles es = [] := by
  unfold finalSuspend at hc
  cases hf : m.frame? h with
  | none => simp [hf] at hc; exact ⟨[], by rw [← hc.1]; simp [Machine.undefinedBehaviour], rfl⟩
  | some f =>
    simp only [hf] at hc
    cases hs : final_suspend f with
    | none => simp [hs] at hc; exact ⟨[], by rw [← hc.1]; simp, rfl⟩
    | some awaiting =>
      simp only [hs] at hc
      cases hr : resumePoint ((m.setPoint h .finalSuspend).record (.transferred h awaiting))
          awaiting with
      | none =>
        simp [hr] at hc
        exact ⟨[.transferred h awaiting],
          by rw [← hc.1]; simp [Machine.undefinedBehaviour, Machine.record], rfl⟩
      | some x =>
        obtain ⟨m2, pc⟩ := x
        simp [hr] at hc
        exact ⟨[.transferred h awaiting],
          by rw [← hc.1, resumePoint_log hr]; simp [Machine.record], rfl⟩

/-- Running a coroutine body only appends symmetric transfers to the log. -/
theorem run_log [Movable α] (code : σ → Instr σ α) :
    ∀ (fuel : Nat) (m : Machine σ α) (h : Handle) (pc : σ) (m' : Machine σ α),
      run code fuel m h pc = some m' →
      ∃ es, m'.log = m.log ++ es ∧ resumedHandles es = [] := by
  intro fuel
  induction fuel with
  | zero => intro m h pc m' hr; simp [run] at hr
  | succ fuel ih =>
    intro m h pc m' hr
    rw [run] at hr
    cases hi : code pc with
    | awaitDuration d next =>
      simp only [hi] at hr
      rcases hc : coAwaitDuration m h d next with ⟨m1, _ | pc1⟩
      · simp [hc] at hr
        exact ⟨[], by rw [← hr, coAwaitDuration_log hc]; simp, rfl⟩
      · simp only [hc] at hr
        obtain ⟨es, he, hn⟩ := ih _ _ _ _ hr
        exact ⟨es, by rw [he, coAwaitDuration_log hc], hn⟩
    | awaitTask t next =>
      simp only [hi] at hr
      rcases hc : coAwaitTask m h t next with ⟨m1, _ | pc1⟩
      · simp [hc] at hr
        exact ⟨[], by rw [← hr, coAwaitTask_log hc]; simp, rfl⟩
      · simp only [hc] at hr
        obtain ⟨es, he, hn⟩ := ih _ _ _ _ hr
        exact ⟨es, by rw [he, coAwaitTask_log hc], hn⟩
    | call kind entry next =>
      simp only [hi] at hr
      cases hc : run code fuel (m.create kind) m.frames.length entry with
      | none => simp [hc] at hr
      | some m1 =>
        simp only [hc] at hr
        obtain ⟨es, he, hn⟩ := ih _ _ _ _ hc
        have he1 : m1.log = m.log ++ es := by simpa [Machine.create] using he
        by_cases hs : m1.status = .running
        · simp only [hs, if_true] at hr
          obtain ⟨fs, hf, hm⟩ := ih _ _ _ _ hr
          exact ⟨es ++ fs, by rw [hf, he1]; simp, by simp [resumedHandles_append, hn, hm]⟩
        · simp [hs] at hr
          exact ⟨es, by rw [← hr, he1], hn⟩
    | dropTask t next =>
      simp only [hi] at hr
      by_cases hs : (Task.drop m t).status = .running
      · simp only [hs, if_true] at hr
        obtain ⟨es, he, hn⟩ := ih _ _ _ _ hr
        exact ⟨es, by rw [he, drop_log], hn⟩
      · simp [hs] at hr
        exact ⟨[], by rw [← hr, drop_log]; simp, rfl⟩
    | coReturn val =>
      simp only [hi] at hr
      rcases hc : finalSuspend (return_value m h val) h with ⟨m1, _ | ⟨p, pc1⟩⟩
      · simp [hc] at hr
        obtain ⟨es, he, hn⟩ := finalSuspend_log hc
        exact ⟨es, by rw [← hr, he]; simp, hn⟩
      · simp only [hc] at hr
        obtain ⟨es, he, hn⟩ := finalSuspend_log hc
        obtain ⟨fs, hf, hm⟩ := ih _ _ _ _ hr
        exact ⟨es ++ fs, by rw [hf, he]; simp, by simp [resumedHandles_append, hn, hm]⟩
    | coReturnVoid =>
      simp only [hi] at hr
      rcases hc : finalSuspend (return_void m h) h with ⟨m1, _ | ⟨p, pc1⟩⟩
      · simp [hc] at hr
        obtain ⟨es, he, hn⟩ := finalSuspend_log hc
        exact ⟨es, by rw [← hr, he]; simp [return_void], hn⟩
      · simp only [hc] at hr
        obtain ⟨es, he, hn⟩ := finalSuspend_log hc
        obtain ⟨fs, hf, hm⟩ := ih _ _ _ _ hr
        exact ⟨es ++ fs, by rw [hf, he]; simp [return_void],
          by simp [resumedHandles_append, hn, hm]⟩

/-- The buffer the scan loop leaves is the buffer it started with followed by
the handles of the due entries. -/
theorem scanTimers_handles (rest : List AsyncTimerTask) :
    ∀ (clock : SteadyClock) (kept : List AsyncTimerTask) (handles : List Handle),
      (scanTimers clock kept handles rest).2.2 = handles ++ dueHandles clock rest := by
  induction rest with
  | nil => intro clock kept handles; simp [scanTimers, dueHandles]
  | cons timer rest ih =>
    intro clock kept handles
    by_cases hdue : timer.m_timePoint < clock.now.1
    · simp [scanTimers, dueHandles, hdue, ih]
    · simp [scanTimers, dueHandles, hdue, ih]

theorem scanPhase_handles (m : Machine σ α) :
    (scanPhase m).m_handlesToResume = dueHandles m.clock m.m_timerTasks := by
  simp [scanPhase, scanTimers_handles]

/-- A handle found due belongs to an entry that is earlier than one of the
readings of the scan. -/
theorem mem_dueHandles (rest : List AsyncTimerTask) :
    ∀ (clock : SteadyClock) (x : Handle), x ∈ dueHandles clock rest →
      ∃ e ∈ rest, e.m_coroutineHandle = x ∧
        ∃ i, i < rest.length ∧ e.m_timePoint < clock.readings (clock.calls + i) := by
  induction rest with
  | nil => intro clock x hx; simp [dueHandles] at hx
  | cons timer rest ih =>
    intro clock x hx
    have hshift : ∀ e ∈ rest, e.m_coroutineHandle = x →
        (∃ i, i < rest.length ∧ e.m_timePoint < clock.now.2.readings (clock.now.2.calls + i)) →
        ∃ e', e' ∈ timer :: rest ∧ e'.m_coroutineHandle = x ∧
          ∃ i, i < (timer :: rest).length ∧ e'.m_timePoint < clock.readings (clock.calls + i) := by
      intro e he hx ⟨i, hi, hlt⟩
      refine ⟨e, List.mem_cons_of_mem _ he, hx, i + 1, by simpa using hi, ?_⟩
      simpa [SteadyClock.now, Nat.add_assoc, Nat.add_comm 1 i] using hlt
    by_cases hdue : timer.m_timePoint < clock.now.1
    · simp only [dueHandles, hdue, if_true, List.mem_cons] at hx
      rcases hx with hx | hx
      · exact ⟨timer, List.mem_cons_self _ _, hx.symm, 0, by simp,
          by simpa [SteadyClock.now] using hdue⟩
      · obtain ⟨e, he, hex, hi⟩ := ih _ _ hx
        exact hshift e he hex hi
    · simp only [dueHandles, hdue, if_false] at hx
      obtain ⟨e, he, hex, hi⟩ := ih _ _ hx
      exact hshift e he hex hi

/-- An entry that is earlier than none of the readings of the scan is kept. -/
theorem mem_scanTimers_kept (rest : List AsyncTimerTask) :
    ∀ (clock : SteadyClock) (kept : List AsyncTimerTask) (handles : List Handle)
      (e : AsyncTimerTask),
      (e ∈ kept ∨ (e ∈ rest ∧
        ∀ i, i < rest.length → ¬ e.m_timePoint < clock.readings (clock.calls + i))) →
      e ∈ (scanTimers clock kept handles rest).2.1 := by
  induction rest with
  | nil => intro clock kept handles e he; simpa [scanTimers] using he
  | cons timer rest ih =>
    intro clock kept handles e he
    have hnext : ∀ kept' : List AsyncTimerTask, (e ∈ kept → e ∈ kept') → ((e = timer ∧
        ¬ timer.m_timePoint < clock.now.1) → e ∈ kept') →
        (e ∈ kept' ∨ (e ∈ rest ∧ ∀ i, i < rest.length →
          ¬ e.m_timePoint < clock.now.2.readings (clock.now.2.calls + i))) ∨
        (e = timer ∧ timer.m_timePoint < clock.now.1 ∧ ∀ i, i < (timer :: rest).length →
          ¬ e.m_timePoint < clock.readings (clock.calls + i)) := by
      intro kept' hk ht
      rcases he with he | ⟨he, hnot⟩
      · exact Or.inl (Or.inl (hk he))
      · by_cases hdue : timer.m_timePoint < clock.now.1
        · rcases List.mem_cons.1 he with he | he
          · exact Or.inr ⟨he, hdue, hnot⟩
          · refine Or.inl (Or.inr ⟨he, fun i hi => ?_⟩)
            have := hnot (i + 1) (by simpa using hi)
            simpa [SteadyClock.now, Nat.add_assoc, Nat.add_comm 1 i] using this
        · rcases List.mem_cons.1 he with he | he
          · exact Or.inl (Or.inl (ht ⟨he, hdue⟩))
          · refine Or.inl (Or.inr ⟨he, fun i hi => ?_⟩)
            have := hnot (i + 1) (by simpa using hi)
            simpa [SteadyClock.now, Nat.add_assoc, Nat.add_comm 1 i] using this
    by_cases hdue : timer.m_timePoint < clock.now.1
    · simp only [scanTimers, hdue, if_true]
      rcases hnext kept id (fun h => absurd hdue h.2) with h | ⟨h1, _, h3⟩
      · exact ih _ _ _ _ h
      · exact absurd (by simpa [SteadyClock.now, h1] using hdue) (h3 0 (by simp))
    · simp only [scanTimers, hdue, if_false]
      rcases hnext (kept ++ [timer]) (fun h => by simp [h]) (fun h => by simp [h.1])
        with h | ⟨_, h2, _⟩
      · exact ih _ _ _ _ h
      · exact absurd h2 hdue

/-- The `for` loop of `processTimers` calls `resume()` on a leading part of the
buffer, and on all of it when the process is still running at the end. -/
theorem resumeHandles_log [Movable α] (code : σ → Instr σ α) (fuel : Nat)
    (handles : List Handle) :
    ∀ (m m' : Machine σ α), resumeHandles code fuel m handles = some m' →
      ∃ es, m'.log = m.log ++ es ∧ resumedHandles es <+: handles ∧
        (m'.status = .running → resumedHandles es = handles) := by
  induction handles with
  | nil =>
    intro m m' hr
    simp [resumeHandles] at hr
    exact ⟨[], by rw [hr]; simp, by simp [resumedHandles], fun _ => rfl⟩
  | cons handle rest ih =>
    intro m m' hr
    rw [resumeHandles] at hr
    by_cases hs : m.status = .running
    · simp only [hs, if_true] at hr
      cases h1 : resume code fuel (m.record (.resumed handle)) handle with
      | none => simp [h1] at hr
      | some m1 =>
        simp only [h1] at hr
        have hlog : ∃ fs, m1.log = m.log ++ [.resumed handle] ++ fs ∧ resumedHandles fs = [] := by
          unfold resume at h1
          cases hp : resumePoint (m.record (.resumed handle)) handle with
          | none =>
            simp [hp] at h1
            exact ⟨[], by rw [← h1]; simp [Machine.undefinedBehaviour, Machine.record], rfl⟩
          | some x =>
            obtain ⟨m2, pc⟩ := x
            simp only [hp] at h1
            obtain ⟨fs, hf, hn⟩ := run_log code _ _ _ _ _ h1
            exact ⟨fs, by rw [hf, resumePoint_log hp]; simp [Machine.record], hn⟩
        obtain ⟨fs, hf, hn⟩ := hlog
        obtain ⟨es, he, hpre, hall⟩ := ih _ _ hr
        refine ⟨[.resumed handle] ++ fs ++ es, by rw [he, hf]; simp, ?_, ?_⟩
        · have : resumedHandles ([.resumed handle] ++ fs ++ es) = handle :: resumedHandles es := by
            simp [resumedHandles_append, hn, resumedHandles]
          rw [this]
          exact (List.prefix_cons_inj handle).2 hpre
        · intro hrun
          simp [resumedHandles_append, hn, resumedHandles, hall hrun]
    · simp [hs] at hr
      exact ⟨[], by rw [← hr]; simp, by simp [resumedHandles], fun h => absurd (hr ▸ h) hs⟩

/-- The call `processTimers` calls `resume()` on a leading part of the handles
found due, and on all of them when the process is still running at the end. -/
theorem processTimers_log [Movable α] (code : σ → Instr σ α) (fuel : Nat)
    (m m' : Machine σ α) (hp : processTimers code fuel m = some m') :
    resumedHandles (m'.log.drop m.log.length) <+: dueHandles m.clock m.m_timerTasks ∧
      (m'.status = .running →
        resumedHandles (m'.log.drop m.log.length) = dueHandles m.clock m.m_timerTasks) := by
  unfold processTimers at hp
  by_cases hs : m.status = .running
  · simp only [hs, if_true] at hp
    obtain ⟨es, he, hpre, hall⟩ := resumeHandles_log code fuel _ _ _ hp
    have hlog : (scanPhase m).log = m.log := rfl
    rw [hlog] at he
    rw [scanPhase_handles] at hpre hall
    simpa [he] using And.intro hpre hall
  · simp [hs] at hp
    rw [← hp]
    simp [resumedHandles, hs]

end Log

/-! ## Timed suspension and the resume phase -/

section Timers

variable {σ α : Type}

/-- The two delay tasks of `twoDelays` are what calling `delay(200, 1)` and
then `delay(100, 2)` from the start state leaves. -/
theorem twoDelays_reached :
    ((invoke demoCode 1 (Machine.init demoReadings) .value (.delayEntry 200 1)).bind
      fun a => invoke demoCode 1 a.1 .value (.delayEntry 100 2)) =
      some (twoDelays, ⟨some 1⟩) := by
  rfl

/-- Claim C2.  A task `h` that begins awaiting the duration `d` (of either
sign, so in particular `d ≥ 0`) when the clock reads `t0` is suspended with the
entry `(t0 + d, h)` appended to `m_timerTasks`.  In every state `m2` in which
the entries of `h` carry that due time, a `processTimers` call whose clock
readings are not later than `t0 + d` (in particular one made at a time earlier
than `t0 + d`) does not put `h` in `m_handlesToResume`, leaves the entries of
`h` pending, and does not call `resume()` on `h`. -/
theorem timer_await_not_resumed_before_due [Movable α] (code : σ → Instr σ α)
    (m : Machine σ α) (h : Handle) (pc : σ) (d : Duration) (next : σ) (fuel : Nat)
    (hcode : code pc = .awaitDuration d next) :
    run code (fuel + 1) m h pc =
        some (TimerAwaitable.await_suspend (m.setPoint h (.timerAwait next)) d h) ∧
      (TimerAwaitable.await_suspend (m.setPoint h (.timerAwait next)) d h).m_timerTasks =
        m.m_timerTasks ++ [⟨m.clock.readings m.clock.calls + d, h⟩] ∧
      ∀ m2 : Machine σ α,
        (∀ e ∈ m2.m_timerTasks, e.m_coroutineHandle = h →
          e.m_timePoint = m.clock.readings m.clock.calls + d) →
        (∀ i, i < m2.m_timerTasks.length →
          m2.clock.readings (m2.clock.calls + i) ≤ m.clock.readings m.clock.calls + d) →
        h ∉ (scanPhase m2).m_handlesToResume ∧
          (∀ e ∈ m2.m_timerTasks, e.m_coroutineHandle = h → e ∈ (scanPhase m2).m_timerTasks) ∧
          ∀ (fuel2 : Nat) (m3 : Machine σ α), processTimers code fuel2 m2 = some m3 →
            h ∉ resumedHandles (m3.log.drop m2.log.length) := by
  refine ⟨?_, ?_, ?_⟩
  · rw [run]
    simp [hcode, coAwaitDuration, TimerAwaitable.await_ready]
  · have hs : (m.setPoint h (.timerAwait next)).m_timerTasks = m.m_timerTasks ∧
        (m.setPoint h (.timerAwait next)).clock = m.clock := by
      unfold Machine.setPoint; split <;> exact ⟨rfl, rfl⟩
    simp [TimerAwaitable.await_suspend, hs.1, hs.2, SteadyClock.now]
  · intro m2 hentries hclock
    have hnot : h ∉ dueHandles m2.clock m2.m_timerTasks := by
      intro hmem
      obtain ⟨e, he, hh, i, hi, hlt⟩ := mem_dueHandles _ _ _ hmem
      have h1 := hentries e he hh
      have h2 := hclock i hi
      rw [h1] at hlt
      exact absurd hlt (not_lt.2 h2)
    refine ⟨by rw [scanPhase_handles]; exact hnot, ?_, ?_⟩
    · intro e he hh
      refine mem_scanTimers_kept _ _ _ _ _ (Or.inr ⟨he, fun i hi => ?_⟩)
      have h1 := hentries e he hh
      have h2 := hclock i hi
      rw [h1]
      exact not_lt.2 h2
    · intro fuel2 m3 hp hmem
      exact hnot ((processTimers_log code fuel2 m2 m3 hp).1.subset hmem)

/-- Claim C3.  Within one `processTimers` call the handles on which `resume()`
is called are handles of entries the scan found due, each once, in the order
the scan met them (the order of `m_timerTasks`, whatever their due times): they
are a leading part of the handles found due, and exactly the handles found due
when the call ends with the process alive (no resumed task has terminated the
process). -/
theorem processTimers_resumes_due_in_scan_order [Movable α] (code : σ → Instr σ α)
    (fuel : Nat) (m m' : Machine σ α) (hp : processTimers code fuel m = some m') :
    resumedHandles (m'.log.drop m.log.length) <+: dueHandles m.clock m.m_timerTasks ∧
      (m'.status = .running →
        resumedHandles (m'.log.drop m.log.length) = dueHandles m.clock m.m_timerTasks) := by
  obtain ⟨hpre, hall⟩ := processTimers_log code fuel m m' hp
  exact ⟨hpre, fun halive => hall halive⟩

theorem timer_await_not_resumed_before_due_witness :
    demoCode (.delayEntry 500 7) = .awaitDuration 500 (.delayReturn 7) ∧
      run demoCode 1 ((Machine.init demoReadings).create .value) 0 (.delayEntry 500 7) =
        some (TimerAwaitable.await_suspend
          (((Machine.init demoReadings).create .value).setPoint 0
            (.timerAwait (.delayReturn 7))) 500 0) ∧
      (0 : Handle) ∉ (scanPhase (TimerAwaitable.await_suspend
          (((Machine.init demoReadings : Machine Demo Int).create .value).setPoint 0
            (.timerAwait (.delayReturn 7))) 500 0)).m_handlesToResume := by
  have h := timer_await_not_resumed_before_due demoCode
    ((Machine.init demoReadings).create .value) 0 (.delayEntry 500 7) 500 (.delayReturn 7) 0 rfl
  exact ⟨rfl, h.1, (h.2.2 _ (by decide) (by decide)).1⟩

theorem processTimers_resumes_due_in_scan_order_witness :
    processTimers demoCode 1 twoDelays =
        some ((processTimers demoCode 1 twoDelays).getD twoDelays) ∧
      ((processTimers demoCode 1 twoDelays).getD twoDelays).status = .running ∧
      resumedHandles
        (((processTimers demoCode 1 twoDelays).getD twoDelays).log.drop twoDelays.log.length) =
        [0, 1] :=
  ⟨rfl, rfl,
    ((processTimers_resumes_due_in_scan_order demoCode 1 twoDelays _ rfl).2 rfl).trans
      (by decide)⟩

end Timers

/-! ## Frames under update -/

section Frames

variable {σ α : Type}

theorem frame?_eq_some {m : Machine σ α} {h : Handle} {f : Frame σ α}
    (hf : m.frame? h = some f) : m.frames[h]? = some f ∧ f.destroyed = false := by
  unfold Machine.frame? at hf
  cases hg : m.frames[h]? with
  | none => simp [hg] at hf
  | some g =>
    simp only [hg] at hf
    by_cases hd : g.destroyed = true
    · simp [hd] at hf
    · simp [hd] at hf
      subst hf
      exact ⟨rfl, by simpa using hd⟩

theorem frame?_setFrame_self {m : Machine σ α} {h : Handle} {f : Frame σ α} (g : Frame σ α)
    (hf : m.frame? h = some f) (hd : g.destroyed = false) :
    (m.setFrame h g).frame? h = some g := by
  have hlt : h < m.frames.length := by
    have := (frame?_eq_some hf).1
    exact (List.getElem?_eq_some_iff.1 this).1
  simp [Machine.frame?, Machine.setFrame, List.getElem?_set, hlt, hd]

theorem frame?_setFrame_ne (m : Machine σ α) {h h' : Handle} (g : Frame σ α) (hne : h ≠ h') :
    (m.setFrame h g).frame? h' = m.frame? h' := by
  simp [Machine.frame?, Machine.setFrame, List.getElem?_set, hne]

theorem setPoint_eq {m : Machine σ α} {h : Handle} {f : Frame σ α} (p : SuspendPoint σ α)
    (hf : m.frame? h = some f) : m.setPoint h p = m.setFrame h { f with point := p } := by
  simp [Machine.setPoint, (frame?_eq_some hf).1]

theorem return_value_eq {m : Machine σ α} {h : Handle} {f : Frame σ α} (v : α)
    (hf : m.frame? h = some f) : return_value m h v = m.setFrame h { f with m_value := some v } := by
  simp [return_value, hf]

@[simp] theorem record_frame? (m : Machine σ α) (e : Event) (h : Handle) :
    (m.record e).frame? h = m.frame? h := rfl

end Frames

/-! ## Completion and symmetric transfer -/

section Completion

variable {σ α : Type}

theorem finalSuspend_noop [Movable α] {m : Machine σ α} {C : Handle} {fC : Frame σ α}
    (hC : m.frame? C = some fC) (hnone : fC.m_awaitingCoroutine = none) :
    finalSuspend m C = (m.setPoint C .finalSuspend, none) := by
  simp [finalSuspend, hC, final_suspend, hnone]

theorem finalSuspend_transfer [Movable α] {m : Machine σ α} {C P : Handle} {fC fP : Frame σ α}
    {next : Option α → σ}
    (hC : m.frame? C = some fC) (hP : m.frame? P = some fP) (hne : P ≠ C)
    (hawait : fC.m_awaitingCoroutine = some P) (hpoint : fP.point = .taskAwait C next) :
    finalSuspend m C =
      match fC.kind, fC.m_value with
      | .void, _ =>
        ((((m.setFrame C { fC with point := .finalSuspend }).record (.transferred C P)).setFrame P
          { fP with point := .running }), some (P, next none))
      | .value, some v =>
        (((((m.setFrame C { fC with point := .finalSuspend }).record (.transferred C P)).setFrame P
          { fP with point := .running }).setFrame C
          { fC with point := .finalSuspend, m_value := some (Movable.movedFrom v) }),
          some (P, next (some v)))
      | .value, none =>
        (((m.setFrame C { fC with point := .finalSuspend }).record
          (.transferred C P)).undefinedBehaviour, none) := by
  have hdC := (frame?_eq_some hC).2
  have hdP := (frame?_eq_some hP).2
  have h1 : m.setPoint C .finalSuspend = m.setFrame C { fC with point := .finalSuspend } :=
    setPoint_eq _ hC
  have hP1 : ((m.setFrame C { fC with point := .finalSuspend }).record
      (.transferred C P)).frame? P = some fP := by
    rw [record_frame?, frame?_setFrame_ne _ _ (Ne.symm hne)]; exact hP
  have h2 := setPoint_eq (SuspendPoint.running) hP1
  have hC2 : (((m.setFrame C { fC with point := .finalSuspend }).record
      (.transferred C P)).setFrame P { fP with point := .running }).frame? C =
      some { fC with point := .finalSuspend } := by
    rw [frame?_setFrame_ne _ _ hne, record_frame?]
    exact frame?_setFrame_self _ hC hdC
  have hfs : final_suspend fC = some P := by simp [final_suspend, hawait]
  unfold finalSuspend
  simp only [hC, hfs, h1]
  unfold resumePoint
  simp only [hP1, hpoint, h2]
  unfold TaskAwaitable.await_resume
  simp only [hC2]
  cases hk : fC.kind <;> cases hv : fC.m_value <;> simp

/-- Claim C4.  When the body of `C` reaches its end, `final_suspend` hands
control to the coroutine recorded in `m_awaitingCoroutine` when there is one and
to the no-op coroutine otherwise.  With no awaiting coroutine the run of `C`
returns at once to whoever resumed it.  With `P` suspended awaiting `C`, what is
left of the run of `C` is the run of `P` from its await, on the result of `C`:
the transfer into `P` is logged, and `P` has been run to its next suspension,
when control returns to whoever caused `C` to be resumed. -/
theorem completion_transfers_to_awaiting_parent [Movable α] (code : σ → Instr σ α)
    (fuel : Nat) (m : Machine σ α) (C : Handle) (pc : σ) (fC : Frame σ α)
    (hC : m.frame? C = some fC) :
    final_suspend fC = fC.m_awaitingCoroutine ∧
    (fC.m_awaitingCoroutine = none →
      (∀ v, code pc = .coReturn v → run code (fuel + 1) m C pc =
        some (m.setFrame C { fC with m_value := some v, point := .finalSuspend })) ∧
      (code pc = .coReturnVoid → run code (fuel + 1) m C pc =
        some (m.setFrame C { fC with point := .finalSuspend }))) ∧
    (∀ (P : Handle) (fP : Frame σ α) (next : Option α → σ),
      fC.m_awaitingCoroutine = some P → m.frame? P = some fP → P ≠ C →
      fP.point = .taskAwait C next →
      (∀ v, fC.kind = .value → code pc = .coReturn v →
        run code (fuel + 1) m C pc =
          run code fuel
            ((((m.setFrame C { fC with m_value := some v, point := .finalSuspend }).record
              (.transferred C P)).setFrame P { fP with point := .running }).setFrame C
              { fC with m_value := some (Movable.movedFrom v), point := .finalSuspend })
            P (next (some v))) ∧
      (fC.kind = .void → code pc = .coReturnVoid →
        run code (fuel + 1) m C pc =
          run code fuel
            (((m.setFrame C { fC with point := .finalSuspend }).record
              (.transferred C P)).setFrame P { fP with point := .running })
            P (next none)) ∧
      (∀ m', ((∃ v, fC.kind = .value ∧ code pc = .coReturn v) ∨
          (fC.kind = .void ∧ code pc = .coReturnVoid)) →
        run code (fuel + 1) m C pc = some m' →
        ∃ es, m'.log = m.log ++ .transferred C P :: es)) := by
  have hdC := (frame?_eq_some hC).2
  have hfin : final_suspend fC = fC.m_awaitingCoroutine := by
    unfold final_suspend; cases fC.m_awaitingCoroutine <;> rfl
  have hset : ∀ (f g : Frame σ α), (m.setFrame C f).setFrame C g = m.setFrame C g := by
    intro f g; simp [Machine.setFrame]
  have hvalue : ∀ (v : α) (P : Handle) (fP : Frame σ α) (next : Option α → σ),
      fC.m_awaitingCoroutine = some P → m.frame? P = some fP → P ≠ C →
      fP.point = .taskAwait C next → fC.kind = .value → code pc = .coReturn v →
      run code (fuel + 1) m C pc =
        run code fuel
          ((((m.setFrame C { fC with m_value := some v, point := .finalSuspend }).record
            (.transferred C P)).setFrame P { fP with point := .running }).setFrame C
            { fC with m_value := some (Movable.movedFrom v), point := .finalSuspend })
          P (next (some v)) := by
    intro v P fP next hawait hP hne hpoint hkind hcode
    have hC1 : (return_value m C v).frame? C = some { fC with m_value := some v } := by
      rw [return_value_eq v hC]; exact frame?_setFrame_self _ hC hdC
    have hP1 : (return_value m C v).frame? P = some fP := by
      rw [return_value_eq v hC, frame?_setFrame_ne _ _ (Ne.symm hne)]; exact hP
    rw [run]
    simp only [hcode]
    rw [finalSuspend_transfer hC1 hP1 hne hawait hpoint]
    simp only [hkind, return_value_eq v hC, hset]
  have hvoid : ∀ (P : Handle) (fP : Frame σ α) (next : Option α → σ),
      fC.m_awaitingCoroutine = some P → m.frame? P = some fP → P ≠ C →
      fP.point = .taskAwait C next → fC.kind = .void → code pc = .coReturnVoid →
      run code (fuel + 1) m C pc =
        run code fuel
          (((m.setFrame C { fC with point := .finalSuspend }).record
            (.transferred C P)).setFrame P { fP with point := .running })
          P (next none) := by
    intro P fP next hawait hP hne hpoint hkind hcode
    rw [run]
    simp only [hcode, return_void]
    rw [finalSuspend_transfer hC hP hne hawait hpoint]
    simp only [hkind]
  refine ⟨hfin, fun hnone => ⟨fun v hcode => ?_, fun hcode => ?_⟩,
    fun P fP next hawait hP hne hpoint =>
      ⟨fun v hkind hcode => hvalue v P fP next hawait hP hne hpoint hkind hcode,
        fun hkind hcode => hvoid P fP next hawait hP hne hpoint hkind hcode, ?_⟩⟩
  · have hC1 : (return_value m C v).frame? C = some { fC with m_value := some v } := by
      rw [return_value_eq v hC]; exact frame?_setFrame_self _ hC hdC
    rw [run]
    simp only [hcode]
    rw [finalSuspend_noop hC1 hnone, setPoint_eq _ hC1]
    simp only [return_value_eq v hC, hset]
  · rw [run]
    simp only [hcode, return_void]
    rw [finalSuspend_noop hC hnone, setPoint_eq _ hC]
  · intro m' hcase hrun
    rcases hcase with ⟨v, hkind, hcode⟩ | ⟨hkind, hcode⟩
    · rw [hvalue v P fP next hawait hP hne hpoint hkind hcode] at hrun
      obtain ⟨es, he, _⟩ := run_log code _ _ _ _ _ hrun
      exact ⟨es, by rw [he]; simp [Machine.record, Machine.setFrame]⟩
    · rw [hvoid P fP next hawait hP hne hpoint hkind hcode] at hrun
      obtain ⟨es, he, _⟩ := run_log code _ _ _ _ _ hrun
      exact ⟨es, by rw [he]; simp [Machine.record, Machine.setFrame]⟩

theorem completion_transfers_to_awaiting_parent_witness :
    childResumed.frame? 1 =
        some ⟨.value, some 0, none, .running, false⟩ ∧
      (run demoCode 3 childResumed 1 (.delayReturn 3)).map
          (fun m' => (m'.log, m'.frames.map (fun f => f.m_value))) =
        some ([.resumed 1, .transferred 1 0], [some 4, some 3]) := by
  have h := completion_transfers_to_awaiting_parent demoCode 2 childResumed 1 (.delayReturn 3)
    ⟨.value, some 0, none, .running, false⟩ rfl
  refine ⟨rfl, ?_⟩
  rw [(h.2.2 0 ⟨.value, none, none, .taskAwait 1 (.parentDrop ⟨some 1⟩), false⟩
    (.parentDrop ⟨some 1⟩) rfl rfl (by decide) rfl).1 3 rfl rfl]
  rfl

end Completion

/-! ## The scenarios -/

section Scenarios

/-- Claim C5.  For every result value `v` and every delay `d` (positive or
not): when `C` is `delay(d, v)` and `P`, having called `C`, awaits it and
returns its result plus 1 (the body of `parent(d, v)`), the call of `P` returns with `P` not ready, and after
a single `processTimers` call made once the clock has passed the time `C`
began its await plus `d`, the process is alive, `P.isReady()` is true and
`P.get()` returns `v + 1`. -/
theorem parent_of_delay_returns_successor (d : Duration) (v : Int) (clk : Nat → TimePoint)
    (fuel : Nat) (hlater : clk 0 + d < clk 1) :
    ∃ (m1 m2 : Machine Demo Int) (P : Task),
      invoke demoCode (fuel + 3) (Machine.init clk) .value (.parentEntry d v) = some (m1, P) ∧
      P.isReady m1 = .ok false ∧
      processTimers demoCode (fuel + 3) m1 = some m2 ∧
      m2.status = .running ∧
      P.isReady m2 = .ok true ∧
      (P.get m2).1 = .ok (v + 1) := by
  refine ⟨
    { frames := [⟨.value, none, none, .taskAwait 1 (.parentDrop ⟨some 1⟩), false⟩,
        ⟨.value, some 0, none, .timerAwait (.delayReturn v), false⟩],
      m_timerTasks := [⟨clk 0 + d, 1⟩], m_handlesToResume := [], clock := ⟨clk, 1⟩,
      status := .running, log := [] },
    { frames := [⟨.value, none, some (v + 1), .finalSuspend, false⟩,
        ⟨.value, some 0, some v, .finalSuspend, true⟩],
      m_timerTasks := [], m_handlesToResume := [1], clock := ⟨clk, 2⟩,
      status := .running, log := [.resumed 1, .transferred 1 0] },
    ⟨some 0⟩, rfl, rfl, ?_, rfl, rfl, rfl⟩
  simp [processTimers, scanPhase, scanTimers, SteadyClock.now, hlater, resumeHandles, resume,
    resumePoint, Machine.frame?, Machine.setPoint, Machine.setFrame, Machine.record, run,
    demoCode, finalSuspend, return_value, final_suspend, TaskAwaitable.await_resume,
    Movable.movedFrom, Task.drop, Machine.destroy]

theorem parent_of_delay_returns_successor_witness :
    tickReadings 0 + 50 < tickReadings 1 ∧
      ∃ (m1 m2 : Machine Demo Int) (P : Task),
        invoke demoCode 3 (Machine.init tickReadings) .value (.parentEntry 50 3) = some (m1, P) ∧
        P.isReady m1 = .ok false ∧
        processTimers demoCode 3 m1 = some m2 ∧
        m2.status = .running ∧
        P.isReady m2 = .ok true ∧
        (P.get m2).1 = .ok (3 + 1) :=
  ⟨by decide, parent_of_delay_returns_successor 50 3 tickReadings 0 (by decide)⟩

/-- Claim C6.  For every result value `v` and every delay `d` (positive or
not): the task `A` made by `delay(d, v)` is not ready after a `processTimers`
call made while the clock has not passed its creation time plus `d` (for a
positive `d`, a call made immediately after creation), and after a
`processTimers` call made once the clock has passed the creation time plus `d`
the process is alive, `A.isReady()` is true and `A.get()` returns `v`. -/
theorem delay_task_ready_after_delay (d : Duration) (v : Int) (clk : Nat → TimePoint)
    (fuel : Nat) (himm : clk 1 ≤ clk 0 + d) (hlater : clk 0 + d < clk 2) :
    ∃ (m1 m2 m3 : Machine Demo Int) (A : Task),
      invoke demoCode (fuel + 1) (Machine.init clk) .value (.delayEntry d v) = some (m1, A) ∧
      processTimers demoCode (fuel + 1) m1 = some m2 ∧
      A.isReady m2 = .ok false ∧
      processTimers demoCode (fuel + 1) m2 = some m3 ∧
      m3.status = .running ∧
      A.isReady m3 = .ok true ∧
      (A.get m3).1 = .ok v := by
  refine ⟨
    { frames := [⟨.value, none, none, .timerAwait (.delayReturn v), false⟩],
      m_timerTasks := [⟨clk 0 + d, 0⟩], m_handlesToResume := [], clock := ⟨clk, 1⟩,
      status := .running, log := [] },
    { frames := [⟨.value, none, none, .timerAwait (.delayReturn v), false⟩],
      m_timerTasks := [⟨clk 0 + d, 0⟩], m_handlesToResume := [], clock := ⟨clk, 2⟩,
      status := .running, log := [] },
    { frames := [⟨.value, none, some v, .finalSuspend, false⟩],
      m_timerTasks := [], m_handlesToResume := [0], clock := ⟨clk, 3⟩,
      status := .running, log := [.resumed 0] },
    ⟨some 0⟩, rfl, ?_, rfl, ?_, rfl, rfl, rfl⟩
  · simp [processTimers, scanPhase, scanTimers, SteadyClock.now, not_lt.2 himm, resumeHandles]
  · simp [processTimers, scanPhase, scanTimers, SteadyClock.now, hlater, resumeHandles, resume,
      resumePoint, Machine.frame?, Machine.setPoint, Machine.setFrame, Machine.record, run,
      demoCode, finalSuspend, return_value, final_suspend]

theorem delay_task_ready_after_delay_witness :
    (tickReadings 1 ≤ tickReadings 0 + 100 ∧ tickReadings 0 + 100 < tickReadings 2) ∧
      ∃ (m1 m2 m3 : Machine Demo Int) (A : Task),
        invoke demoCode 1 (Machine.init tickReadings) .value (.delayEntry 100 7) = some (m1, A) ∧
        processTimers demoCode 1 m1 = some m2 ∧
        A.isReady m2 = .ok false ∧
        processTimers demoCode 1 m2 = some m3 ∧
        m3.status = .running ∧
        A.isReady m3 = .ok true ∧
        (A.get m3).1 = .ok 7 :=
  ⟨⟨by decide, by decide⟩,
    delay_task_ready_after_delay 100 7 tickReadings 0 (by decide) (by decide)⟩

end Scenarios

/-! ## Errors of awaiting a task and of `get` -/

section Errors

variable {σ α : Type}

/-- The state `childResumed` is what the scenario of `parent(50, 3)` passes
through: the call of `parent`, then the scan of a `processTimers` call and the
`resume()` of the child. -/
theorem childResumed_reached :
    (invoke demoCode 3 (Machine.init tickReadings) .value (.parentEntry 50 3)).bind
        (fun r => resumePoint ((scanPhase r.1).record (.resumed 1)) 1) =
      some (childResumed, .delayReturn 3) := by
  rfl

theorem transform_of_frame {m : Machine σ α} {otherTask : Task} {h : Handle} {f : Frame σ α}
    (hh : otherTask.m_coroutineHandle = some h) (hf : m.frame? h = some f) :
    transform m otherTask =
      if f.m_awaitingCoroutine = none then .ok h else .throws .alreadyAwaited := by
  cases ha : f.m_awaitingCoroutine <;>
    simp [transform, Task.isValid, Task.isAwaited, hh, hf, ha]

/-- Claim C7.  Awaiting a task handle fails with the invalid-task error exactly
when the handle is empty.  For a handle on a live frame it fails with the
already-awaited error exactly when the `m_awaitingCoroutine` of the awaited
promise is set, and otherwise does not fail.  When it fails, the await
expression leaves every frame (so every `m_awaitingCoroutine`) and
`m_timerTasks` as they were, and the awaiting coroutine goes no further. -/
theorem await_task_fails_iff [Movable α] (m : Machine σ α) (otherTask : Task) :
    (transform m otherTask = .throws .awaitedWithoutPromise ↔
        otherTask.m_coroutineHandle = none) ∧
    (∀ (h : Handle) (f : Frame σ α), otherTask.m_coroutineHandle = some h →
      m.frame? h = some f →
      (transform m otherTask = .throws .alreadyAwaited ↔ f.m_awaitingCoroutine ≠ none) ∧
      (f.m_awaitingCoroutine = none → transform m otherTask = .ok h)) ∧
    (∀ e : TaskError, transform m otherTask = .throws e →
      ∀ (self : Handle) (next : Option α → σ),
        (coAwaitTask m self otherTask next).1.frames = m.frames ∧
        (coAwaitTask m self otherTask next).1.m_timerTasks = m.m_timerTasks ∧
        (coAwaitTask m self otherTask next).1.status = .terminated ∧
        (coAwaitTask m self otherTask next).2 = none) := by
  refine ⟨?_, ?_, ?_⟩
  · constructor
    · intro ht
      cases hh : otherTask.m_coroutineHandle with
      | none => rfl
      | some h =>
        exfalso
        unfold transform at ht
        simp only [Task.isValid, hh] at ht
        cases hi : Task.isAwaited m otherTask with
        | ok b => cases b <;> simp [hi] at ht
        | throws e => simp [hi] at ht
        | undefined => simp [hi] at ht
    · intro hh
      simp [transform, Task.isValid, hh]
  · intro h f hh hf
    rw [transform_of_frame hh hf]
    cases ha : f.m_awaitingCoroutine <;> simp
  · intro e ht self next
    simp [coAwaitTask, ht, unhandled_exception]

theorem await_task_fails_iff_witness :
    (transform childResumed ⟨none⟩ = .throws .awaitedWithoutPromise ↔
        (⟨none⟩ : Task).m_coroutineHandle = none) ∧
      transform childResumed ⟨some 1⟩ = .throws .alreadyAwaited ∧
      transform childResumed ⟨some 0⟩ = .ok 0 ∧
      (coAwaitTask childResumed 0 ⟨some 1⟩ Demo.parentReturn).1.frames = childResumed.frames := by
  have h := await_task_fails_iff childResumed (⟨some 1⟩ : Task)
  have h0 := await_task_fails_iff childResumed (⟨some 0⟩ : Task)
  have h1 := (h.2.1 1 ⟨.value, some 0, none, .running, false⟩ rfl rfl).1.2 (by decide)
  exact ⟨(await_task_fails_iff childResumed ⟨none⟩).1, h1,
    (h0.2.1 0 ⟨.value, none, none, .taskAwait 1 (.parentDrop ⟨some 1⟩), false⟩ rfl rfl).2 rfl,
    (h.2.2 _ h1 0 Demo.parentReturn).1⟩

/-- Claim C9.  The call `Task::get()` throws the no-promise error exactly when
the handle is empty; on a handle whose live frame of a result-bearing task
holds the completed result `v` it returns `v`. -/
theorem get_throws_iff_empty_and_returns_result [Movable α] (m : Machine σ α) (t : Task) :
    ((Task.get m t).1 = .throws .getWithoutPromise ↔ t.m_coroutineHandle = none) ∧
    (∀ (h : Handle) (f : Frame σ α) (v : α), t.m_coroutineHandle = some h →
      m.frame? h = some f → f.kind = .value → f.m_value = some v →
      (Task.get m t).1 = .ok v) := by
  constructor
  · constructor
    · intro hg
      cases hh : t.m_coroutineHandle with
      | none => rfl
      | some h =>
        exfalso
        unfold Task.get at hg
        simp only [hh] at hg
        cases hf : m.frame? h with
        | none => simp [hf] at hg
        | some f =>
          simp only [hf] at hg
          cases hk : f.kind <;> cases hv : f.m_value <;> simp [hk, hv] at hg
    · intro hh
      simp [Task.get, hh]
  · intro h f v hh hf hk hv
    simp [Task.get, hh, hf, hk, hv]

end Errors

section GetErrors
variable {σ α : Type}

/-- The states `delayPending` and `delayFinished` are what calling
`delay(100, 7)` and then `processTimers` twice leaves. -/
theorem delayPending_delayFinished_reached :
    ((invoke demoCode 1 (Machine.init tickReadings) .value (.delayEntry 100 7)).bind
        fun r => processTimers demoCode 1 r.1) = some delayPending ∧
      processTimers demoCode 1 delayPending = some delayFinished := by
  constructor <;> rfl

theorem get_throws_iff_empty_and_returns_result_witness :
    ((Task.get delayFinished ⟨none⟩).1 = .throws .getWithoutPromise ↔
        (⟨none⟩ : Task).m_coroutineHandle = none) ∧
      (Task.get delayFinished ⟨some 0⟩).1 = .ok 7 :=
  ⟨(get_throws_iff_empty_and_returns_result delayFinished ⟨none⟩).1,
    (get_throws_iff_empty_and_returns_result delayFinished ⟨some 0⟩).2 0
      ⟨.value, none, some 7, .finalSuspend, false⟩ 7 rfl rfl rfl rfl⟩

/-- Claim C10, refuted as stated.  The task of `delayPending` has a non-empty
handle and has not completed, and `get()` on it throws no error: it reads the
empty `m_value`, which has no defined behaviour. -/
theorem get_before_completion_throws_nothing :
    Task.isValid ⟨some 0⟩ = true ∧
      Task.isReady delayPending ⟨some 0⟩ = .ok false ∧
      (Task.get delayPending ⟨some 0⟩).1 = .undefined ∧
      ¬ ∃ e, (Task.get delayPending ⟨some 0⟩).1 = .throws e := by
  refine ⟨rfl, rfl, rfl, ?_⟩
  rintro ⟨e, he⟩
  have hu : (Outcome.undefined : Outcome Int) = .throws e := he
  cases hu

/-- Claim C10, amended.  On a non-empty handle whose live frame holds no
result (the body has not completed), `Task::get()` makes no readiness test: it
throws no error, changes nothing, and dereferences the empty `m_value`, which
has no defined behaviour. -/
theorem get_before_completion_is_unchecked [Movable α] (m : Machine σ α) (t : Task)
    (h : Handle) (f : Frame σ α) (hh : t.m_coroutineHandle = some h)
    (hf : m.frame? h = some f) (hv : f.m_value = none) :
    Task.get m t = (.undefined, m) ∧ ∀ e, (Task.get m t).1 ≠ .throws e := by
  have hg : Task.get m t = (.undefined, m) := by
    cases hk : f.kind <;> simp [Task.get, hh, hf, hk, hv]
  exact ⟨hg, fun e he => by rw [hg] at he; cases he⟩

theorem get_before_completion_is_unchecked_witness :
    (⟨some 0⟩ : Task).m_coroutineHandle = some 0 ∧
      Task.get delayPending ⟨some 0⟩ = (.undefined, delayPending) ∧
      ∀ e, (Task.get delayPending ⟨some 0⟩).1 ≠ .throws e :=
  ⟨rfl, get_before_completion_is_unchecked delayPending ⟨some 0⟩ 0
    ⟨.value, none, none, .timerAwait (.delayReturn 7), false⟩ rfl rfl rfl⟩
end GetErrors

/-! ## The awaiting coroutine is never reset -/

section Awaiting

variable {σ α : Type}

theorem awaiting?_setFrame {m : Machine σ α} {h : Handle} {f : Frame σ α} (g : Frame σ α)
    (c : Handle) (hf : m.frames[h]? = some f)
    (hg : g.m_awaitingCoroutine = f.m_awaitingCoroutine) :
    (m.setFrame h g).awaiting? c = m.awaiting? c := by
  have hlt : h < m.frames.length := (List.getElem?_eq_some_iff.1 hf).1
  by_cases hc : h = c
  · subst hc
    simp [Machine.awaiting?, Machine.setFrame, List.getElem?_set, hlt, hf, hg]
  · simp [Machine.awaiting?, Machine.setFrame, List.getElem?_set, hc]

@[simp] theorem awaiting?_setPoint (m : Machine σ α) (h c : Handle) (p : SuspendPoint σ α) :
    (m.setPoint h p).awaiting? c = m.awaiting? c := by
  unfold Machine.setPoint
  cases hf : m.frames[h]? with
  | none => rfl
  | some f => exact awaiting?_setFrame _ c hf rfl

@[simp] theorem awaiting?_return_value (m : Machine σ α) (h c : Handle) (v : α) :
    (return_value m h v).awaiting? c = m.awaiting? c := by
  unfold return_value
  cases hf : m.frame? h with
  | none => rfl
  | some f => exact awaiting?_setFrame _ c (frame?_eq_some hf).1 rfl

@[simp] theorem awaiting?_await_resume [Movable α] (m : Machine σ α) (o c : Handle) :
    (TaskAwaitable.await_resume m o).2.awaiting? c = m.awaiting? c := by
  unfold TaskAwaitable.await_resume
  cases hf : m.frame? o with
  | none => rfl
  | some f =>
    cases hk : f.kind <;> cases hv : f.m_value <;> simp only [hk, hv]
    exact awaiting?_setFrame _ c (frame?_eq_some hf).1 rfl

theorem awaiting?_resumePoint [Movable α] {m m' : Machine σ α} {h : Handle} {pc : σ}
    (hr : resumePoint m h = some (m', pc)) (c : Handle) : m'.awaiting? c = m.awaiting? c := by
  unfold resumePoint at hr
  cases hf : m.frame? h with
  | none => simp [hf] at hr
  | some f =>
    simp only [hf] at hr
    cases hp : f.point with
    | running => simp [hp] at hr
    | finalSuspend => simp [hp] at hr
    | timerAwait next => simp [hp] at hr; rw [← hr.1]; simp
    | taskAwait o next =>
      simp only [hp] at hr
      have h1 := awaiting?_await_resume (m.setPoint h .running) o c
      rcases ha : TaskAwaitable.await_resume (m.setPoint h .running) o with ⟨r, m1⟩
      rw [ha] at hr h1
      cases r with
      | ok r => simp at hr h1; rw [← hr.1, h1]
      | throws e => simp at hr
      | undefined => simp at hr

@[simp] theorem awaiting?_finalSuspend [Movable α] (m : Machine σ α) (h c : Handle) :
    (finalSuspend m h).1.awaiting? c = m.awaiting? c := by
  unfold finalSuspend
  cases hf : m.frame? h with
  | none => rfl
  | some f =>
    simp only []
    cases hs : final_suspend f with
    | none => simp
    | some awaiting =>
      simp only []
      cases hr : resumePoint ((m.setPoint h .finalSuspend).record (.transferred h awaiting))
          awaiting with
      | none =>
        show ((m.setPoint h .finalSuspend).awaiting? c) = _
        simp
      | some x =>
        obtain ⟨m2, pc⟩ := x
        simp only []
        rw [awaiting?_resumePoint hr]
        show ((m.setPoint h .finalSuspend).awaiting? c) = _
        simp

theorem awaiting?_task_await_suspend {m : Machine σ α} {o : Handle} {f : Frame σ α}
    (hf : m.frame? o = some f) (h c : Handle) :
    (TaskAwaitable.await_suspend m o h).awaiting? c =
      if c = o then some h else m.awaiting? c := by
  have hg := (frame?_eq_some hf).1
  have hlt : o < m.frames.length := (List.getElem?_eq_some_iff.1 hg).1
  unfold TaskAwaitable.await_suspend
  simp only [hf]
  by_cases hc : c = o
  · subst hc
    simp [Machine.awaiting?, Machine.setFrame, List.getElem?_set, hlt]
  · simp [Machine.awaiting?, Machine.setFrame, List.getElem?_set, hc, Ne.symm hc]

theorem awaiting?_coAwaitTask [Movable α] (m : Machine σ α) (h : Handle) (t : Task)
    (next : Option α → σ) (c p : Handle) (hc : m.awaiting? c = some p) :
    (coAwaitTask m h t next).1.awaiting? c = some p := by
  unfold coAwaitTask
  cases ht : transform m t with
  | throws e => exact hc
  | undefined => exact hc
  | ok o =>
    simp only []
    cases hf : m.frame? o with
    | none => exact hc
    | some f =>
      simp only []
      by_cases hready : TaskAwaitable.await_ready f = true
      · simp only [hready, if_true]
        have h1 := awaiting?_await_resume m o c
        rcases ha : TaskAwaitable.await_resume m o with ⟨r, m2⟩
        rw [ha] at h1
        cases r with
        | ok r => simp at h1 ⊢; rw [h1]; exact hc
        | throws e => exact hc
        | undefined => exact hc
      · simp only [hready]
        have ho : t.m_coroutineHandle = some o ∧ f.m_awaitingCoroutine = none := by
          cases hh : t.m_coroutineHandle with
          | none => simp [transform, Task.isValid, hh] at ht
          | some o' =>
            cases hf' : m.frame? o' with
            | none => simp [transform, Task.isValid, Task.isAwaited, hh, hf'] at ht
            | some f' =>
              rw [transform_of_frame hh hf'] at ht
              by_cases hn : f'.m_awaitingCoroutine = none
              · simp [hn] at ht
                subst ht
                rw [hf] at hf'
                simp at hf'
                subst hf'
                exact ⟨rfl, hn⟩
              · simp [hn] at ht
        have hne : c ≠ o := by
          intro hco
          subst hco
          have := (frame?_eq_some hf).1
          simp [Machine.awaiting?, this, ho.2] at hc
        have hf2 : ∃ f2, (m.setPoint h (.taskAwait o next)).frame? o = some f2 := by
          have hg := frame?_eq_some hf
          unfold Machine.setPoint
          cases hh : m.frames[h]? with
          | none => exact ⟨f, hf⟩
          | some fh =>
            simp only []
            by_cases hho : h = o
            · subst hho
              rw [hg.1] at hh
              simp at hh
              subst hh
              exact ⟨_, frame?_setFrame_self _ hf hg.2⟩
            · exact ⟨f, by rw [frame?_setFrame_ne _ _ hho]; exact hf⟩
        obtain ⟨f2, hf2⟩ := hf2
        show (TaskAwaitable.await_suspend _ o h).awaiting? c = some p
        rw [awaiting?_task_await_suspend hf2]
        simp [hne, hc]

/-- No state change resets or replaces an `m_awaitingCoroutine` that is set. -/
theorem step_awaiting_kept [Movable α] {m m' : Machine σ α} (hs : Step m m') (c p : Handle)
    (hc : m.awaiting? c = some p) : m'.awaiting? c = some p := by
  cases hs with
  | awaitDuration h d next =>
    simpa [coAwaitDuration, TimerAwaitable.await_ready, TimerAwaitable.await_suspend,
      Machine.awaiting?] using
      (show (m.setPoint h (.timerAwait next)).awaiting? c = some p by simpa using hc)
  | awaitTask h t next => exact awaiting?_coAwaitTask m h t next c p hc
  | call kind =>
    have hlt : c < m.frames.length := by
      by_contra hge
      simp [Machine.awaiting?, List.getElem?_eq_none (Nat.le_of_not_lt hge)] at hc
    simpa [Machine.awaiting?, Machine.create, List.getElem?_append_left hlt] using hc
  | coReturn h v => simpa using hc
  | coReturnVoid h => simpa [return_void] using hc
  | scan => exact hc
  | resume _ handle pc hr => rw [awaiting?_resumePoint hr]; exact hc
  | resumeUndefined handle => exact hc
  | get t =>
    unfold Task.get
    cases hh : t.m_coroutineHandle with
    | none => exact hc
    | some h =>
      simp only []
      cases hf : m.frame? h with
      | none => exact hc
      | some f =>
        cases hk : f.kind <;> cases hv : f.m_value <;> simp only [hk, hv] <;> try exact hc
        refine (awaiting?_setFrame _ c (frame?_eq_some hf).1 ?_).trans hc
        rfl
  | drop t =>
    unfold Task.drop
    cases hh : t.m_coroutineHandle with
    | none => exact hc
    | some h =>
      simp only [Machine.destroy]
      cases hf : m.frame? h with
      | none => exact hc
      | some f =>
        simp only []
        refine (awaiting?_setFrame _ c (frame?_eq_some hf).1 ?_).trans hc
        rfl

theorem reaches_awaiting_kept [Movable α] {m m' : Machine σ α} (hr : Reaches m m')
    (c p : Handle) (hc : m.awaiting? c = some p) : m'.awaiting? c = some p := by
  induction hr with
  | refl => exact hc
  | tail _ hs ih => exact step_awaiting_kept hs c p ih


/-- Every run of a coroutine body is a sequence of state changes. -/
theorem run_reaches [Movable α] (code : σ → Instr σ α) :
    ∀ (fuel : Nat) (m : Machine σ α) (h : Handle) (pc : σ) (m' : Machine σ α),
      run code fuel m h pc = some m' → Reaches m m' := by
  intro fuel
  induction fuel with
  | zero => intro m h pc m' hr; simp [run] at hr
  | succ fuel ih =>
    intro m h pc m' hr
    rw [run] at hr
    cases hi : code pc with
    | awaitDuration d next =>
      simp only [hi] at hr
      have hstep := Step.awaitDuration m h d next
      rcases hc : coAwaitDuration m h d next with ⟨m1, _ | pc1⟩
      · simp [hc] at hr
        rw [hc, hr] at hstep
        exact Relation.ReflTransGen.single hstep
      · simp only [hc] at hr
        rw [hc] at hstep
        exact Relation.ReflTransGen.head hstep (ih _ _ _ _ hr)
    | awaitTask t next =>
      simp only [hi] at hr
      have hstep := Step.awaitTask m h t next
      rcases hc : coAwaitTask m h t next with ⟨m1, _ | pc1⟩
      · simp [hc] at hr
        rw [hc, hr] at hstep
        exact Relation.ReflTransGen.single hstep
      · simp only [hc] at hr
        rw [hc] at hstep
        exact Relation.ReflTransGen.head hstep (ih _ _ _ _ hr)
    | call kind entry next =>
      simp only [hi] at hr
      cases hc : run code fuel (m.create kind) m.frames.length entry with
      | none => simp [hc] at hr
      | some m1 =>
        simp only [hc] at hr
        have h1 : Reaches m m1 :=
          Relation.ReflTransGen.head (Step.call m kind) (ih _ _ _ _ hc)
        by_cases hs : m1.status = .running
        · simp only [hs, if_true] at hr
          exact Relation.ReflTransGen.trans h1 (ih _ _ _ _ hr)
        · simp [hs] at hr
          rw [← hr]; exact h1
    | dropTask t next =>
      simp only [hi] at hr
      by_cases hs : (Task.drop m t).status = .running
      · simp only [hs, if_true] at hr
        exact Relation.ReflTransGen.head (Step.drop m t) (ih _ _ _ _ hr)
      · simp [hs] at hr
        rw [← hr]
        exact Relation.ReflTransGen.single (Step.drop m t)
    | coReturn val =>
      simp only [hi] at hr
      have hstep := Step.coReturn m h val
      rcases hc : finalSuspend (return_value m h val) h with ⟨m1, _ | ⟨p, pc1⟩⟩
      · simp [hc] at hr
        rw [hc, hr] at hstep
        exact Relation.ReflTransGen.single hstep
      · simp only [hc] at hr
        rw [hc] at hstep
        exact Relation.ReflTransGen.head hstep (ih _ _ _ _ hr)
    | coReturnVoid =>
      simp only [hi] at hr
      have hstep := Step.coReturnVoid m h
      rcases hc : finalSuspend (return_void m h) h with ⟨m1, _ | ⟨p, pc1⟩⟩
      · simp [hc] at hr
        rw [hc, hr] at hstep
        exact Relation.ReflTransGen.single hstep
      · simp only [hc] at hr
        rw [hc] at hstep
        exact Relation.ReflTransGen.head hstep (ih _ _ _ _ hr)

/-- Every call of a coroutine function from outside is a sequence of state
changes. -/
theorem invoke_reaches [Movable α] (code : σ → Instr σ α) (fuel : Nat) (m m' : Machine σ α)
    (kind : PromiseKind) (entry : σ) (t : Task)
    (hi : invoke code fuel m kind entry = some (m', t)) : Reaches m m' := by
  unfold invoke at hi
  cases hc : run code fuel (m.create kind) m.frames.length entry with
  | none => simp [hc] at hi
  | some m1 =>
    simp [hc] at hi
    rw [← hi.1]
    exact Relation.ReflTransGen.head (Step.call m kind) (run_reaches code _ _ _ _ _ hc)

theorem resumeHandles_reaches [Movable α] (code : σ → Instr σ α) (fuel : Nat)
    (handles : List Handle) :
    ∀ (m m' : Machine σ α), resumeHandles code fuel m handles = some m' → Reaches m m' := by
  induction handles with
  | nil =>
    intro m m' hr
    simp [resumeHandles] at hr
    rw [hr]; exact Relation.ReflTransGen.refl
  | cons handle rest ih =>
    intro m m' hr
    rw [resumeHandles] at hr
    by_cases hs : m.status = .running
    · simp only [hs, if_true] at hr
      cases h1 : resume code fuel (m.record (.resumed handle)) handle with
      | none => simp [h1] at hr
      | some m1 =>
        simp only [h1] at hr
        have hm1 : Reaches m m1 := by
          unfold resume at h1
          cases hp : resumePoint (m.record (.resumed handle)) handle with
          | none =>
            simp [hp] at h1
            rw [← h1]
            exact Relation.ReflTransGen.single (Step.resumeUndefined m handle)
          | some x =>
            obtain ⟨m2, pc⟩ := x
            simp only [hp] at h1
            exact Relation.ReflTransGen.head (Step.resume m m2 handle pc hp)
              (run_reaches code _ _ _ _ _ h1)
        exact Relation.ReflTransGen.trans hm1 (ih _ _ hr)
    · simp [hs] at hr
      rw [← hr]; exact Relation.ReflTransGen.refl

/-- Every `processTimers` call is a sequence of state changes. -/
theorem processTimers_reaches [Movable α] (code : σ → Instr σ α) (fuel : Nat)
    (m m' : Machine σ α) (hp : processTimers code fuel m = some m') : Reaches m m' := by
  unfold processTimers at hp
  by_cases hs : m.status = .running
  · simp only [hs, if_true] at hp
    exact Relation.ReflTransGen.head (Step.scan m) (resumeHandles_reaches code fuel _ _ _ hp)
  · simp [hs] at hp
    rw [← hp]; exact Relation.ReflTransGen.refl

/-- The state `constantDone` is the one the body of `twice(7)` is in when it
reaches its first await. -/
theorem constantDone_reached :
    run demoCode 1 (((Machine.init tickReadings : Machine Demo Int).create .value).create .value)
      1 (.constantEntry 7) = some constantDone := by
  rfl

/-- Claim C8, refuted as stated.  The body of `twice(7)` awaits the same
non-empty task handle two times.  The awaited task had completed before the
first await, which therefore did not suspend and recorded no awaiting
coroutine: it yields 7 and leaves a state in which `transform` on the same
handle passes both checks.  The second await does not fail: the process is not
terminated by an already-awaited error and `twice(7)` returns 7 + 7. -/
theorem second_await_of_completed_task_succeeds :
    (coAwaitTask constantDone 0 ⟨some 1⟩ (Demo.twiceSecond ⟨some 1⟩)).2 =
        some (.twiceSecond ⟨some 1⟩ (some 7)) ∧
      transform (coAwaitTask constantDone 0 ⟨some 1⟩ (Demo.twiceSecond ⟨some 1⟩)).1 ⟨some 1⟩ =
        .ok 1 ∧
      (invoke demoCode 5 (Machine.init tickReadings) .value (.twiceEntry 7)).map
          (fun r => (r.1.status, r.2.isReady r.1, (r.2.get r.1).1)) =
        some (.running, .ok true, .ok 14) := by
  refine ⟨rfl, rfl, ?_⟩
  decide

/-- Claim C8, amended.  When the first await of a non-empty task handle on a
live frame suspends the awaiting coroutine (no coroutine was recorded as
awaiting and `await_ready` was false), then in every state the process reaches
afterwards in which the frame is still live, awaiting the same handle again
fails with the already-awaited error. -/
theorem second_await_fails_after_suspended_await [Movable α] (m : Machine σ α)
    (self h : Handle) (f : Frame σ α) (next : Option α → σ)
    (hf : m.frame? h = some f) (hfree : f.m_awaitingCoroutine = none)
    (hpending : TaskAwaitable.await_ready f = false) :
    (coAwaitTask m self ⟨some h⟩ next).2 = none ∧
      (coAwaitTask m self ⟨some h⟩ next).1.status = m.status ∧
      ∀ m2 : Machine σ α, Reaches (coAwaitTask m self ⟨some h⟩ next).1 m2 →
        (∃ f2, m2.frame? h = some f2) →
        transform m2 ⟨some h⟩ = .throws .alreadyAwaited := by
  have ht : transform m ⟨some h⟩ = .ok h := by
    rw [transform_of_frame rfl hf]; simp [hfree]
  have hf2 : ∃ f2, (m.setPoint self (.taskAwait h next)).frame? h = some f2 := by
    have hg := frame?_eq_some hf
    unfold Machine.setPoint
    cases hh : m.frames[self]? with
    | none => exact ⟨f, hf⟩
    | some fh =>
      simp only []
      by_cases hho : self = h
      · subst hho
        rw [hg.1] at hh
        simp at hh
        subst hh
        exact ⟨_, frame?_setFrame_self _ hf hg.2⟩
      · exact ⟨f, by rw [frame?_setFrame_ne _ _ hho]; exact hf⟩
  obtain ⟨f2, hf2⟩ := hf2
  have heq : coAwaitTask m self ⟨some h⟩ next =
      (TaskAwaitable.await_suspend (m.setPoint self (.taskAwait h next)) h self, none) := by
    simp [coAwaitTask, ht, hf, hpending]
  have hstatus : (m.setPoint self (.taskAwait h next)).status = m.status := by
    unfold Machine.setPoint; split <;> rfl
  refine ⟨by rw [heq], ?_, ?_⟩
  · rw [heq]
    simp [TaskAwaitable.await_suspend, hf2, Machine.setFrame, hstatus]
  · intro m2 hreach ⟨g, hg⟩
    have h1 : (coAwaitTask m self ⟨some h⟩ next).1.awaiting? h = some self := by
      rw [heq]
      simp [awaiting?_task_await_suspend hf2]
    have h2 := reaches_awaiting_kept hreach h self h1
    rw [transform_of_frame rfl hg]
    have : g.m_awaitingCoroutine = some self := by
      simpa [Machine.awaiting?, (frame?_eq_some hg).1] using h2
    simp [this]

/-- The state `childPending` is the one the body of `parent(500, 3)` is in
when it reaches its await: its own frame made, the child called and suspended
on its timer. -/
theorem childPending_reached :
    (coAwaitDuration (((Machine.init tickReadings : Machine Demo Int).create .value).create
      .value) 1 500 (.delayReturn 3)).1 = childPending := by
  rfl

theorem second_await_fails_after_suspended_await_witness :
    childPending.frame? 1 = some ⟨.value, none, none, .timerAwait (.delayReturn 3), false⟩ ∧
      processTimers demoCode 3
          (coAwaitTask childPending 0 ⟨some 1⟩ (Demo.parentDrop ⟨some 1⟩)).1 =
        some ((processTimers demoCode 3
          (coAwaitTask childPending 0 ⟨some 1⟩ (Demo.parentDrop ⟨some 1⟩)).1).getD childPending) ∧
      transform ((processTimers demoCode 3
          (coAwaitTask childPending 0 ⟨some 1⟩ (Demo.parentDrop ⟨some 1⟩)).1).getD childPending)
        ⟨some 1⟩ = .throws .alreadyAwaited :=
  ⟨rfl, rfl, (second_await_fails_after_suspended_await childPending 0 1
    ⟨.value, none, none, .timerAwait (.delayReturn 3), false⟩ (Demo.parentDrop ⟨some 1⟩)
    rfl rfl rfl).2.2 _
    (processTimers_reaches demoCode 3 _ _ rfl) ⟨_, rfl⟩⟩

end Awaiting

/-! ## What touches the pending-timer set -/

section Pending

variable {σ α : Type}

@[simp] theorem setFrame_timers (m : Machine σ α) (h : Handle) (f : Frame σ α) :
    (m.setFrame h f).m_timerTasks = m.m_timerTasks := rfl

@[simp] theorem setPoint_timers (m : Machine σ α) (h : Handle) (p : SuspendPoint σ α) :
    (m.setPoint h p).m_timerTasks = m.m_timerTasks := by
  unfold Machine.setPoint; split <;> rfl

@[simp] theorem setPoint_clock (m : Machine σ α) (h : Handle) (p : SuspendPoint σ α) :
    (m.setPoint h p).clock = m.clock := by
  unfold Machine.setPoint; split <;> rfl

@[simp] theorem return_value_timers (m : Machine σ α) (h : Handle) (v : α) :
    (return_value m h v).m_timerTasks = m.m_timerTasks := by
  unfold return_value; split <;> rfl

@[simp] theorem task_await_suspend_timers (m : Machine σ α) (o h : Handle) :
    (TaskAwaitable.await_suspend m o h).m_timerTasks = m.m_timerTasks := by
  unfold TaskAwaitable.await_suspend; split <;> rfl

@[simp] theorem await_resume_timers [Movable α] (m : Machine σ α) (o : Handle) :
    (TaskAwaitable.await_resume m o).2.m_timerTasks = m.m_timerTasks := by
  unfold TaskAwaitable.await_resume; split
  · rfl
  · split <;> rfl

@[simp] theorem drop_timers (m : Machine σ α) (t : Task) :
    (Task.drop m t).m_timerTasks = m.m_timerTasks := by
  unfold Task.drop Machine.destroy
  cases t.m_coroutineHandle with
  | none => rfl
  | some h => simp only []; split <;> rfl

@[simp] theorem get_timers [Movable α] (m : Machine σ α) (t : Task) :
    (Task.get m t).2.m_timerTasks = m.m_timerTasks := by
  unfold Task.get
  cases t.m_coroutineHandle with
  | none => rfl
  | some h =>
    simp only []
    cases m.frame? h with
    | none => rfl
    | some f => cases hk : f.kind <;> cases hv : f.m_value <;> simp [hk, hv]

theorem resumePoint_timers [Movable α] {m m' : Machine σ α} {h : Handle} {pc : σ}
    (hr : resumePoint m h = some (m', pc)) : m'.m_timerTasks = m.m_timerTasks := by
  unfold resumePoint at hr
  cases hf : m.frame? h with
  | none => simp [hf] at hr
  | some f =>
    simp only [hf] at hr
    cases hp : f.point with
    | running => simp [hp] at hr
    | finalSuspend => simp [hp] at hr
    | timerAwait next => simp [hp] at hr; rw [← hr.1]; simp
    | taskAwait o next =>
      simp only [hp] at hr
      have h1 := await_resume_timers (m.setPoint h .running) o
      rcases ha : TaskAwaitable.await_resume (m.setPoint h .running) o with ⟨r, m1⟩
      rw [ha] at hr h1
      cases r with
      | ok r => simp at hr h1; rw [← hr.1, h1]
      | throws e => simp at hr
      | undefined => simp at hr

@[simp] theorem coAwaitTask_timers [Movable α] (m : Machine σ α) (h : Handle) (t : Task)
    (next : Option α → σ) : (coAwaitTask m h t next).1.m_timerTasks = m.m_timerTasks := by
  unfold coAwaitTask
  cases transform m t with
  | throws e => rfl
  | undefined => rfl
  | ok o =>
    simp only []
    cases m.frame? o with
    | none => rfl
    | some f =>
      simp only []
      by_cases hready : TaskAwaitable.await_ready f = true
      · simp only [hready, if_true]
        have h1 := await_resume_timers m o
        rcases ha : TaskAwaitable.await_resume m o with ⟨r, m2⟩
        rw [ha] at h1
        cases r with
        | ok r => simpa using h1
        | throws e => rfl
        | undefined => rfl
      · simp [hready]

@[simp] theorem finalSuspend_timers [Movable α] (m : Machine σ α) (h : Handle) :
    (finalSuspend m h).1.m_timerTasks = m.m_timerTasks := by
  unfold finalSuspend
  cases m.frame? h with
  | none => rfl
  | some f =>
    simp only []
    cases final_suspend f with
    | none => simp
    | some awaiting =>
      simp only []
      cases hr : resumePoint ((m.setPoint h .finalSuspend).record (.transferred h awaiting))
          awaiting with
      | none =>
        show (m.setPoint h .finalSuspend).m_timerTasks = _
        simp
      | some x =>
        obtain ⟨m2, pc⟩ := x
        simp only []
        rw [resumePoint_timers hr]
        show (m.setPoint h .finalSuspend).m_timerTasks = _
        simp

/-- The entries the scan loop keeps are `kept` followed by entries of `rest`,
in their order. -/
theorem scanTimers_kept_sublist (rest : List AsyncTimerTask) :
    ∀ (clock : SteadyClock) (kept : List AsyncTimerTask) (handles : List Handle),
      ∃ l, l.Sublist rest ∧ (scanTimers clock kept handles rest).2.1 = kept ++ l := by
  induction rest with
  | nil => intro clock kept handles; exact ⟨[], List.Sublist.refl _, by simp [scanTimers]⟩
  | cons timer rest ih =>
    intro clock kept handles
    by_cases hdue : timer.m_timePoint < clock.now.1
    · obtain ⟨l, hl, he⟩ := ih clock.now.2 kept (handles ++ [timer.m_coroutineHandle])
      exact ⟨l, hl.cons _, by simp only [scanTimers, hdue, if_true]; exact he⟩
    · obtain ⟨l, hl, he⟩ := ih clock.now.2 (kept ++ [timer]) handles
      exact ⟨timer :: l, hl.cons₂ _, by simp only [scanTimers, hdue, if_false]; rw [he]; simp⟩

/-- Claim C17.  Awaiting a duration `d` when the clock reads `t` is never ready
at once: the awaiting coroutine is suspended and exactly one entry, `(t + d,
h)` with `h` its frame, is appended to the end of `m_timerTasks`, the entries
before it unchanged.  No other state change adds an entry: a task await, the
completion of a task, the call of a coroutine function, `get()` and the
destructor of a task object leave `m_timerTasks` as it is, and the scan of
`processTimers` only removes entries. -/
theorem only_duration_await_adds_entry [Movable α] (m : Machine σ α) (h : Handle)
    (d : Duration) (next : σ) :
    TimerAwaitable.await_ready d = false ∧
    (coAwaitDuration m h d next).2 = none ∧
    (coAwaitDuration m h d next).1.m_timerTasks =
      m.m_timerTasks ++ [⟨m.clock.readings m.clock.calls + d, h⟩] ∧
    (∀ m' : Machine σ α, Step m m' →
      m'.m_timerTasks = m.m_timerTasks ∨
      (∃ h' d' next', m' = (coAwaitDuration m h' d' next').1 ∧
        m'.m_timerTasks = m.m_timerTasks ++ [⟨m.clock.readings m.clock.calls + d', h'⟩]) ∨
      (m' = scanPhase m ∧ m'.m_timerTasks.Sublist m.m_timerTasks)) := by
  have hawait : ∀ (h' : Handle) (d' : Duration) (next' : σ),
      (coAwaitDuration m h' d' next').1.m_timerTasks =
        m.m_timerTasks ++ [⟨m.clock.readings m.clock.calls + d', h'⟩] := by
    intro h' d' next'
    simp [coAwaitDuration, TimerAwaitable.await_ready, TimerAwaitable.await_suspend,
      SteadyClock.now]
  refine ⟨rfl, by simp [coAwaitDuration, TimerAwaitable.await_ready], hawait h d next, ?_⟩
  intro m' hs
  cases hs with
  | awaitDuration h' d' next' => exact Or.inr (Or.inl ⟨h', d', next', rfl, hawait h' d' next'⟩)
  | awaitTask h' t next' => exact Or.inl (by simp)
  | call kind => exact Or.inl rfl
  | coReturn h' v => exact Or.inl (by simp)
  | coReturnVoid h' => exact Or.inl (by simp [return_void])
  | scan =>
    refine Or.inr (Or.inr ⟨rfl, ?_⟩)
    obtain ⟨l, hl, he⟩ := scanTimers_kept_sublist m.m_timerTasks m.clock [] []
    show (scanTimers m.clock [] [] m.m_timerTasks).2.1.Sublist _
    rw [he]; simpa using hl
  | resume _ handle pc hr => exact Or.inl (by rw [resumePoint_timers hr]; rfl)
  | resumeUndefined handle => exact Or.inl rfl
  | get t => exact Or.inl (by simp)
  | drop t => exact Or.inl (by simp)

theorem only_duration_await_adds_entry_witness :
    (coAwaitDuration childPending 0 5 (.delayReturn 1)).1.m_timerTasks =
        [⟨500, 1⟩, ⟨65, 0⟩] ∧
      ((coAwaitTask childPending 0 ⟨some 1⟩ (Demo.parentDrop ⟨some 1⟩)).1.m_timerTasks =
          childPending.m_timerTasks ∨
        (∃ h' d' next', (coAwaitTask childPending 0 ⟨some 1⟩ (Demo.parentDrop ⟨some 1⟩)).1 =
            (coAwaitDuration childPending h' d' next').1 ∧
          (coAwaitTask childPending 0 ⟨some 1⟩ (Demo.parentDrop ⟨some 1⟩)).1.m_timerTasks =
            childPending.m_timerTasks ++
              [⟨childPending.clock.readings childPending.clock.calls + d', h'⟩]) ∨
        ((coAwaitTask childPending 0 ⟨some 1⟩ (Demo.parentDrop ⟨some 1⟩)).1 =
            scanPhase childPending ∧
          (coAwaitTask childPending 0 ⟨some 1⟩
            (Demo.parentDrop ⟨some 1⟩)).1.m_timerTasks.Sublist childPending.m_timerTasks)) :=
  ⟨(only_duration_await_adds_entry childPending 0 5 (.delayReturn 1)).2.2.1.trans (by decide),
    (only_duration_await_adds_entry childPending 0 5 (.delayReturn 1)).2.2.2 _
      (Step.awaitTask childPending 0 ⟨some 1⟩ (Demo.parentDrop ⟨some 1⟩))⟩

/-- Claim C18.  A `processTimers` call made while `m_timerTasks` is empty
returns, with any fuel: it resumes no frame (the log of control transfers is
unchanged), leaves `m_timerTasks` empty, changes no frame, and does not fail
(the status of the process is unchanged). -/
theorem processTimers_on_empty_set [Movable α] (code : σ → Instr σ α) (fuel : Nat)
    (m : Machine σ α) (hempty : m.m_timerTasks = []) :
    ∃ m', processTimers code fuel m = some m' ∧ m'.m_timerTasks = [] ∧
      m'.frames = m.frames ∧ m'.log = m.log ∧ m'.status = m.status ∧ m'.clock = m.clock := by
  by_cases hs : m.status = .running
  · refine ⟨scanPhase m, ?_, ?_, rfl, rfl, rfl, ?_⟩
    · have hb : (scanPhase m).m_handlesToResume = [] := by
        simp [scanPhase, hempty, scanTimers]
      simp [processTimers, hs, hb, resumeHandles]
    · simp [scanPhase, hempty, scanTimers]
    · simp [scanPhase, hempty, scanTimers]
  · exact ⟨m, by simp [processTimers, hs], hempty, rfl, rfl, rfl, rfl⟩

theorem processTimers_on_empty_set_witness :
    constantDone.m_timerTasks = [] ∧
      ∃ m', processTimers demoCode 0 constantDone = some m' ∧ m'.m_timerTasks = [] ∧
        m'.frames = constantDone.frames ∧ m'.log = constantDone.log ∧
        m'.status = constantDone.status ∧ m'.clock = constantDone.clock :=
  ⟨rfl, processTimers_on_empty_set demoCode 0 constantDone rfl⟩

/-- Claim C16.  A frame whose `m_awaitingCoroutine` is set keeps the same
`m_awaitingCoroutine` through every state change, hence through every
sequence of them and every `processTimers` call: it is set at most once.  A
task await that would overwrite it is rejected by `transform` with the
already-awaited error and changes no frame. -/
theorem awaiting_coroutine_set_at_most_once [Movable α] (m : Machine σ α) (c p : Handle)
    (hset : m.awaiting? c = some p) :
    (∀ m' : Machine σ α, Step m m' → m'.awaiting? c = some p) ∧
    (∀ m' : Machine σ α, Reaches m m' → m'.awaiting? c = some p) ∧
    (∀ (code : σ → Instr σ α) (fuel : Nat) (m' : Machine σ α),
      processTimers code fuel m = some m' → m'.awaiting? c = some p) ∧
    (∀ f : Frame σ α, m.frame? c = some f →
      transform m ⟨some c⟩ = .throws .alreadyAwaited ∧
      ∀ (self : Handle) (next : Option α → σ),
        (coAwaitTask m self ⟨some c⟩ next).1.frames = m.frames) := by
  refine ⟨fun m' hs => step_awaiting_kept hs c p hset,
    fun m' hr => reaches_awaiting_kept hr c p hset,
    fun code fuel m' hp =>
      reaches_awaiting_kept (processTimers_reaches code fuel m m' hp) c p hset, ?_⟩
  intro f hf
  have hfa : f.m_awaitingCoroutine = some p := by
    simpa [Machine.awaiting?, (frame?_eq_some hf).1] using hset
  have ht : transform m ⟨some c⟩ = .throws .alreadyAwaited := by
    rw [transform_of_frame rfl hf]; simp [hfa]
  exact ⟨ht, fun self next => by simp [coAwaitTask, ht, unhandled_exception]⟩

theorem awaiting_coroutine_set_at_most_once_witness :
    childResumed.awaiting? 1 = some 0 ∧
      (∀ m', processTimers demoCode 3 childResumed = some m' → m'.awaiting? 1 = some 0) ∧
      transform childResumed ⟨some 1⟩ = .throws .alreadyAwaited :=
  ⟨rfl, fun m' hp =>
      (awaiting_coroutine_set_at_most_once childResumed 1 0 rfl).2.2.1 demoCode 3 m' hp,
    ((awaiting_coroutine_set_at_most_once childResumed 1 0 rfl).2.2.2 _ rfl).1⟩

end Pending

/-! ## How frames evolve -/

section Evolution

variable {σ α : Type}

theorem framesRelated_refl [Movable α] {P : Frame σ α → Frame σ α → Prop} (hP : FrameOrder P)
    (m : Machine σ α) : FramesRelated P m m :=
  fun _ f hf => ⟨f, hf, hP.refl f⟩

theorem framesRelated_trans [Movable α] {P : Frame σ α → Frame σ α → Prop} (hP : FrameOrder P)
    {m1 m2 m3 : Machine σ α} (h12 : FramesRelated P m1 m2) (h23 : FramesRelated P m2 m3) :
    FramesRelated P m1 m3 := by
  intro c f hf
  obtain ⟨g, hg, hfg⟩ := h12 c f hf
  obtain ⟨k, hk, hgk⟩ := h23 c g hg
  exact ⟨k, hk, hP.trans _ _ _ hfg hgk⟩

theorem framesRelated_of_frames [Movable α] {P : Frame σ α → Frame σ α → Prop}
    (hP : FrameOrder P) {m m' : Machine σ α} (h : m'.frames = m.frames) :
    FramesRelated P m m' :=
  fun _ f hf => ⟨f, by rw [h]; exact hf, hP.refl f⟩

theorem record_related [Movable α] {P : Frame σ α → Frame σ α → Prop} (hP : FrameOrder P)
    (m : Machine σ α) (e : Event) : FramesRelated P m (m.record e) :=
  fun _ f hf => ⟨f, hf, hP.refl f⟩

theorem undefinedBehaviour_related [Movable α] {P : Frame σ α → Frame σ α → Prop}
    (hP : FrameOrder P) (m : Machine σ α) : FramesRelated P m m.undefinedBehaviour :=
  fun _ f hf => ⟨f, hf, hP.refl f⟩

theorem setFrame_related [Movable α] {P : Frame σ α → Frame σ α → Prop} (hP : FrameOrder P)
    {m : Machine σ α} {h : Handle} {f : Frame σ α} (g : Frame σ α)
    (hf : m.frames[h]? = some f) (hfg : P f g) : FramesRelated P m (m.setFrame h g) := by
  intro c k hk
  have hlt : h < m.frames.length := (List.getElem?_eq_some_iff.1 hf).1
  by_cases hc : h = c
  · subst hc
    rw [hf] at hk
    simp at hk
    subst hk
    exact ⟨g, by simp [Machine.setFrame, List.getElem?_set, hlt], hfg⟩
  · exact ⟨k, by simpa [Machine.setFrame, List.getElem?_set, hc] using hk, hP.refl k⟩

theorem setPoint_related [Movable α] {P : Frame σ α → Frame σ α → Prop} (hP : FrameOrder P)
    (m : Machine σ α) (h : Handle) (p : SuspendPoint σ α) :
    FramesRelated P m (m.setPoint h p) := by
  unfold Machine.setPoint
  cases hf : m.frames[h]? with
  | none => exact framesRelated_refl hP m
  | some f => exact setFrame_related hP _ hf (hP.point f p)

theorem await_resume_related [Movable α] {P : Frame σ α → Frame σ α → Prop}
    (hP : FrameOrder P) (m : Machine σ α) (o : Handle) :
    FramesRelated P m (TaskAwaitable.await_resume m o).2 := by
  unfold TaskAwaitable.await_resume
  cases hf : m.frame? o with
  | none => exact framesRelated_refl hP m
  | some f =>
    cases hk : f.kind <;> cases hv : f.m_value <;> simp only [hk, hv]
    · exact framesRelated_refl hP m
    · exact setFrame_related hP _ (frame?_eq_some hf).1 (by simpa only [hk] using hP.moved f _ hv)
    · exact framesRelated_refl hP m
    · exact framesRelated_refl hP m

theorem resumePoint_related [Movable α] {P : Frame σ α → Frame σ α → Prop}
    (hP : FrameOrder P) {m m' : Machine σ α} {h : Handle} {pc : σ}
    (hr : resumePoint m h = some (m', pc)) : FramesRelated P m m' := by
  unfold resumePoint at hr
  cases hf : m.frame? h with
  | none => simp [hf] at hr
  | some f =>
    simp only [hf] at hr
    cases hp : f.point with
    | running => simp [hp] at hr
    | finalSuspend => simp [hp] at hr
    | timerAwait next =>
      simp [hp] at hr
      rw [← hr.1]
      exact setPoint_related hP m h _
    | taskAwait o next =>
      simp only [hp] at hr
      have h1 := await_resume_related hP (m.setPoint h .running) o
      rcases ha : TaskAwaitable.await_resume (m.setPoint h .running) o with ⟨r, m1⟩
      rw [ha] at hr h1
      cases r with
      | ok r =>
        simp at hr h1
        rw [← hr.1]
        exact framesRelated_trans hP (setPoint_related hP m h _) h1
      | throws e => simp at hr
      | undefined => simp at hr

theorem finalSuspend_related [Movable α] {P : Frame σ α → Frame σ α → Prop}
    (hP : FrameOrder P) (m : Machine σ α) (h : Handle) :
    FramesRelated P m (finalSuspend m h).1 := by
  unfold finalSuspend
  cases hf : m.frame? h with
  | none => exact framesRelated_refl hP m
  | some f =>
    simp only []
    cases hs : final_suspend f with
    | none => exact setPoint_related hP m h _
    | some awaiting =>
      simp only []
      cases hr : resumePoint ((m.setPoint h .finalSuspend).record (.transferred h awaiting))
          awaiting with
      | none =>
        exact framesRelated_trans hP (setPoint_related hP m h .finalSuspend)
          (framesRelated_trans hP (record_related hP _ (.transferred h awaiting))
            (undefinedBehaviour_related hP _))
      | some x =>
        obtain ⟨m2, pc⟩ := x
        show FramesRelated P m m2
        exact framesRelated_trans hP (setPoint_related hP m h .finalSuspend)
          (framesRelated_trans hP (record_related hP _ (.transferred h awaiting))
            (resumePoint_related hP hr))

/-- When `transform` lets the await through, the handle is that of a live
frame that records no awaiting coroutine. -/
theorem transform_ok {m : Machine σ α} {t : Task} {o : Handle} (ht : transform m t = .ok o) :
    t.m_coroutineHandle = some o ∧
      ∃ f, m.frame? o = some f ∧ f.m_awaitingCoroutine = none := by
  cases hh : t.m_coroutineHandle with
  | none => simp [transform, Task.isValid, hh] at ht
  | some o' =>
    cases hf' : m.frame? o' with
    | none => simp [transform, Task.isValid, Task.isAwaited, hh, hf'] at ht
    | some f' =>
      rw [transform_of_frame hh hf'] at ht
      by_cases hn : f'.m_awaitingCoroutine = none
      · simp [hn] at ht
        subst ht
        exact ⟨rfl, f', hf', hn⟩
      · simp [hn] at ht

/-- The frame of `o` is still live after the frame of `h` has been parked. -/
theorem frame?_setPoint_live {m : Machine σ α} {o : Handle} {f : Frame σ α}
    (hf : m.frame? o = some f) (h : Handle) (p : SuspendPoint σ α) :
    ∃ f2, (m.setPoint h p).frame? o = some f2 ∧
      f2.m_awaitingCoroutine = f.m_awaitingCoroutine ∧ f2.kind = f.kind ∧
      f2.m_value = f.m_value := by
  have hg := frame?_eq_some hf
  unfold Machine.setPoint
  cases hh : m.frames[h]? with
  | none => exact ⟨f, hf, rfl, rfl, rfl⟩
  | some fh =>
    simp only []
    by_cases hho : h = o
    · subst hho
      rw [hg.1] at hh
      simp at hh
      subst hh
      exact ⟨_, frame?_setFrame_self _ hf hg.2, rfl, rfl, rfl⟩
    · exact ⟨f, by rw [frame?_setFrame_ne _ _ hho]; exact hf, rfl, rfl, rfl⟩

theorem coAwaitTask_related [Movable α] {P : Frame σ α → Frame σ α → Prop}
    (hP : FrameOrder P) (m : Machine σ α) (h : Handle) (t : Task) (next : Option α → σ) :
    FramesRelated P m (coAwaitTask m h t next).1 := by
  unfold coAwaitTask
  cases ht : transform m t with
  | throws e => exact framesRelated_refl hP m
  | undefined => exact framesRelated_refl hP m
  | ok o =>
    simp only []
    obtain ⟨_, f0, hf0, hnone⟩ := transform_ok ht
    rw [hf0]
    simp only []
    by_cases hready : TaskAwaitable.await_ready f0 = true
    · simp only [hready, if_true]
      have h1 := await_resume_related hP m o
      rcases ha : TaskAwaitable.await_resume m o with ⟨r, m2⟩
      rw [ha] at h1
      cases r with
      | ok r => exact h1
      | throws e => exact framesRelated_refl hP m
      | undefined => exact framesRelated_refl hP m
    · rw [if_neg hready]
      obtain ⟨f2, hf2, ha2, _, _⟩ := frame?_setPoint_live hf0 h (.taskAwait o next)
      refine framesRelated_trans hP (setPoint_related hP m h (.taskAwait o next)) ?_
      show FramesRelated P _ (TaskAwaitable.await_suspend _ o h)
      unfold TaskAwaitable.await_suspend
      rw [hf2]
      exact setFrame_related hP _ (frame?_eq_some hf2).1 (hP.awaiting f2 h (ha2.trans hnone))

theorem coAwaitDuration_related [Movable α] {P : Frame σ α → Frame σ α → Prop}
    (hP : FrameOrder P) (m : Machine σ α) (h : Handle) (d : Duration) (next : σ) :
    FramesRelated P m (coAwaitDuration m h d next).1 := by
  simp only [coAwaitDuration, TimerAwaitable.await_ready]
  exact framesRelated_trans hP (setPoint_related hP m h _)
    (framesRelated_of_frames hP rfl)

theorem create_related [Movable α] {P : Frame σ α → Frame σ α → Prop} (hP : FrameOrder P)
    (m : Machine σ α) (kind : PromiseKind) : FramesRelated P m (m.create kind) := by
  intro c f hf
  have hlt : c < m.frames.length := (List.getElem?_eq_some_iff.1 hf).1
  exact ⟨f, by simpa [Machine.create, List.getElem?_append_left hlt] using hf, hP.refl f⟩

theorem get_related [Movable α] {P : Frame σ α → Frame σ α → Prop} (hP : FrameOrder P)
    (m : Machine σ α) (t : Task) : FramesRelated P m (Task.get m t).2 := by
  unfold Task.get
  cases hh : t.m_coroutineHandle with
  | none => exact framesRelated_refl hP m
  | some h =>
    simp only []
    cases hf : m.frame? h with
    | none => exact framesRelated_refl hP m
    | some f =>
      cases hk : f.kind <;> cases hv : f.m_value <;> simp only [hk, hv]
      · exact framesRelated_refl hP m
      · exact setFrame_related hP _ (frame?_eq_some hf).1 (by simpa only [hk] using hP.moved f _ hv)
      · exact framesRelated_refl hP m
      · exact framesRelated_refl hP m

theorem drop_related [Movable α] {P : Frame σ α → Frame σ α → Prop} (hP : FrameOrder P)
    (hdestroyed : ∀ f, P f { f with destroyed := true })
    (m : Machine σ α) (t : Task) : FramesRelated P m (Task.drop m t) := by
  unfold Task.drop
  cases hh : t.m_coroutineHandle with
  | none => exact framesRelated_refl hP m
  | some h =>
    simp only [Machine.destroy]
    cases hf : m.frame? h with
    | none => exact framesRelated_refl hP m
    | some f => exact setFrame_related hP _ (frame?_eq_some hf).1 (hdestroyed f)

theorem return_value_related [Movable α] {P : Frame σ α → Frame σ α → Prop}
    (hP : FrameOrder P) (hreturned : ∀ f v, P f { f with m_value := some v })
    (m : Machine σ α) (h : Handle) (v : α) : FramesRelated P m (return_value m h v) := by
  unfold return_value
  cases hf : m.frame? h with
  | none => exact framesRelated_refl hP m
  | some f => exact setFrame_related hP _ (frame?_eq_some hf).1 (hreturned f v)

/-- The frames other than that of `h` are untouched by `return_value` of `h`. -/
theorem return_value_frames_ne (m : Machine σ α) {h c : Handle} (v : α) (hne : h ≠ c) :
    (return_value m h v).frames[c]? = m.frames[c]? := by
  unfold return_value
  cases hf : m.frame? h with
  | none => rfl
  | some f => simp [Machine.setFrame, List.getElem?_set, hne]

/-- Every state change but the completion of a result-bearing task relates
each frame to what it becomes. -/
theorem step_related_or_returned [Movable α] {P : Frame σ α → Frame σ α → Prop}
    (hP : FrameOrder P) (hdestroyed : ∀ f, P f { f with destroyed := true })
    {m m' : Machine σ α} (hs : Step m m') :
    FramesRelated P m m' ∨ ∃ h v, m' = (finalSuspend (return_value m h v) h).1 := by
  cases hs with
  | awaitDuration h d next => exact Or.inl (coAwaitDuration_related hP m h d next)
  | awaitTask h t next => exact Or.inl (coAwaitTask_related hP m h t next)
  | call kind => exact Or.inl (create_related hP m kind)
  | coReturn h v => exact Or.inr ⟨h, v, rfl⟩
  | coReturnVoid h => exact Or.inl (finalSuspend_related hP _ h)
  | scan => exact Or.inl (framesRelated_of_frames hP rfl)
  | resume _ handle pc hr =>
    exact Or.inl (framesRelated_trans hP (record_related hP m (.resumed handle))
      (resumePoint_related hP hr))
  | resumeUndefined handle =>
    exact Or.inl (framesRelated_trans hP (record_related hP m (.resumed handle))
      (undefinedBehaviour_related hP _))
  | get t => exact Or.inl (get_related hP m t)
  | drop t => exact Or.inl (drop_related hP hdestroyed m t)

/-- Every state change relates each frame to what it becomes, for a relation
that holds across all updates of a frame. -/
theorem step_related [Movable α] {P : Frame σ α → Frame σ α → Prop} (hP : FrameOrder P)
    (hdestroyed : ∀ f, P f { f with destroyed := true })
    (hreturned : ∀ f v, P f { f with m_value := some v })
    {m m' : Machine σ α} (hs : Step m m') : FramesRelated P m m' := by
  rcases step_related_or_returned hP hdestroyed hs with h | ⟨h, v, rfl⟩
  · exact h
  · exact framesRelated_trans hP (return_value_related hP hreturned m h v)
      (finalSuspend_related hP _ h)

theorem reaches_related [Movable α] {P : Frame σ α → Frame σ α → Prop} (hP : FrameOrder P)
    (hdestroyed : ∀ f, P f { f with destroyed := true })
    (hreturned : ∀ f v, P f { f with m_value := some v })
    {m m' : Machine σ α} (hr : Reaches m m') : FramesRelated P m m' := by
  induction hr with
  | refl => exact framesRelated_refl hP m
  | tail _ hs ih => exact framesRelated_trans hP ih (step_related hP hdestroyed hreturned hs)


/-! ## Readiness is monotonic -/

theorem isReady_eq_ok {m : Machine σ α} {t : Task} {h : Handle} {b : Bool}
    (ht : t.m_coroutineHandle = some h) (hr : Task.isReady m t = .ok b) :
    ∃ f, m.frame? h = some f ∧ f.kind = .value ∧ f.m_value.isSome = b := by
  unfold Task.isReady at hr
  simp only [ht] at hr
  cases hf : m.frame? h with
  | none => simp [hf] at hr
  | some f =>
    simp only [hf] at hr
    cases hk : f.kind with
    | void => simp [hk] at hr
    | value => simp [hk] at hr; exact ⟨f, rfl, hk, hr⟩

theorem isReady_of_frame {m : Machine σ α} {t : Task} {h : Handle} {f : Frame σ α}
    (ht : t.m_coroutineHandle = some h) (hf : m.frame? h = some f) (hk : f.kind = .value) :
    Task.isReady m t = .ok f.m_value.isSome := by
  simp [Task.isReady, ht, hf, hk]

/-- The kind of a frame and whether it holds a result are unchanged. -/
theorem frameOrder_same_result [Movable α] :
    FrameOrder (fun (f g : Frame σ α) =>
      g.kind = f.kind ∧ g.m_value.isSome = f.m_value.isSome) where
  refl := fun _ => ⟨rfl, rfl⟩
  trans := fun _ _ _ h1 h2 => ⟨h2.1.trans h1.1, h2.2.trans h1.2⟩
  point := fun _ _ => ⟨rfl, rfl⟩
  awaiting := fun _ _ _ => ⟨rfl, rfl⟩
  moved := fun f v hv => ⟨rfl, by simp [hv]⟩

/-- The kind of a frame, whether it holds a result and whether it is destroyed
are unchanged. -/
theorem frameOrder_same_result_live [Movable α] :
    FrameOrder (fun (f g : Frame σ α) =>
      g.kind = f.kind ∧ g.m_value.isSome = f.m_value.isSome ∧ g.destroyed = f.destroyed) where
  refl := fun _ => ⟨rfl, rfl, rfl⟩
  trans := fun _ _ _ h1 h2 => ⟨h2.1.trans h1.1, h2.2.1.trans h1.2.1, h2.2.2.trans h1.2.2⟩
  point := fun _ _ => ⟨rfl, rfl, rfl⟩
  awaiting := fun _ _ _ => ⟨rfl, rfl, rfl⟩
  moved := fun f v hv => ⟨rfl, by simp [hv], rfl⟩

/-- The kind of a frame is unchanged and a result it holds is not lost. -/
theorem frameOrder_result_kept [Movable α] :
    FrameOrder (fun (f g : Frame σ α) =>
      g.kind = f.kind ∧ (f.m_value.isSome = true → g.m_value.isSome = true)) where
  refl := fun _ => ⟨rfl, id⟩
  trans := fun _ _ _ h1 h2 => ⟨h2.1.trans h1.1, fun h => h2.2 (h1.2 h)⟩
  point := fun _ _ => ⟨rfl, id⟩
  awaiting := fun _ _ _ => ⟨rfl, id⟩
  moved := fun _ _ _ => ⟨rfl, fun _ => rfl⟩

/-- Claim C11.  For a non-empty handle `t` of a result-bearing task on frame
`h`: the frame of a newly called coroutine is not ready; the only state change
that turns `isReady()` from false to true is the completion of the body of `h`
itself (its `co_return`), so it is false in every state before; it is true in
the state right after that completion; and once true it is true in every state
reached by any sequence of state changes (`processTimers`, `get()`, awaits that
move the result out) in which the frame is still live: `m_value` is never
reset. -/
theorem isReady_false_until_completion_then_true [Movable α] (m : Machine σ α) (t : Task)
    (h : Handle) (ht : t.m_coroutineHandle = some h) :
    Task.isReady (m.create .value) ⟨some m.frames.length⟩ = .ok false ∧
    (∀ m' : Machine σ α, Step m m' → Task.isReady m t = .ok false →
      Task.isReady m' t = .ok true →
      ∃ val, m' = (finalSuspend (return_value m h val) h).1) ∧
    (∀ (f : Frame σ α) (val : α), m.frame? h = some f → f.kind = .value →
      Task.isReady (finalSuspend (return_value m h val) h).1 t = .ok true) ∧
    (∀ m' : Machine σ α, Reaches m m' → Task.isReady m t = .ok true →
      (∃ f', m'.frame? h = some f') → Task.isReady m' t = .ok true) := by
  refine ⟨?_, ?_, ?_, ?_⟩
  · simp [Task.isReady, Machine.frame?, Machine.create]
  · intro m' hs hfalse htrue
    obtain ⟨f, hf, hk, hv⟩ := isReady_eq_ok ht hfalse
    obtain ⟨f', hf', hk', hv'⟩ := isReady_eq_ok ht htrue
    have hcontra : (∃ g, m'.frames[h]? = some g ∧ g.kind = f.kind ∧
        g.m_value.isSome = f.m_value.isSome) → False := by
      rintro ⟨g, hg, _, hgv⟩
      rw [(frame?_eq_some hf').1] at hg
      simp at hg
      subst hg
      rw [hv, hv'] at hgv
      cases hgv
    rcases step_related_or_returned frameOrder_same_result (fun _ => ⟨rfl, rfl⟩) hs with
      hrel | ⟨h', v, hm'⟩
    · exact (hcontra (hrel h f (frame?_eq_some hf).1)).elim
    · by_cases hh : h' = h
      · subst hh; exact ⟨v, hm'⟩
      · refine (hcontra ?_).elim
        rw [hm']
        exact finalSuspend_related frameOrder_same_result (return_value m h' v) h' h f
          (by rw [return_value_frames_ne m v hh]; exact (frame?_eq_some hf).1)
  · intro f val hf hk
    have hd := (frame?_eq_some hf).2
    have h1 : (return_value m h val).frames[h]? = some { f with m_value := some val } := by
      rw [return_value_eq val hf]
      exact (frame?_eq_some (frame?_setFrame_self { f with m_value := some val } hf hd)).1
    obtain ⟨g, hg, hgk, hgv, hgd⟩ :=
      finalSuspend_related frameOrder_same_result_live (return_value m h val) h h _ h1
    have hlive : (finalSuspend (return_value m h val) h).1.frame? h = some g := by
      simp [Machine.frame?, hg, hgd, hd]
    rw [isReady_of_frame ht hlive (hgk.trans hk)]
    simp [hgv]
  · intro m' hr htrue ⟨f', hf'⟩
    obtain ⟨f, hf, hk, hv⟩ := isReady_eq_ok ht htrue
    obtain ⟨g, hg, hgk, hgv⟩ :=
      reaches_related frameOrder_result_kept (fun _ => ⟨rfl, id⟩) (fun _ _ => ⟨rfl, fun _ => rfl⟩)
        hr h f (frame?_eq_some hf).1
    rw [(frame?_eq_some hf').1] at hg
    simp at hg
    subst hg
    rw [isReady_of_frame ht hf' (hgk.trans hk), hgv hv]


theorem isReady_false_until_completion_then_true_witness :
    (⟨some 0⟩ : Task).m_coroutineHandle = some 0 ∧
      Task.isReady delayFinished ⟨some 0⟩ = .ok true ∧
      Task.isReady (Task.get delayFinished ⟨some 0⟩).2 ⟨some 0⟩ = .ok true ∧
      Task.isReady (finalSuspend (return_value delayPending 0 7) 0).1 ⟨some 0⟩ = .ok true :=
  ⟨rfl, rfl,
    (isReady_false_until_completion_then_true delayFinished ⟨some 0⟩ 0 rfl).2.2.2 _
      (Relation.ReflTransGen.single (Step.get delayFinished ⟨some 0⟩)) rfl ⟨_, rfl⟩,
    (isReady_false_until_completion_then_true delayPending ⟨some 0⟩ 0 rfl).2.2.1
      ⟨.value, none, none, .timerAwait (.delayReturn 7), false⟩ 7 rfl rfl⟩

end Evolution

/-! ## Releasing a task that is suspended on a timer -/

section Release

/-- Claim C14, which the code breaks.  The task `delay(100, 7)` is called at
time 0, left pending by a `processTimers` call at time 60, and its handle is
then released.  A state the process reaches this way holds a pending entry
whose frame has been destroyed, and the `processTimers` call at time 120 finds
the entry due and calls `resume()` on the destroyed frame: behaviour is
undefined. -/
theorem released_task_is_resumed_by_processTimers :
    Reaches (Machine.init tickReadings : Machine Demo Int) (Task.drop delayPending ⟨some 0⟩) ∧
      (Task.drop delayPending ⟨some 0⟩).status = .running ∧
      (Task.drop delayPending ⟨some 0⟩).m_timerTasks = [⟨100, 0⟩] ∧
      (Task.drop delayPending ⟨some 0⟩).frame? 0 = none ∧
      (processTimers demoCode 1 (Task.drop delayPending ⟨some 0⟩)).map
          (fun m => (m.status, resumedHandles m.log)) = some (.undefined, [0]) := by
  refine ⟨?_, rfl, rfl, rfl, by decide⟩
  have h1 : Reaches (Machine.init tickReadings : Machine Demo Int)
      ((invoke demoCode 1 (Machine.init tickReadings) .value (.delayEntry 100 7)).getD
        (delayPending, ⟨none⟩)).1 :=
    invoke_reaches demoCode 1 _ _ .value (.delayEntry 100 7) ⟨some 0⟩ rfl
  have h2 : Reaches ((invoke demoCode 1 (Machine.init tickReadings) .value
      (.delayEntry 100 7)).getD (delayPending, ⟨none⟩)).1 delayPending :=
    processTimers_reaches demoCode 1 _ _ rfl
  exact Relation.ReflTransGen.tail (Relation.ReflTransGen.trans h1 h2)
    (Step.drop delayPending ⟨some 0⟩)

end Release

/-! ## Moving task objects -/

section Moves

variable {σ α : Type}

theorem soleOwners_moveConstructAt {tasks : List Task} {other : Nat} {o : Task}
    (ho : tasks[other]? = some o) (hsole : SoleOwners tasks) :
    SoleOwners (moveConstructAt tasks other) := by
  have hlt : other < tasks.length := (List.getElem?_eq_some_iff.1 ho).1
  have hget : ∀ i h, (moveConstructAt tasks other)[i]? = some ⟨some h⟩ →
      (i ≠ other ∧ tasks[i]? = some ⟨some h⟩) ∨
      (i = tasks.length ∧ tasks[other]? = some ⟨some h⟩) := by
    intro i h hi
    simp only [moveConstructAt, ho, Task.moveConstruct] at hi
    by_cases hil : i < tasks.length
    · rw [List.getElem?_append_left (by simpa using hil)] at hi
      by_cases hio : other = i
      · subst hio
        simp [List.getElem?_set, hlt] at hi
      · left
        exact ⟨Ne.symm hio, by simpa [List.getElem?_set, hio] using hi⟩
    · have hle : tasks.length ≤ i := Nat.le_of_not_lt hil
      rw [List.getElem?_append_right (by simpa using hle)] at hi
      simp only [List.length_set] at hi
      by_cases hz : i - tasks.length = 0
      · right
        rw [hz] at hi
        simp at hi
        refine ⟨by omega, ?_⟩
        rw [ho]
        cases o
        simp at hi
        simp [hi]
      · obtain ⟨k, hk⟩ := Nat.exists_eq_succ_of_ne_zero hz
        rw [hk] at hi
        simp at hi
  intro i j h hi hj
  rcases hget i h hi with ⟨hio, hi'⟩ | ⟨hil, hi'⟩ <;>
    rcases hget j h hj with ⟨hjo, hj'⟩ | ⟨hjl, hj'⟩
  · exact hsole i j h hi' hj'
  · exact absurd (hsole i other h hi' hj') hio
  · exact absurd (hsole j other h hj' hi') hjo
  · rw [hil, hjl]

theorem soleOwners_assignAfterTest (m : Machine σ α) {tasks : List Task} {this other : Nat}
    {d o : Task} (hd : tasks[this]? = some d) (ho : tasks[other]? = some o)
    (hsole : SoleOwners tasks) : SoleOwners (assignAfterTest m tasks this other).2 := by
  have hlo : other < tasks.length := (List.getElem?_eq_some_iff.1 ho).1
  have hlt : this < tasks.length := (List.getElem?_eq_some_iff.1 hd).1
  have hget : ∀ i h, (assignAfterTest m tasks this other).2[i]? = some ⟨some h⟩ →
      (i ≠ other ∧ i ≠ this ∧ tasks[i]? = some ⟨some h⟩) ∨
      (i = this ∧ i ≠ other ∧ tasks[other]? = some ⟨some h⟩) := by
    intro i h hi
    simp only [assignAfterTest, hd, ho] at hi
    by_cases hio : other = i
    · subst hio
      simp [List.getElem?_set, hlo] at hi
    · by_cases hit : this = i
      · subst hit
        right
        refine ⟨rfl, Ne.symm hio, ?_⟩
        simp [List.getElem?_set, hio, hlt] at hi
        rw [ho]
        cases o
        simp at hi
        simp [hi]
      · left
        exact ⟨Ne.symm hio, Ne.symm hit, by simpa [List.getElem?_set, hio, hit] using hi⟩
  intro i j h hi hj
  rcases hget i h hi with ⟨hio, hit, hi'⟩ | ⟨hit, hio, hi'⟩ <;>
    rcases hget j h hj with ⟨hjo, hjt, hj'⟩ | ⟨hjt, hjo, hj'⟩
  · exact hsole i j h hi' hj'
  · exact absurd (hsole i other h hi' hj') hio
  · exact absurd (hsole j other h hj' hi') hjo
  · rw [hit, hjt]

/-- Claim C13, which the code breaks for move assignment.  Move construction
from `other` leaves `other` empty and the new object holding the frame `other`
held, every object still empty or the sole owner of its frame.  Move assignment
of an object to itself is decided by the first operand of the test and changes
nothing.  Move assignment between distinct objects reaches the second operand
of the test, which has no value: no assignment takes place.  The statements
behind the test would do what the claim says: destroy the frame `dst` held,
leave `other` empty and `dst` holding the frame `other` held, every object
still empty or the sole owner of its frame. -/
theorem move_construct_and_assign (m : Machine σ α) (tasks : List Task) (dst other : Nat)
    (d o : Task) (hd : tasks[dst]? = some d) (ho : tasks[other]? = some o)
    (hsole : SoleOwners tasks) :
    ((moveConstructAt tasks other)[other]? = some ⟨none⟩ ∧
      (moveConstructAt tasks other)[tasks.length]? = some ⟨o.m_coroutineHandle⟩ ∧
      SoleOwners (moveConstructAt tasks other)) ∧
    moveAssignAt m tasks dst dst = .ok (m, tasks) ∧
    (other ≠ dst → moveAssignAt m tasks dst other = .undefined) ∧
    (other ≠ dst →
      (assignAfterTest m tasks dst other).1 = Task.drop m d ∧
      (assignAfterTest m tasks dst other).2[other]? = some ⟨none⟩ ∧
      (assignAfterTest m tasks dst other).2[dst]? = some ⟨o.m_coroutineHandle⟩ ∧
      SoleOwners (assignAfterTest m tasks dst other).2) := by
  have hlo : other < tasks.length := (List.getElem?_eq_some_iff.1 ho).1
  have hlt : dst < tasks.length := (List.getElem?_eq_some_iff.1 hd).1
  refine ⟨⟨?_, ?_, soleOwners_moveConstructAt ho hsole⟩, ?_, ?_, ?_⟩
  · simp only [moveConstructAt, ho, Task.moveConstruct]
    rw [List.getElem?_append_left (by simpa using hlo)]
    simp [List.getElem?_set, hlo]
  · simp only [moveConstructAt, ho, Task.moveConstruct]
    rw [List.getElem?_append_right (by simp)]
    simp
  · simp [moveAssignAt, hd]
  · intro hne
    simp [moveAssignAt, hd, ho, hne, handleAddressEqHandle]
  · intro hne
    refine ⟨by simp [assignAfterTest, hd, ho], ?_, ?_, soleOwners_assignAfterTest m hd ho hsole⟩
    · simp [assignAfterTest, hd, ho, List.getElem?_set, hlo]
    · simp [assignAfterTest, hd, ho, List.getElem?_set, hne, hlt]

theorem move_construct_and_assign_witness :
    ([⟨some 0⟩, ⟨some 1⟩] : List Task)[0]? = some ⟨some 0⟩ ∧
      SoleOwners [⟨some 0⟩, ⟨some 1⟩] ∧
      moveConstructAt [⟨some 0⟩, ⟨some 1⟩] 1 = [⟨some 0⟩, ⟨none⟩, ⟨some 1⟩] ∧
      moveAssignAt twoDelays [⟨some 0⟩, ⟨some 1⟩] 0 1 = .undefined := by
  have hsole : SoleOwners [⟨some 0⟩, ⟨some 1⟩] := by
    intro i j h hi hj
    match i, j with
    | 0, 0 => rfl
    | 1, 1 => rfl
    | 0, 1 => simp at hi hj; rw [← hi] at hj; exact absurd hj (by decide)
    | 1, 0 => simp at hi hj; rw [← hi] at hj; exact absurd hj (by decide)
    | 0, j + 2 => simp at hj
    | 1, j + 2 => simp at hj
    | i + 2, _ => simp at hi
  exact ⟨rfl, hsole, rfl,
    (move_construct_and_assign twoDelays [⟨some 0⟩, ⟨some 1⟩] 0 1 ⟨some 0⟩ ⟨some 1⟩ rfl rfl
      hsole).2.2.1 (by decide)⟩

end Moves

/-! ## The shape of the frames under the operations -/

section Shape

variable {σ α : Type}

theorem point?_setFrame {m : Machine σ α} {h : Handle} {f : Frame σ α} (g : Frame σ α)
    (x : Handle) (hf : m.frames[h]? = some f) :
    (m.setFrame h g).point? x = if x = h then some g.point else m.point? x := by
  have hlt : h < m.frames.length := (List.getElem?_eq_some_iff.1 hf).1
  by_cases hx : x = h
  · subst hx
    simp [Machine.point?, Machine.setFrame, List.getElem?_set, hlt]
  · simp [Machine.point?, Machine.setFrame, List.getElem?_set, hx, Ne.symm hx]

theorem hasValue_setFrame {m : Machine σ α} {h : Handle} {f : Frame σ α} (g : Frame σ α)
    (x : Handle) (hf : m.frames[h]? = some f) :
    (m.setFrame h g).hasValue x = if x = h then g.m_value.isSome else m.hasValue x := by
  have hlt : h < m.frames.length := (List.getElem?_eq_some_iff.1 hf).1
  by_cases hx : x = h
  · subst hx
    simp [Machine.hasValue, Machine.setFrame, List.getElem?_set, hlt]
  · simp [Machine.hasValue, Machine.setFrame, List.getElem?_set, hx, Ne.symm hx]

theorem point?_of_frames {m : Machine σ α} {h : Handle} {f : Frame σ α}
    (hf : m.frames[h]? = some f) : m.point? h = some f.point := by
  simp [Machine.point?, hf]

theorem hasValue_of_frames {m : Machine σ α} {h : Handle} {f : Frame σ α}
    (hf : m.frames[h]? = some f) : m.hasValue h = f.m_value.isSome := by
  simp [Machine.hasValue, hf]

theorem awaiting?_of_frames {m : Machine σ α} {h : Handle} {f : Frame σ α}
    (hf : m.frames[h]? = some f) : m.awaiting? h = f.m_awaitingCoroutine := by
  simp [Machine.awaiting?, hf]

theorem point?_setPoint (m : Machine σ α) (h x : Handle) (p : SuspendPoint σ α) :
    (m.setPoint h p).point? x =
      if x = h then (m.point? h).map (fun _ => p) else m.point? x := by
  unfold Machine.setPoint
  cases hf : m.frames[h]? with
  | none =>
    by_cases hx : x = h
    · subst hx; simp [Machine.point?, hf]
    · simp [hx]
  | some f =>
    simp only []
    rw [point?_setFrame _ x hf]
    by_cases hx : x = h
    · simp [hx, point?_of_frames hf]
    · simp [hx]

@[simp] theorem hasValue_setPoint (m : Machine σ α) (h x : Handle) (p : SuspendPoint σ α) :
    (m.setPoint h p).hasValue x = m.hasValue x := by
  unfold Machine.setPoint
  cases hf : m.frames[h]? with
  | none => rfl
  | some f =>
    simp only []
    rw [hasValue_setFrame _ x hf]
    by_cases hx : x = h
    · subst hx; simp [hasValue_of_frames hf]
    · simp [hx]

/-- Overwriting a frame by one with the same suspension point leaves every
suspension point as it was. -/
theorem point?_setFrame_same {m : Machine σ α} {h : Handle} {f : Frame σ α} (g : Frame σ α)
    (x : Handle) (hf : m.frames[h]? = some f) (hg : g.point = f.point) :
    (m.setFrame h g).point? x = m.point? x := by
  rw [point?_setFrame _ x hf]
  by_cases hx : x = h
  · subst hx; simp [point?_of_frames hf, hg]
  · simp [hx]

theorem hasValue_setFrame_same {m : Machine σ α} {h : Handle} {f : Frame σ α} (g : Frame σ α)
    (x : Handle) (hf : m.frames[h]? = some f) (hg : g.m_value.isSome = f.m_value.isSome) :
    (m.setFrame h g).hasValue x = m.hasValue x := by
  rw [hasValue_setFrame _ x hf]
  by_cases hx : x = h
  · subst hx; simp [hasValue_of_frames hf, hg]
  · simp [hx]

@[simp] theorem point?_await_resume [Movable α] (m : Machine σ α) (o x : Handle) :
    (TaskAwaitable.await_resume m o).2.point? x = m.point? x := by
  unfold TaskAwaitable.await_resume
  cases hf : m.frame? o with
  | none => rfl
  | some f =>
    cases hk : f.kind <;> cases hv : f.m_value <;> simp only [hk, hv]
    exact point?_setFrame_same _ x (frame?_eq_some hf).1 rfl

@[simp] theorem hasValue_await_resume [Movable α] (m : Machine σ α) (o x : Handle) :
    (TaskAwaitable.await_resume m o).2.hasValue x = m.hasValue x := by
  unfold TaskAwaitable.await_resume
  cases hf : m.frame? o with
  | none => rfl
  | some f =>
    cases hk : f.kind <;> cases hv : f.m_value <;> simp only [hk, hv]
    exact hasValue_setFrame_same _ x (frame?_eq_some hf).1 (by simp [hv])

@[simp] theorem point?_get [Movable α] (m : Machine σ α) (t : Task) (x : Handle) :
    (Task.get m t).2.point? x = m.point? x := by
  unfold Task.get
  cases ht : t.m_coroutineHandle with
  | none => rfl
  | some h =>
    simp only []
    cases hf : m.frame? h with
    | none => rfl
    | some f =>
      cases hk : f.kind <;> cases hv : f.m_value <;> simp only [hk, hv]
      exact point?_setFrame_same _ x (frame?_eq_some hf).1 rfl

@[simp] theorem hasValue_get [Movable α] (m : Machine σ α) (t : Task) (x : Handle) :
    (Task.get m t).2.hasValue x = m.hasValue x := by
  unfold Task.get
  cases ht : t.m_coroutineHandle with
  | none => rfl
  | some h =>
    simp only []
    cases hf : m.frame? h with
    | none => rfl
    | some f =>
      cases hk : f.kind <;> cases hv : f.m_value <;> simp only [hk, hv]
      exact hasValue_setFrame_same _ x (frame?_eq_some hf).1 (by simp [hv])

@[simp] theorem awaiting?_get [Movable α] (m : Machine σ α) (t : Task) (x : Handle) :
    (Task.get m t).2.awaiting? x = m.awaiting? x := by
  unfold Task.get
  cases ht : t.m_coroutineHandle with
  | none => rfl
  | some h =>
    simp only []
    cases hf : m.frame? h with
    | none => rfl
    | some f =>
      cases hk : f.kind <;> cases hv : f.m_value <;> simp only [hk, hv]
      exact awaiting?_setFrame _ x (frame?_eq_some hf).1 rfl

@[simp] theorem point?_drop (m : Machine σ α) (t : Task) (x : Handle) :
    (Task.drop m t).point? x = m.point? x := by
  unfold Task.drop
  cases ht : t.m_coroutineHandle with
  | none => rfl
  | some h =>
    simp only [Machine.destroy]
    cases hf : m.frame? h with
    | none => rfl
    | some f => exact point?_setFrame_same _ x (frame?_eq_some hf).1 rfl

@[simp] theorem hasValue_drop (m : Machine σ α) (t : Task) (x : Handle) :
    (Task.drop m t).hasValue x = m.hasValue x := by
  unfold Task.drop
  cases ht : t.m_coroutineHandle with
  | none => rfl
  | some h =>
    simp only [Machine.destroy]
    cases hf : m.frame? h with
    | none => rfl
    | some f => exact hasValue_setFrame_same _ x (frame?_eq_some hf).1 rfl

@[simp] theorem awaiting?_drop (m : Machine σ α) (t : Task) (x : Handle) :
    (Task.drop m t).awaiting? x = m.awaiting? x := by
  unfold Task.drop
  cases ht : t.m_coroutineHandle with
  | none => rfl
  | some h =>
    simp only [Machine.destroy]
    cases hf : m.frame? h with
    | none => rfl
    | some f => exact awaiting?_setFrame _ x (frame?_eq_some hf).1 rfl

@[simp] theorem point?_return_value (m : Machine σ α) (h x : Handle) (v : α) :
    (return_value m h v).point? x = m.point? x := by
  unfold return_value
  cases hf : m.frame? h with
  | none => rfl
  | some f => exact point?_setFrame_same _ x (frame?_eq_some hf).1 rfl

theorem hasValue_return_value (m : Machine σ α) (h x : Handle) (v : α) :
    (return_value m h v).hasValue x = true ↔ (x = h ∧ (m.frame? h).isSome) ∨ m.hasValue x = true := by
  unfold return_value
  cases hf : m.frame? h with
  | none =>
    show m.hasValue x = true ↔ _
    simp
  | some f =>
    simp only []
    rw [hasValue_setFrame _ x (frame?_eq_some hf).1]
    by_cases hx : x = h
    · simp [hx]
    · simp [hx]

@[simp] theorem point?_task_await_suspend (m : Machine σ α) (o h x : Handle) :
    (TaskAwaitable.await_suspend m o h).point? x = m.point? x := by
  unfold TaskAwaitable.await_suspend
  cases hf : m.frame? o with
  | none => rfl
  | some f => exact point?_setFrame_same _ x (frame?_eq_some hf).1 rfl

@[simp] theorem hasValue_task_await_suspend (m : Machine σ α) (o h x : Handle) :
    (TaskAwaitable.await_suspend m o h).hasValue x = m.hasValue x := by
  unfold TaskAwaitable.await_suspend
  cases hf : m.frame? o with
  | none => rfl
  | some f => exact hasValue_setFrame_same _ x (frame?_eq_some hf).1 rfl

theorem getElem?_append_singleton {β : Type} (l : List β) (a : β) (x : Nat) :
    (l ++ [a])[x]? = if x = l.length then some a else l[x]? := by
  by_cases hx : x = l.length
  · subst hx; simp
  · rcases Nat.lt_or_gt_of_ne hx with hlt | hgt
    · simp [hx, List.getElem?_append_left hlt]
    · have h1 : l[x]? = none := List.getElem?_eq_none (by omega)
      have h2 : (l ++ [a])[x]? = none := List.getElem?_eq_none (by simp; omega)
      simp [hx, h1, h2]

theorem point?_create (m : Machine σ α) (kind : PromiseKind) (x : Handle) :
    (m.create kind).point? x = if x = m.frames.length then some .running else m.point? x := by
  unfold Machine.point? Machine.create
  simp only [getElem?_append_singleton]
  by_cases hx : x = m.frames.length <;> simp [hx]

theorem point?_length (m : Machine σ α) : m.point? m.frames.length = none := by
  simp [Machine.point?]

theorem awaiting?_length (m : Machine σ α) : m.awaiting? m.frames.length = none := by
  simp [Machine.awaiting?]

theorem awaiting?_create (m : Machine σ α) (kind : PromiseKind) (x : Handle) :
    (m.create kind).awaiting? x = m.awaiting? x := by
  unfold Machine.awaiting? Machine.create
  simp only [getElem?_append_singleton]
  by_cases hx : x = m.frames.length
  · subst hx; simp
  · simp [hx]

theorem hasValue_create (m : Machine σ α) (kind : PromiseKind) (x : Handle) :
    (m.create kind).hasValue x = m.hasValue x := by
  unfold Machine.hasValue Machine.create
  simp only [getElem?_append_singleton]
  by_cases hx : x = m.frames.length
  · subst hx; simp
  · simp [hx]

theorem point?_resumePoint [Movable α] {m m' : Machine σ α} {h : Handle} {pc : σ}
    (hr : resumePoint m h = some (m', pc)) :
    ((∃ next, m.point? h = some (.timerAwait next)) ∨
      ∃ o next, m.point? h = some (.taskAwait o next)) ∧
    (∀ x, m'.point? x = if x = h then some .running else m.point? x) ∧
    ∀ x, m'.hasValue x = m.hasValue x := by
  unfold resumePoint at hr
  cases hf : m.frame? h with
  | none => simp [hf] at hr
  | some f =>
    simp only [hf] at hr
    have hfr := (frame?_eq_some hf).1
    have hpt : ∀ x, (m.setPoint h .running).point? x =
        if x = h then some .running else m.point? x := by
      intro x
      rw [point?_setPoint, point?_of_frames hfr]
      rfl
    cases hp : f.point with
    | running => simp [hp] at hr
    | finalSuspend => simp [hp] at hr
    | timerAwait next =>
      simp [hp] at hr
      rw [← hr.1]
      exact ⟨Or.inl ⟨next, by rw [point?_of_frames hfr, hp]⟩, hpt, fun x => by simp⟩
    | taskAwait o next =>
      simp only [hp] at hr
      have h1 := point?_await_resume (m.setPoint h .running) o
      have h2 := hasValue_await_resume (m.setPoint h .running) o
      rcases ha : TaskAwaitable.await_resume (m.setPoint h .running) o with ⟨r, m1⟩
      rw [ha] at hr h1 h2
      cases r with
      | ok r =>
        simp at hr h1 h2
        rw [← hr.1]
        exact ⟨Or.inr ⟨o, next, by rw [point?_of_frames hfr, hp]⟩,
          fun x => by rw [h1, hpt], fun x => by rw [h2]⟩
      | throws e => simp at hr
      | undefined => simp at hr

/-- A state with the same suspension points and awaiting coroutines, no new
result and no new handle due to a `resume()` has the shape of the old one. -/
theorem wellFormed_same {m m' : Machine σ α} {queue queue' : List Handle}
    (hwf : WellFormed m queue)
    (hpt : ∀ y, m'.point? y = m.point? y)
    (haw : ∀ y, m'.awaiting? y = m.awaiting? y)
    (hhv : ∀ y, m'.hasValue y = true → m.hasValue y = true)
    (hpend : ∀ y ∈ pendingHandles m' queue', y ∈ pendingHandles m queue)
    (hnodup : (pendingHandles m' queue').Nodup) : WellFormed m' queue' := by
  refine ⟨?_, hnodup, ?_, ?_⟩
  · intro y hy
    rw [hpt]
    exact hwf.parked y (hpend y hy)
  · intro c p hc hne
    rw [haw] at hc
    rw [hpt] at hne
    obtain ⟨next, hn⟩ := hwf.awaited c p hc hne
    exact ⟨next, by rw [hpt, hn]⟩
  · intro c hc
    rw [hpt]
    exact hwf.completed c (hhv c hc)

/-- Parking the frame `x` at another suspension point keeps the shape when no
coroutine that has not completed waits for `x`, a completed frame stays
completed, and the handles due to a `resume()` are the old ones without `x`, or
`x` itself when it is parked in a `TimerAwaitable`. -/
theorem wellFormed_repark {m m' : Machine σ α} {queue queue' : List Handle}
    (hwf : WellFormed m queue) (x : Handle) (v : SuspendPoint σ α)
    (hpt : ∀ y, m'.point? y = if y = x then some v else m.point? y)
    (haw : ∀ y, m'.awaiting? y = m.awaiting? y)
    (hhv : ∀ y, m'.hasValue y = true → (y = x ∧ v = .finalSuspend) ∨ m.hasValue y = true)
    (hx : ∀ c next, m.point? x = some (.taskAwait c next) → m.point? c = some .finalSuspend)
    (hself : v = .finalSuspend ∨ (m.point? x ≠ some .finalSuspend ∧ m.hasValue x = false))
    (hpend : ∀ y ∈ pendingHandles m' queue',
      (y ∈ pendingHandles m queue ∧ y ≠ x) ∨ (y = x ∧ ∃ next, v = .timerAwait next))
    (hnodup : (pendingHandles m' queue').Nodup) : WellFormed m' queue' := by
  have hno : ∀ c, m.awaiting? c = some x → m.point? c = some .finalSuspend := by
    intro c hc
    by_contra hne
    obtain ⟨next, hn⟩ := hwf.awaited c x hc hne
    exact hne (hx c next hn)
  refine ⟨?_, hnodup, ?_, ?_⟩
  · intro y hy
    rw [hpt]
    rcases hpend y hy with ⟨hy1, hy2⟩ | ⟨hy1, next, hv⟩
    · rw [if_neg hy2]
      exact hwf.parked y hy1
    · rw [if_pos hy1, hv]
      exact ⟨next, rfl⟩
  · intro c p hc hne
    rw [haw] at hc
    rw [hpt] at hne
    by_cases hcx : c = x
    · subst hcx
      rw [if_pos rfl] at hne
      have hv : v ≠ .finalSuspend := fun h => hne (by rw [h])
      have hnf : m.point? c ≠ some .finalSuspend := by
        rcases hself with h | h
        · exact absurd h hv
        · exact h.1
      obtain ⟨next, hn⟩ := hwf.awaited c p hc hnf
      have hpc : p ≠ c := by
        intro hpc
        subst hpc
        exact hnf (hno p hc)
      exact ⟨next, by rw [hpt, if_neg hpc, hn]⟩
    · rw [if_neg hcx] at hne
      obtain ⟨next, hn⟩ := hwf.awaited c p hc hne
      have hpx : p ≠ x := by
        intro hpx
        subst hpx
        exact hne (hno c hc)
      exact ⟨next, by rw [hpt, if_neg hpx, hn]⟩
  · intro c hc
    rw [hpt]
    rcases hhv c hc with ⟨h1, h2⟩ | h
    · rw [if_pos h1, h2]
    · by_cases hcx : c = x
      · subst hcx
        rw [if_pos rfl]
        rcases hself with h' | h'
        · rw [h']
        · rw [h'.2] at h
          exact absurd h (by decide)
      · rw [if_neg hcx]
        exact hwf.completed c h

/-- Setting the awaiting coroutine of frame `o` to `h` keeps the shape when `h`
is suspended in a `TaskAwaitable` on `o`. -/
theorem wellFormed_setAwaiting {m m' : Machine σ α} {queue : List Handle}
    (hwf : WellFormed m queue) (o h : Handle)
    (hpt : ∀ y, m'.point? y = m.point? y)
    (haw : ∀ y, m'.awaiting? y = if y = o then some h else m.awaiting? y)
    (hhv : ∀ y, m'.hasValue y = m.hasValue y)
    (hpar : ∃ next, m.point? h = some (.taskAwait o next))
    (hpend : pendingHandles m' queue = pendingHandles m queue) : WellFormed m' queue := by
  refine ⟨?_, by rw [hpend]; exact hwf.distinct, ?_, ?_⟩
  · intro y hy
    rw [hpt]
    rw [hpend] at hy
    exact hwf.parked y hy
  · intro c p hc hne
    rw [haw] at hc
    rw [hpt] at hne
    by_cases hco : c = o
    · subst hco
      rw [if_pos rfl] at hc
      have hp : p = h := (Option.some.inj hc).symm
      subst hp
      obtain ⟨next, hn⟩ := hpar
      exact ⟨next, by rw [hpt, hn]⟩
    · rw [if_neg hco] at hc
      obtain ⟨next, hn⟩ := hwf.awaited c p hc hne
      exact ⟨next, by rw [hpt, hn]⟩
  · intro c hc
    rw [hpt]
    rw [hhv] at hc
    exact hwf.completed c hc

/-- The new frame of a coroutine call keeps the shape. -/
theorem wellFormed_create {m : Machine σ α} {queue : List Handle} (hwf : WellFormed m queue)
    (kind : PromiseKind) : WellFormed (m.create kind) queue := by
  have hnew : ∀ y, m.point? y ≠ none → y ≠ m.frames.length := by
    intro y hy hl
    subst hl
    exact hy (point?_length m)
  refine ⟨?_, hwf.distinct, ?_, ?_⟩
  · intro y hy
    obtain ⟨next, hn⟩ := hwf.parked y hy
    rw [point?_create, if_neg (hnew y (by rw [hn]; simp)), hn]
    exact ⟨next, rfl⟩
  · intro c p hc hne
    rw [awaiting?_create] at hc
    have hcl : c ≠ m.frames.length := by
      intro hl
      subst hl
      rw [awaiting?_length] at hc
      exact absurd hc (by simp)
    rw [point?_create, if_neg hcl] at hne
    obtain ⟨next, hn⟩ := hwf.awaited c p hc hne
    exact ⟨next, by rw [point?_create, if_neg (hnew p (by rw [hn]; simp)), hn]⟩
  · intro c hc
    rw [hasValue_create] at hc
    have := hwf.completed c hc
    rw [point?_create, if_neg (hnew c (by rw [this]; simp)), this]

end Shape
section Guarded

variable {σ α : Type}

theorem wellFormed_of_frames {m m' : Machine σ α} {queue : List Handle}
    (hwf : WellFormed m queue) (hf : m'.frames = m.frames)
    (ht : m'.m_timerTasks = m.m_timerTasks) : WellFormed m' queue := by
  have hpt : ∀ y, m'.point? y = m.point? y := fun y => by simp [Machine.point?, hf]
  have haw : ∀ y, m'.awaiting? y = m.awaiting? y := fun y => by simp [Machine.awaiting?, hf]
  have hhv : ∀ y, m'.hasValue y = m.hasValue y := fun y => by simp [Machine.hasValue, hf]
  have hp : pendingHandles m' queue = pendingHandles m queue := by simp [pendingHandles, ht]
  exact wellFormed_same hwf hpt haw (fun y hy => by rw [← hhv]; exact hy)
    (fun y hy => by rw [← hp]; exact hy) (by rw [hp]; exact hwf.distinct)

theorem not_pending_of_point {m : Machine σ α} {queue : List Handle} (hwf : WellFormed m queue)
    {x : Handle} (hx : ∀ next, m.point? x ≠ some (.timerAwait next)) :
    x ∉ pendingHandles m queue := by
  intro hmem
  obtain ⟨next, hn⟩ := hwf.parked x hmem
  exact hx next hn

theorem hasValue_false_of_point {m : Machine σ α} {queue : List Handle}
    (hwf : WellFormed m queue) {x : Handle} (hx : m.point? x ≠ some .finalSuspend) :
    m.hasValue x = false := by
  cases hv : m.hasValue x with
  | false => rfl
  | true => exact absurd (hwf.completed x hv) hx

/-- The expression `co_await duration` of a running coroutine keeps the shape. -/
theorem wellFormed_coAwaitDuration {m : Machine σ α} {queue : List Handle}
    (hwf : WellFormed m queue) {h : Handle} (hrun : m.Running h) (duration : Duration)
    (next : σ) : WellFormed (coAwaitDuration m h duration next).1 queue := by
  have hnot : h ∉ pendingHandles m queue :=
    not_pending_of_point hwf (fun n => by rw [hrun]; simp)
  have hp : pendingHandles (coAwaitDuration m h duration next).1 queue =
      m.m_timerTasks.map AsyncTimerTask.m_coroutineHandle ++ h :: queue := by
    simp [pendingHandles, coAwaitDuration, TimerAwaitable.await_ready,
      TimerAwaitable.await_suspend]
  have hperm : (m.m_timerTasks.map AsyncTimerTask.m_coroutineHandle ++ h :: queue).Perm
      (h :: pendingHandles m queue) := List.perm_middle
  refine wellFormed_repark hwf h (.timerAwait next) ?_ ?_ ?_ ?_ ?_ ?_ ?_
  · intro y
    show (m.setPoint h (.timerAwait next)).point? y = _
    rw [point?_setPoint, hrun]
    rfl
  · intro y
    show (m.setPoint h (.timerAwait next)).awaiting? y = _
    simp
  · intro y hy
    right
    have : (m.setPoint h (.timerAwait next)).hasValue y = true := hy
    simpa using this
  · intro c n hc
    rw [hrun] at hc
    simp at hc
  · right
    have hne : m.point? h ≠ some .finalSuspend := by rw [hrun]; simp
    exact ⟨hne, hasValue_false_of_point hwf hne⟩
  · intro y hy
    rw [hp] at hy
    have := hperm.mem_iff.1 hy
    rcases List.mem_cons.1 this with h1 | h1
    · exact Or.inr ⟨h1, next, rfl⟩
    · exact Or.inl ⟨h1, fun hyh => hnot (hyh ▸ h1)⟩
  · rw [hp]
    exact hperm.nodup_iff.2 (List.nodup_cons.2 ⟨hnot, hwf.distinct⟩)

/-- Resuming a suspended coroutine keeps the shape when the coroutine it was
waiting for, if any, has completed and the resumed handle is no longer due to a
`resume()`. -/
theorem wellFormed_resumePoint [Movable α] {m m' : Machine σ α} {queue queue' : List Handle}
    (hwf : WellFormed m queue) {p : Handle} {pc : σ} (hr : resumePoint m p = some (m', pc))
    (hx : ∀ c next, m.point? p = some (.taskAwait c next) → m.point? c = some .finalSuspend)
    (hpend : ∀ y ∈ pendingHandles m queue', y ∈ pendingHandles m queue ∧ y ≠ p)
    (hnodup : (pendingHandles m queue').Nodup) : WellFormed m' queue' := by
  obtain ⟨hpark, hpt, hhv⟩ := point?_resumePoint hr
  have hp : pendingHandles m' queue' = pendingHandles m queue' := by
    simp [pendingHandles, resumePoint_timers hr]
  have hne : m.point? p ≠ some .finalSuspend := by
    rcases hpark with ⟨n, hn⟩ | ⟨o, n, hn⟩ <;> rw [hn] <;> simp
  refine wellFormed_repark hwf p .running hpt (fun y => awaiting?_resumePoint hr y) ?_ hx
    (Or.inr ⟨hne, hasValue_false_of_point hwf hne⟩) ?_ (by rw [hp]; exact hnodup)
  · intro y hy
    right
    rw [hhv] at hy
    exact hy
  · intro y hy
    rw [hp] at hy
    exact Or.inl (hpend y hy)

theorem finalSuspend_cases [Movable α] (m : Machine σ α) (h : Handle) :
    (m.frame? h = none ∧ finalSuspend m h = (m.undefinedBehaviour, none)) ∨
    (∃ f, m.frame? h = some f ∧ f.m_awaitingCoroutine = none ∧
      finalSuspend m h = (m.setPoint h .finalSuspend, none)) ∨
    (∃ f p, m.frame? h = some f ∧ f.m_awaitingCoroutine = some p ∧
      resumePoint ((m.setPoint h .finalSuspend).record (.transferred h p)) p = none ∧
      finalSuspend m h =
        (((m.setPoint h .finalSuspend).record (.transferred h p)).undefinedBehaviour, none)) ∨
    ∃ f p m' pc, m.frame? h = some f ∧ f.m_awaitingCoroutine = some p ∧
      resumePoint ((m.setPoint h .finalSuspend).record (.transferred h p)) p = some (m', pc) ∧
      finalSuspend m h = (m', some (p, pc)) := by
  cases hf : m.frame? h with
  | none => exact Or.inl ⟨rfl, by simp [finalSuspend, hf]⟩
  | some f =>
    right
    cases ha : f.m_awaitingCoroutine with
    | none => exact Or.inl ⟨f, rfl, ha, by simp [finalSuspend, hf, final_suspend, ha]⟩
    | some p =>
      right
      cases hr : resumePoint ((m.setPoint h .finalSuspend).record (.transferred h p)) p with
      | none => exact Or.inl ⟨f, p, rfl, ha, hr, by simp [finalSuspend, hf, final_suspend, ha, hr]⟩
      | some x =>
        obtain ⟨m', pc⟩ := x
        exact Or.inr ⟨f, p, m', pc, rfl, ha, hr, by simp [finalSuspend, hf, final_suspend, ha, hr]⟩

/-- The completion of a running coroutine keeps the shape: `m0` is the state
after `return_value` or `return_void`. -/
theorem wellFormed_finalSuspend [Movable α] {m m0 : Machine σ α} {queue : List Handle}
    (hwf : WellFormed m queue) {h : Handle} (hrun : m.Running h)
    (hpt0 : ∀ y, m0.point? y = m.point? y) (haw0 : ∀ y, m0.awaiting? y = m.awaiting? y)
    (hhv0 : ∀ y, m0.hasValue y = true → (y = h ∧ m0.frame? h ≠ none) ∨ m.hasValue y = true)
    (ht0 : m0.m_timerTasks = m.m_timerTasks) : WellFormed (finalSuspend m0 h).1 queue := by
  have hp0 : pendingHandles m0 queue = pendingHandles m queue := by simp [pendingHandles, ht0]
  have hp1 : pendingHandles (m0.setPoint h .finalSuspend) queue = pendingHandles m queue := by
    simp [pendingHandles, ht0]
  have hnot : h ∉ pendingHandles m queue :=
    not_pending_of_point hwf (fun n => by rw [hrun]; simp)
  have hpt1 : ∀ y, (m0.setPoint h .finalSuspend).point? y =
      if y = h then some .finalSuspend else m.point? y := by
    intro y
    rw [point?_setPoint, hpt0, hpt0, hrun]
    rfl
  have hwf1 : WellFormed (m0.setPoint h .finalSuspend) queue := by
    refine wellFormed_repark hwf h .finalSuspend hpt1 (fun y => by simp [haw0]) ?_ ?_
      (Or.inl rfl) ?_ (by rw [hp1]; exact hwf.distinct)
    · intro y hy
      rw [hasValue_setPoint] at hy
      rcases hhv0 y hy with h1 | h1
      · exact Or.inl ⟨h1.1, rfl⟩
      · exact Or.inr h1
    · intro c n hc
      rw [hrun] at hc
      simp at hc
    · intro y hy
      rw [hp1] at hy
      exact Or.inl ⟨hy, fun hyh => hnot (hyh ▸ hy)⟩
  rcases finalSuspend_cases m0 h with ⟨hf, he⟩ | ⟨f, hf, _, he⟩ | ⟨f, p, hf, _, _, he⟩ |
      ⟨f, p, m', pc, hf, ha, hr, he⟩
  · rw [he]
    show WellFormed m0.undefinedBehaviour queue
    refine wellFormed_of_frames (wellFormed_same hwf hpt0 haw0 ?_
      (fun y hy => by rw [← hp0]; exact hy) (by rw [hp0]; exact hwf.distinct)) rfl rfl
    intro y hy
    rcases hhv0 y hy with h1 | h1
    · exact absurd hf h1.2
    · exact h1
  · rw [he]
    exact hwf1
  · rw [he]
    exact wellFormed_of_frames hwf1 rfl rfl
  · rw [he]
    have hawh : m.awaiting? h = some p := by
      rw [← haw0, awaiting?_of_frames (frame?_eq_some hf).1, ha]
    obtain ⟨n, hn⟩ := hwf.awaited h p hawh (by rw [hrun]; simp)
    have hph : p ≠ h := by
      intro hph
      subst hph
      rw [hrun] at hn
      simp at hn
    have hwf2 : WellFormed ((m0.setPoint h .finalSuspend).record (.transferred h p)) queue :=
      wellFormed_of_frames hwf1 rfl rfl
    refine wellFormed_resumePoint hwf2 hr ?_ ?_ hwf2.distinct
    · intro c n' hc
      have h1 : ((m0.setPoint h .finalSuspend).record (.transferred h p)).point? p
          = m.point? p := by
        show (m0.setPoint h .finalSuspend).point? p = _
        rw [hpt1, if_neg hph]
      rw [h1, hn] at hc
      have hch : h = c := by
        have := Option.some.inj hc
        injection this
      subst hch
      show (m0.setPoint h .finalSuspend).point? h = _
      rw [hpt1, if_pos rfl]
    · intro y hy
      refine ⟨hy, ?_⟩
      have hy1 : y ∈ pendingHandles m queue := by rw [← hp1]; exact hy
      obtain ⟨n', hn'⟩ := hwf.parked y hy1
      intro hyp
      subst hyp
      rw [hn] at hn'
      simp at hn'

/-- The expression `co_await otherTask` of a running coroutine keeps the shape. -/
theorem wellFormed_coAwaitTask [Movable α] {m : Machine σ α} {queue : List Handle}
    (hwf : WellFormed m queue) {h : Handle} (hrun : m.Running h) (t : Task)
    (next : Option α → σ) : WellFormed (coAwaitTask m h t next).1 queue := by
  unfold coAwaitTask
  cases ht : transform m t with
  | throws e => exact wellFormed_of_frames hwf rfl rfl
  | undefined => exact wellFormed_of_frames hwf rfl rfl
  | ok o =>
    simp only []
    cases hf : m.frame? o with
    | none => exact wellFormed_of_frames hwf rfl rfl
    | some f =>
      simp only []
      by_cases hready : TaskAwaitable.await_ready f = true
      · rw [if_pos hready]
        have h1 := point?_await_resume m o
        have h2 := awaiting?_await_resume m o
        have h3 := hasValue_await_resume m o
        have h4 := await_resume_timers m o
        rcases ha : TaskAwaitable.await_resume m o with ⟨r, m2⟩
        rw [ha] at h1 h2 h3 h4
        cases r with
        | ok r =>
          simp only [] at h1 h2 h3 h4 ⊢
          have hp : pendingHandles m2 queue = pendingHandles m queue := by
            simp [pendingHandles, h4]
          exact wellFormed_same hwf h1 h2 (fun y hy => by rw [← h3]; exact hy)
            (fun y hy => by rw [← hp]; exact hy) (by rw [hp]; exact hwf.distinct)
        | throws e => exact wellFormed_of_frames hwf rfl rfl
        | undefined => exact wellFormed_of_frames hwf rfl rfl
      · rw [if_neg hready]
        simp only []
        have hnot : h ∉ pendingHandles m queue :=
          not_pending_of_point hwf (fun n => by rw [hrun]; simp)
        have hp1 : pendingHandles (m.setPoint h (.taskAwait o next)) queue =
            pendingHandles m queue := by simp [pendingHandles]
        have hpt1 : ∀ y, (m.setPoint h (.taskAwait o next)).point? y =
            if y = h then some (.taskAwait o next) else m.point? y := by
          intro y
          rw [point?_setPoint, hrun]
          rfl
        have hne : m.point? h ≠ some .finalSuspend := by rw [hrun]; simp
        have hwf1 : WellFormed (m.setPoint h (.taskAwait o next)) queue := by
          refine wellFormed_repark hwf h (.taskAwait o next) hpt1 (fun y => by simp)
            (fun y hy => Or.inr (by simpa using hy)) ?_
            (Or.inr ⟨hne, hasValue_false_of_point hwf hne⟩) ?_ (by rw [hp1]; exact hwf.distinct)
          · intro c n hc
            rw [hrun] at hc
            simp at hc
          · intro y hy
            rw [hp1] at hy
            exact Or.inl ⟨hy, fun hyh => hnot (hyh ▸ hy)⟩
        cases hf1 : (m.setPoint h (.taskAwait o next)).frame? o with
        | none =>
          simp only [TaskAwaitable.await_suspend, hf1]
          exact wellFormed_of_frames hwf1 rfl rfl
        | some f1 =>
          refine wellFormed_setAwaiting hwf1 o h (fun y => by simp)
            (fun y => awaiting?_task_await_suspend hf1 h y) (fun y => by simp)
            ⟨next, by rw [hpt1, if_pos rfl]⟩ (by simp [pendingHandles])

theorem scanTimers_perm (rest : List AsyncTimerTask) :
    ∀ (clock : SteadyClock) (kept : List AsyncTimerTask) (handles : List Handle),
      ((scanTimers clock kept handles rest).2.1.map AsyncTimerTask.m_coroutineHandle ++
        (scanTimers clock kept handles rest).2.2).Perm
      (kept.map AsyncTimerTask.m_coroutineHandle ++ handles ++
        rest.map AsyncTimerTask.m_coroutineHandle) := by
  induction rest with
  | nil => intro clock kept handles; simp [scanTimers]
  | cons timer rest ih =>
    intro clock kept handles
    unfold scanTimers
    by_cases hd : timer.m_timePoint < clock.now.1
    · rw [if_pos hd]
      refine (ih clock.now.2 kept (handles ++ [timer.m_coroutineHandle])).trans ?_
      simp
    · rw [if_neg hd]
      refine (ih clock.now.2 (kept ++ [timer]) handles).trans ?_
      simp only [List.map_append, List.map_cons, List.map_nil, List.append_assoc]
      refine List.Perm.append_left _ ?_
      simp only [List.singleton_append]
      have hperm : (handles ++ timer.m_coroutineHandle ::
          rest.map AsyncTimerTask.m_coroutineHandle).Perm
          (timer.m_coroutineHandle :: (handles ++ rest.map AsyncTimerTask.m_coroutineHandle)) :=
        List.perm_middle
      exact hperm.symm

/-- The scan keeps the shape: the handles it moves to `m_handlesToResume` and
those of the entries it keeps are the handles of the entries it found. -/
theorem wellFormed_scanPhase {m : Machine σ α} (hwf : WellFormed m []) :
    WellFormed (scanPhase m) (scanPhase m).m_handlesToResume := by
  have hperm : (pendingHandles (scanPhase m) (scanPhase m).m_handlesToResume).Perm
      (pendingHandles m []) := by
    have := scanTimers_perm m.m_timerTasks m.clock [] []
    simpa [pendingHandles, scanPhase] using this
  exact wellFormed_same hwf (fun y => rfl) (fun y => rfl) (fun y hy => hy)
    (fun y hy => hperm.mem_iff.1 hy) (hperm.nodup_iff.2 hwf.distinct)

/-- Every state change of the process keeps the shape. -/
theorem move_wellFormed [Movable α] {c c' : Machine σ α × List Handle} (hs : Move c c')
    (hwf : WellFormed c.1 c.2) : WellFormed c'.1 c'.2 := by
  cases hs with
  | awaitDuration m queue h duration next hrun =>
    exact wellFormed_coAwaitDuration hwf hrun duration next
  | awaitTask m queue h t next hrun => exact wellFormed_coAwaitTask hwf hrun t next
  | call m queue kind => exact wellFormed_create hwf kind
  | coReturn m queue h val hrun =>
    refine wellFormed_finalSuspend hwf hrun (fun y => by simp) (fun y => by simp) ?_ (by simp)
    intro y hy
    rcases (hasValue_return_value m h y val).1 hy with ⟨h1, h2⟩ | h1
    · refine Or.inl ⟨h1, ?_⟩
      cases hf : m.frame? h with
      | none => simp [hf] at h2
      | some f =>
        rw [return_value_eq val hf,
          frame?_setFrame_self { f with m_value := some val } hf (frame?_eq_some hf).2]
        simp
    · exact Or.inr h1
  | coReturnVoid m queue h hrun =>
    exact wellFormed_finalSuspend hwf hrun (fun y => rfl) (fun y => rfl)
      (fun y hy => Or.inr hy) rfl
  | scan m => exact wellFormed_scanPhase hwf
  | resume m m' queue handle pc hr =>
    have hwf1 : WellFormed (m.record (.resumed handle)) (handle :: queue) :=
      wellFormed_of_frames hwf rfl rfl
    have hd : (pendingHandles m (handle :: queue)).Nodup := hwf.distinct
    have hsub : (pendingHandles m queue).Sublist (pendingHandles m (handle :: queue)) :=
      List.Sublist.append_left (List.sublist_cons_self _ _) _
    refine wellFormed_resumePoint hwf1 hr ?_ ?_ (hd.sublist hsub)
    · intro c n hc
      obtain ⟨n', hn'⟩ := hwf.parked handle (by simp [pendingHandles])
      have : m.point? handle = some (.taskAwait c n) := hc
      rw [hn'] at this
      simp at this
    · intro y hy
      have hy' : y ∈ pendingHandles m queue := hy
      refine ⟨hsub.subset hy', ?_⟩
      intro hyh
      subst hyh
      have hd' : (m.m_timerTasks.map AsyncTimerTask.m_coroutineHandle ++ y :: queue).Nodup := hd
      have hperm : (m.m_timerTasks.map AsyncTimerTask.m_coroutineHandle ++ y :: queue).Perm
          (y :: pendingHandles m queue) := List.perm_middle
      have := hperm.nodup_iff.1 hd'
      exact (List.nodup_cons.1 this).1 hy'
  | resumeUndefined m queue handle =>
    have hsub : (pendingHandles m queue).Sublist (pendingHandles m (handle :: queue)) :=
      List.Sublist.append_left (List.sublist_cons_self _ _) _
    exact wellFormed_same hwf (fun y => rfl) (fun y => rfl) (fun y hy => hy)
      (fun y hy => hsub.subset hy) (hwf.distinct.sublist hsub)
  | leave m queue =>
    have hsub : (pendingHandles m []).Sublist (pendingHandles m queue) :=
      List.Sublist.append_left (List.nil_sublist _) _
    exact wellFormed_same hwf (fun y => rfl) (fun y => rfl) (fun y hy => hy)
      (fun y hy => hsub.subset hy) (hwf.distinct.sublist hsub)
  | get m queue t =>
    have hp : pendingHandles (Task.get m t).2 queue = pendingHandles m queue := by
      simp [pendingHandles]
    exact wellFormed_same hwf (fun y => by simp) (fun y => by simp)
      (fun y hy => by simpa using hy) (fun y hy => by rw [← hp]; exact hy)
      (by rw [hp]; exact hwf.distinct)
  | drop m queue t =>
    have hp : pendingHandles (Task.drop m t) queue = pendingHandles m queue := by
      simp [pendingHandles]
    exact wellFormed_same hwf (fun y => by simp) (fun y => by simp)
      (fun y hy => by simpa using hy) (fun y hy => by rw [← hp]; exact hy)
      (by rw [hp]; exact hwf.distinct)

theorem wellFormed_init (readings : Nat → TimePoint) :
    WellFormed (Machine.init readings : Machine σ α) [] := by
  refine ⟨?_, ?_, ?_, ?_⟩
  · intro h hh
    simp [pendingHandles, Machine.init] at hh
  · simp [pendingHandles, Machine.init]
  · intro c p hc
    simp [Machine.awaiting?, Machine.init] at hc
  · intro c hc
    simp [Machine.hasValue, Machine.init] at hc

theorem moveReaches_wellFormed [Movable α] {c c' : Machine σ α × List Handle}
    (hr : MoveReaches c c') (hwf : WellFormed c.1 c.2) : WellFormed c'.1 c'.2 := by
  induction hr with
  | refl => exact hwf
  | tail _ hs ih => exact move_wellFormed hs ih

end Guarded

/-! ## Executions as sequences of state changes of the process -/

section Executions

variable {σ α : Type}

theorem point?_coAwaitDuration (m : Machine σ α) (h x : Handle) (duration : Duration)
    (next : σ) : (coAwaitDuration m h duration next).1.point? x =
      if x = h then (m.point? h).map (fun _ => .timerAwait next) else m.point? x := by
  show (m.setPoint h (.timerAwait next)).point? x = _
  exact point?_setPoint m h x _

theorem point?_coAwaitTask_ne [Movable α] (m : Machine σ α) {h x : Handle} (t : Task)
    (next : Option α → σ) (hx : x ≠ h) :
    (coAwaitTask m h t next).1.point? x = m.point? x := by
  unfold coAwaitTask
  cases ht : transform m t with
  | throws e => rfl
  | undefined => rfl
  | ok o =>
    simp only []
    cases hf : m.frame? o with
    | none => rfl
    | some f =>
      simp only []
      by_cases hready : TaskAwaitable.await_ready f = true
      · rw [if_pos hready]
        have h1 := point?_await_resume m o x
        rcases ha : TaskAwaitable.await_resume m o with ⟨r, m2⟩
        rw [ha] at h1
        cases r with
        | ok r => exact h1
        | throws e => rfl
        | undefined => rfl
      · rw [if_neg hready]
        simp only [point?_task_await_suspend]
        rw [point?_setPoint, if_neg hx]

/-- The completion of coroutine `h` changes the suspension point of another
frame only when that frame is the awaiting coroutine `h` transfers control to,
which was suspended and now runs. -/
theorem point?_finalSuspend_ne [Movable α] (m : Machine σ α) {h x : Handle} (hx : x ≠ h) :
    (finalSuspend m h).1.point? x = m.point? x ∨
      (m.awaiting? h = some x ∧ ¬ m.Running x ∧ (finalSuspend m h).1.Running x) := by
  have hpt1 : ∀ y, y ≠ h → (m.setPoint h .finalSuspend).point? y = m.point? y := by
    intro y hy
    rw [point?_setPoint, if_neg hy]
  rcases finalSuspend_cases m h with ⟨hf, he⟩ | ⟨f, hf, _, he⟩ | ⟨f, p, hf, _, _, he⟩ |
      ⟨f, p, m', pc, hf, ha, hr, he⟩
  · rw [he]; exact Or.inl rfl
  · rw [he]; exact Or.inl (hpt1 x hx)
  · rw [he]; exact Or.inl (hpt1 x hx)
  · rw [he]
    obtain ⟨hpark, hpt, _⟩ := point?_resumePoint hr
    by_cases hxp : x = p
    · subst hxp
      right
      refine ⟨by rw [awaiting?_of_frames (frame?_eq_some hf).1, ha], ?_, ?_⟩
      · have h1 : ((m.setPoint h .finalSuspend).record (.transferred h x)).point? x
            = m.point? x := hpt1 x hx
        rw [h1] at hpark
        intro hrun
        rw [hrun] at hpark
        rcases hpark with ⟨n, hn⟩ | ⟨o, n, hn⟩ <;> simp at hn
      · show m'.point? x = some .running
        rw [hpt, if_pos rfl]
    · left
      show m'.point? x = _
      rw [hpt, if_neg hxp]
      exact hpt1 x hx

/-- The coroutine the completion of `h` transfers control to is another one,
was suspended, and runs afterwards. -/
theorem finalSuspend_next [Movable α] {m m1 : Machine σ α} {h p : Handle} {pc : σ}
    (he : finalSuspend m h = (m1, some (p, pc))) :
    p ≠ h ∧ ¬ m.Running p ∧ m1.Running p := by
  rcases finalSuspend_cases m h with ⟨hf, he'⟩ | ⟨f, hf, _, he'⟩ | ⟨f, p', hf, _, _, he'⟩ |
      ⟨f, p', m', pc', hf, ha, hr, he'⟩
  · rw [he'] at he; simp at he
  · rw [he'] at he; simp at he
  · rw [he'] at he; simp at he
  · rw [he'] at he
    simp only [Prod.mk.injEq, Option.some.injEq] at he
    obtain ⟨h1, h2, h3⟩ := he
    subst h1 h2 h3
    obtain ⟨hpark, hpt, _⟩ := point?_resumePoint hr
    have hne : p' ≠ h := by
      intro hph
      subst hph
      have h1 : ((m.setPoint p' .finalSuspend).record (.transferred p' p')).point? p'
          = some .finalSuspend := by
        show (m.setPoint p' .finalSuspend).point? p' = _
        rw [point?_setPoint, if_pos rfl, point?_of_frames (frame?_eq_some hf).1]
        rfl
      rw [h1] at hpark
      rcases hpark with ⟨n, hn⟩ | ⟨o, n, hn⟩ <;> simp at hn
    refine ⟨hne, ?_, ?_⟩
    · have h1 : ((m.setPoint h .finalSuspend).record (.transferred h p')).point? p'
          = m.point? p' := by
        show (m.setPoint h .finalSuspend).point? p' = _
        rw [point?_setPoint, if_neg hne]
      rw [h1] at hpark
      intro hrun
      rw [hrun] at hpark
      rcases hpark with ⟨n, hn⟩ | ⟨o, n, hn⟩ <;> simp at hn
    · show m'.point? p' = some .running
      rw [hpt, if_pos rfl]

/-- A state change of the process changes the suspension point of a frame only
when the frame runs, when it is suspended in a `TimerAwaitable` and the `for`
loop of `processTimers` calls `resume()` on it, or when it is suspended in a
`TaskAwaitable` on a coroutine that runs. -/
theorem move_point [Movable α] {c c' : Machine σ α × List Handle} (hs : Move c c')
    (hwf : WellFormed c.1 c.2) (x : Handle) :
    c'.1.point? x = c.1.point? x ∨ c.1.Running x ∨
      (∃ next rest, c.1.point? x = some (.timerAwait next) ∧ c.2 = x :: rest) ∨
      (∃ o next, c.1.point? x = some (.taskAwait o next) ∧ c.1.Running o) ∨
      c.1.point? x = none := by
  cases hs with
  | awaitDuration m queue h duration next hrun =>
    by_cases hx : x = h
    · subst hx; exact Or.inr (Or.inl hrun)
    · left
      show (coAwaitDuration m h duration next).1.point? x = m.point? x
      rw [point?_coAwaitDuration, if_neg hx]
  | awaitTask m queue h t next hrun =>
    by_cases hx : x = h
    · subst hx; exact Or.inr (Or.inl hrun)
    · exact Or.inl (point?_coAwaitTask_ne m t next hx)
  | call m queue kind =>
    by_cases hx : x = m.frames.length
    · subst hx; exact Or.inr (Or.inr (Or.inr (Or.inr (point?_length m))))
    · left
      show (m.create kind).point? x = m.point? x
      rw [point?_create, if_neg hx]
  | coReturn m queue h val hrun =>
    by_cases hx : x = h
    · subst hx; exact Or.inr (Or.inl hrun)
    · rcases point?_finalSuspend_ne (return_value m h val) hx with h1 | ⟨h1, _, _⟩
      · left
        show (finalSuspend (return_value m h val) h).1.point? x = m.point? x
        rw [h1]; simp
      · rw [awaiting?_return_value] at h1
        obtain ⟨n, hn⟩ := hwf.awaited h x h1 (by
          have : m.point? h = some .running := hrun
          rw [this]; simp)
        exact Or.inr (Or.inr (Or.inr (Or.inl ⟨h, n, hn, hrun⟩)))
  | coReturnVoid m queue h hrun =>
    by_cases hx : x = h
    · subst hx; exact Or.inr (Or.inl hrun)
    · rcases point?_finalSuspend_ne (return_void m h) hx with h1 | ⟨h1, _, _⟩
      · exact Or.inl h1
      · obtain ⟨n, hn⟩ := hwf.awaited h x h1 (by
          have : m.point? h = some .running := hrun
          rw [this]; simp)
        exact Or.inr (Or.inr (Or.inr (Or.inl ⟨h, n, hn, hrun⟩)))
  | scan m => exact Or.inl rfl
  | resume m m' queue handle pc hr =>
    obtain ⟨_, hpt, _⟩ := point?_resumePoint hr
    by_cases hx : x = handle
    · subst hx
      obtain ⟨n, hn⟩ := hwf.parked x (by simp [pendingHandles])
      exact Or.inr (Or.inr (Or.inl ⟨n, queue, hn, rfl⟩))
    · left
      show m'.point? x = m.point? x
      rw [hpt, if_neg hx]
      rfl
  | resumeUndefined m queue handle => exact Or.inl rfl
  | leave m queue => exact Or.inl rfl
  | get m queue t => exact Or.inl (point?_get m t x)
  | drop m queue t => exact Or.inl (point?_drop m t x)

/-- The body of a running coroutine executes as a sequence of state changes of
the process, and leaves running every other coroutine that was. -/
theorem run_moves [Movable α] (code : σ → Instr σ α) (queue : List Handle) :
    ∀ (fuel : Nat) (m : Machine σ α) (h : Handle) (pc : σ) (m' : Machine σ α),
      WellFormed m queue → m.Running h → run code fuel m h pc = some m' →
      MoveReaches (m, queue) (m', queue) ∧ ∀ x, x ≠ h → m.Running x → m'.Running x := by
  intro fuel
  induction fuel with
  | zero => intro m h pc m' _ _ hr; simp [run] at hr
  | succ fuel ih =>
    intro m h pc m' hwf hrun hr
    rw [run] at hr
    cases hi : code pc with
    | awaitDuration d next =>
      simp only [hi] at hr
      have hstep := Move.awaitDuration m queue h d next hrun
      have hkeep : ∀ x, x ≠ h → m.Running x → (coAwaitDuration m h d next).1.Running x := by
        intro x hx hxr
        show (coAwaitDuration m h d next).1.point? x = _
        rw [point?_coAwaitDuration, if_neg hx]
        exact hxr
      rcases hc : coAwaitDuration m h d next with ⟨m1, _ | pc1⟩
      · simp [hc] at hr
        rw [hc, hr] at hstep hkeep
        exact ⟨Relation.ReflTransGen.single hstep, hkeep⟩
      · simp [coAwaitDuration, TimerAwaitable.await_ready] at hc
    | awaitTask t next =>
      simp only [hi] at hr
      have hstep := Move.awaitTask m queue h t next hrun
      have hkeep : ∀ x, x ≠ h → m.Running x → (coAwaitTask m h t next).1.Running x := by
        intro x hx hxr
        show (coAwaitTask m h t next).1.point? x = _
        rw [point?_coAwaitTask_ne m t next hx]
        exact hxr
      have hwf1 := wellFormed_coAwaitTask hwf hrun t next
      have hself : (coAwaitTask m h t next).2 ≠ none → (coAwaitTask m h t next).1.Running h := by
        intro hne
        show (coAwaitTask m h t next).1.point? h = _
        unfold coAwaitTask at hne ⊢
        cases ht : transform m t with
        | throws e => simp [ht] at hne
        | undefined => simp [ht] at hne
        | ok o =>
          simp only [ht] at hne ⊢
          cases hf : m.frame? o with
          | none => simp [hf] at hne
          | some f =>
            simp only [hf] at hne ⊢
            by_cases hready : TaskAwaitable.await_ready f = true
            · rw [if_pos hready]
              have h1 := point?_await_resume m o h
              rcases ha : TaskAwaitable.await_resume m o with ⟨r, m2⟩
              rw [ha] at h1
              cases r with
              | ok r => exact h1.trans hrun
              | throws e => exact hrun
              | undefined => exact hrun
            · rw [if_neg hready] at hne
              simp at hne
      rcases hc : coAwaitTask m h t next with ⟨m1, _ | pc1⟩
      · simp [hc] at hr
        rw [hc, hr] at hstep hkeep
        exact ⟨Relation.ReflTransGen.single hstep, hkeep⟩
      · simp only [hc] at hr
        rw [hc] at hstep hkeep hwf1 hself
        obtain ⟨h1, h2⟩ := ih _ _ _ _ hwf1 (hself (by simp)) hr
        exact ⟨Relation.ReflTransGen.head hstep h1, fun x hx hxr => h2 x hx (hkeep x hx hxr)⟩
    | call kind entry next =>
      simp only [hi] at hr
      have hold : ∀ x, m.Running x → x ≠ m.frames.length ∧ (m.create kind).Running x := by
        intro x hxr
        have hne : x ≠ m.frames.length := by
          intro hx
          subst hx
          have : m.point? m.frames.length = some .running := hxr
          rw [point?_length] at this
          simp at this
        refine ⟨hne, ?_⟩
        show (m.create kind).point? x = _
        rw [point?_create, if_neg hne]
        exact hxr
      have hnew : (m.create kind).Running m.frames.length := by
        show (m.create kind).point? m.frames.length = _
        rw [point?_create, if_pos rfl]
      cases hc : run code fuel (m.create kind) m.frames.length entry with
      | none => simp [hc] at hr
      | some m1 =>
        simp only [hc] at hr
        obtain ⟨h1, h2⟩ := ih _ _ _ _ (wellFormed_create hwf kind) hnew hc
        have hreach : MoveReaches (m, queue) (m1, queue) :=
          Relation.ReflTransGen.head (Move.call m queue kind) h1
        have hkeep : ∀ x, m.Running x → m1.Running x :=
          fun x hxr => h2 x (hold x hxr).1 (hold x hxr).2
        by_cases hs : m1.status = .running
        · simp only [hs, if_true] at hr
          have hwf1 : WellFormed m1 queue := moveReaches_wellFormed hreach hwf
          obtain ⟨h3, h4⟩ := ih _ _ _ _ hwf1 (hkeep h hrun) hr
          exact ⟨Relation.ReflTransGen.trans hreach h3, fun x hx hxr => h4 x hx (hkeep x hxr)⟩
        · simp [hs] at hr
          rw [← hr]
          exact ⟨hreach, fun x _ hxr => hkeep x hxr⟩
    | dropTask t next =>
      simp only [hi] at hr
      have hstep := Move.drop m queue t
      have hkeep : ∀ x, m.Running x → (Task.drop m t).Running x := by
        intro x hxr
        show (Task.drop m t).point? x = _
        rw [point?_drop]
        exact hxr
      by_cases hs : (Task.drop m t).status = .running
      · simp only [hs, if_true] at hr
        obtain ⟨h1, h2⟩ := ih _ _ _ _ (move_wellFormed hstep hwf) (hkeep h hrun) hr
        exact ⟨Relation.ReflTransGen.head hstep h1, fun x hx hxr => h2 x hx (hkeep x hxr)⟩
      · simp [hs] at hr
        rw [← hr]
        exact ⟨Relation.ReflTransGen.single hstep, fun x _ hxr => hkeep x hxr⟩
    | coReturn val =>
      simp only [hi] at hr
      have hstep := Move.coReturn m queue h val hrun
      have hkeep : ∀ x, x ≠ h → m.Running x →
          (finalSuspend (return_value m h val) h).1.Running x := by
        intro x hx hxr
        rcases point?_finalSuspend_ne (return_value m h val) hx with h1 | ⟨_, _, h1⟩
        · show (finalSuspend (return_value m h val) h).1.point? x = _
          rw [h1, point?_return_value]
          exact hxr
        · exact h1
      have hwf1 := move_wellFormed hstep hwf
      rcases hc : finalSuspend (return_value m h val) h with ⟨m1, _ | ⟨p, pc1⟩⟩
      · simp [hc] at hr
        rw [hc, hr] at hstep hkeep
        exact ⟨Relation.ReflTransGen.single hstep, hkeep⟩
      · simp only [hc] at hr
        obtain ⟨_, hp2, hp3⟩ := finalSuspend_next hc
        rw [hc] at hstep hkeep hwf1
        obtain ⟨h1, h2⟩ := ih _ _ _ _ hwf1 hp3 hr
        refine ⟨Relation.ReflTransGen.head hstep h1, fun x hx hxr => h2 x ?_ (hkeep x hx hxr)⟩
        intro hxp
        subst hxp
        exact hp2 (by
          show (return_value m h val).point? x = _
          rw [point?_return_value]
          exact hxr)
    | coReturnVoid =>
      simp only [hi] at hr
      have hstep := Move.coReturnVoid m queue h hrun
      have hkeep : ∀ x, x ≠ h → m.Running x →
          (finalSuspend (return_void m h) h).1.Running x := by
        intro x hx hxr
        rcases point?_finalSuspend_ne (return_void m h) hx with h1 | ⟨_, _, h1⟩
        · show (finalSuspend (return_void m h) h).1.point? x = _
          rw [h1]
          exact hxr
        · exact h1
      have hwf1 := move_wellFormed hstep hwf
      rcases hc : finalSuspend (return_void m h) h with ⟨m1, _ | ⟨p, pc1⟩⟩
      · simp [hc] at hr
        rw [hc, hr] at hstep hkeep
        exact ⟨Relation.ReflTransGen.single hstep, hkeep⟩
      · simp only [hc] at hr
        obtain ⟨_, hp2, hp3⟩ := finalSuspend_next hc
        rw [hc] at hstep hkeep hwf1
        obtain ⟨h1, h2⟩ := ih _ _ _ _ hwf1 hp3 hr
        refine ⟨Relation.ReflTransGen.head hstep h1, fun x hx hxr => h2 x ?_ (hkeep x hx hxr)⟩
        intro hxp
        subst hxp
        exact hp2 hxr

/-- A call of a coroutine function from outside any coroutine is a sequence
of state changes of the process. -/
theorem invoke_moves [Movable α] (code : σ → Instr σ α) (fuel : Nat) (m m' : Machine σ α)
    (queue : List Handle) (kind : PromiseKind) (entry : σ) (t : Task)
    (hwf : WellFormed m queue) (hi : invoke code fuel m kind entry = some (m', t)) :
    MoveReaches (m, queue) (m', queue) := by
  unfold invoke at hi
  cases hc : run code fuel (m.create kind) m.frames.length entry with
  | none => simp [hc] at hi
  | some m1 =>
    simp [hc] at hi
    rw [← hi.1]
    have hnew : (m.create kind).Running m.frames.length := by
      show (m.create kind).point? m.frames.length = _
      rw [point?_create, if_pos rfl]
    exact Relation.ReflTransGen.head (Move.call m queue kind)
      (run_moves code queue _ _ _ _ _ (wellFormed_create hwf kind) hnew hc).1

theorem resumeHandles_moves [Movable α] (code : σ → Instr σ α) (fuel : Nat)
    (handles : List Handle) :
    ∀ (m m' : Machine σ α), WellFormed m handles →
      resumeHandles code fuel m handles = some m' → MoveReaches (m, handles) (m', []) := by
  induction handles with
  | nil =>
    intro m m' _ hr
    simp [resumeHandles] at hr
    rw [hr]; exact Relation.ReflTransGen.refl
  | cons handle rest ih =>
    intro m m' hwf hr
    rw [resumeHandles] at hr
    by_cases hs : m.status = .running
    · simp only [hs, if_true] at hr
      cases h1 : resume code fuel (m.record (.resumed handle)) handle with
      | none => simp [h1] at hr
      | some m1 =>
        simp only [h1] at hr
        have hm1 : MoveReaches (m, handle :: rest) (m1, rest) := by
          unfold resume at h1
          cases hp : resumePoint (m.record (.resumed handle)) handle with
          | none =>
            simp [hp] at h1
            rw [← h1]
            exact Relation.ReflTransGen.single (Move.resumeUndefined m rest handle)
          | some x =>
            obtain ⟨m2, pc⟩ := x
            simp only [hp] at h1
            have hstep := Move.resume m m2 rest handle pc hp
            have hrun : m2.Running handle := by
              show m2.point? handle = _
              rw [(point?_resumePoint hp).2.1, if_pos rfl]
            exact Relation.ReflTransGen.head hstep
              (run_moves code rest _ _ _ _ _ (move_wellFormed hstep hwf) hrun h1).1
        exact Relation.ReflTransGen.trans hm1 (ih _ _ (moveReaches_wellFormed hm1 hwf) hr)
    · simp [hs] at hr
      rw [← hr]
      exact Relation.ReflTransGen.single (Move.leave m (handle :: rest))

/-- A `processTimers` call is a sequence of state changes of the process. -/
theorem processTimers_moves [Movable α] (code : σ → Instr σ α) (fuel : Nat)
    (m m' : Machine σ α) (hwf : WellFormed m [])
    (hp : processTimers code fuel m = some m') : MoveReaches (m, []) (m', []) := by
  unfold processTimers at hp
  by_cases hs : m.status = .running
  · simp only [hs, if_true] at hp
    exact Relation.ReflTransGen.head (Move.scan m)
      (resumeHandles_moves code fuel _ _ _ (wellFormed_scanPhase hwf) hp)
  · simp [hs] at hp
    rw [← hp]; exact Relation.ReflTransGen.refl

end Executions

/-! ## Each frame is pending at most once -/

section Uniqueness

variable {σ α : Type}

/-- The state `twoDelays` is reached from the start state by state changes of
the process. -/
theorem twoDelays_moves :
    MoveReaches (Machine.init demoReadings, []) (twoDelays, []) := by
  have h1 : MoveReaches (Machine.init demoReadings, [])
      (((invoke demoCode 1 (Machine.init demoReadings) .value (.delayEntry 200 1)).getD
        (twoDelays, ⟨none⟩)).1, []) :=
    invoke_moves demoCode 1 _ _ [] .value (.delayEntry 200 1) ⟨some 0⟩
      (wellFormed_init demoReadings) rfl
  have h2 : MoveReaches
      (((invoke demoCode 1 (Machine.init demoReadings) .value (.delayEntry 200 1)).getD
        (twoDelays, ⟨none⟩)).1, []) (twoDelays, []) :=
    invoke_moves demoCode 1 _ _ [] .value (.delayEntry 100 2) ⟨some 1⟩
      (moveReaches_wellFormed h1 (wellFormed_init demoReadings)) rfl
  exact Relation.ReflTransGen.trans h1 h2

/-- Claim C15.  In every state the process reaches from its start state (no
frame, no pending entry) by coroutine calls, duration awaits, task awaits,
completions and the scans and `resume()` calls of `processTimers` (and by
`get()` and destructor calls, frame addresses being never reused): no frame has
two entries in `m_timerTasks`; a frame with an entry is suspended in the
`TimerAwaitable` it awaits, so no frame that runs has one; and a handle the
`for` loop of the `processTimers` call under way has still to call `resume()`
on has no entry any more: its entry was erased by the scan before the frame is
resumed.  The calls of coroutine functions and of `processTimers` lead from
such a state to such states only. -/
theorem pending_frame_once_and_erased_before_resumed [Movable α] (readings : Nat → TimePoint)
    (m : Machine σ α) (queue : List Handle)
    (hreach : MoveReaches (Machine.init readings, []) (m, queue)) :
    (m.m_timerTasks.map AsyncTimerTask.m_coroutineHandle).Nodup ∧
    (∀ h ∈ m.m_timerTasks.map AsyncTimerTask.m_coroutineHandle,
      ∃ next, m.point? h = some (.timerAwait next)) ∧
    (∀ h, m.Running h → h ∉ m.m_timerTasks.map AsyncTimerTask.m_coroutineHandle) ∧
    (∀ handle ∈ queue, handle ∉ m.m_timerTasks.map AsyncTimerTask.m_coroutineHandle) ∧
    queue.Nodup ∧
    (∀ (code : σ → Instr σ α) (fuel : Nat) (m' : Machine σ α) (kind : PromiseKind) (entry : σ)
      (t : Task), invoke code fuel m kind entry = some (m', t) →
      MoveReaches (Machine.init readings, []) (m', queue)) ∧
    (∀ (code : σ → Instr σ α) (fuel : Nat) (m' : Machine σ α), queue = [] →
      processTimers code fuel m = some m' →
      MoveReaches (Machine.init readings, []) (m', [])) := by
  have hwf : WellFormed m queue :=
    moveReaches_wellFormed hreach (wellFormed_init readings)
  have hd : (m.m_timerTasks.map AsyncTimerTask.m_coroutineHandle ++ queue).Nodup := hwf.distinct
  have hparked : ∀ h ∈ m.m_timerTasks.map AsyncTimerTask.m_coroutineHandle,
      ∃ next, m.point? h = some (.timerAwait next) :=
    fun h hh => hwf.parked h (List.mem_append_left _ hh)
  refine ⟨(List.nodup_append.1 hd).1, hparked, ?_, ?_, (List.nodup_append.1 hd).2.1, ?_, ?_⟩
  · intro h hrun hh
    obtain ⟨next, hn⟩ := hparked h hh
    have hp : m.point? h = some .running := hrun
    rw [hp] at hn
    simp at hn
  · intro handle hq ht
    exact (List.nodup_append.1 hd).2.2 ht hq
  · intro code fuel m' kind entry t hi
    exact Relation.ReflTransGen.trans hreach (invoke_moves code fuel m m' queue kind entry t hwf hi)
  · intro code fuel m' hq hp
    subst hq
    exact Relation.ReflTransGen.trans hreach (processTimers_moves code fuel m m' hwf hp)

theorem pending_frame_once_and_erased_before_resumed_witness :
    MoveReaches (Machine.init demoReadings, []) (twoDelays, []) ∧
      (twoDelays.m_timerTasks.map AsyncTimerTask.m_coroutineHandle).Nodup ∧
      (∀ h ∈ twoDelays.m_timerTasks.map AsyncTimerTask.m_coroutineHandle,
        ∃ next, twoDelays.point? h = some (.timerAwait next)) ∧
      MoveReaches (Machine.init demoReadings, [])
        ((processTimers demoCode 1 twoDelays).getD twoDelays, []) :=
  ⟨twoDelays_moves,
    (pending_frame_once_and_erased_before_resumed demoReadings twoDelays [] twoDelays_moves).1,
    (pending_frame_once_and_erased_before_resumed demoReadings twoDelays [] twoDelays_moves).2.1,
    (pending_frame_once_and_erased_before_resumed demoReadings twoDelays []
      twoDelays_moves).2.2.2.2.2.2 demoCode 1 _ rfl rfl⟩

end Uniqueness

/-! ## Awaiting a task with no result that has already completed -/

section Stranded

variable {σ α : Type}

/-- A frame suspended in a `TaskAwaitable` on a coroutine that has completed
stays suspended there under every state change of the process. -/
theorem move_stranded [Movable α] {c c' : Machine σ α × List Handle} (hs : Move c c')
    (hwf : WellFormed c.1 c.2) {P C : Handle} {next : Option α → σ}
    (hP : c.1.point? P = some (.taskAwait C next)) (hC : c.1.point? C = some .finalSuspend) :
    c'.1.point? P = some (.taskAwait C next) ∧ c'.1.point? C = some .finalSuspend := by
  constructor
  · rcases move_point hs hwf P with h | h | ⟨n, r, h, _⟩ | ⟨o, n, h, hrun⟩ | h
    · rw [h]; exact hP
    · have h' : c.1.point? P = some .running := h
      rw [hP] at h'; simp at h'
    · rw [hP] at h; simp at h
    · rw [hP] at h
      have ho : C = o := by
        have := Option.some.inj h
        injection this
      subst ho
      have h' : c.1.point? C = some .running := hrun
      rw [hC] at h'; simp at h'
    · rw [hP] at h; simp at h
  · rcases move_point hs hwf C with h | h | ⟨n, r, h, _⟩ | ⟨o, n, h, hrun⟩ | h
    · rw [h]; exact hC
    · have h' : c.1.point? C = some .running := h
      rw [hC] at h'; simp at h'
    · rw [hC] at h; simp at h
    · rw [hC] at h; simp at h
    · rw [hC] at h; simp at h

theorem moveReaches_stranded [Movable α] {c c' : Machine σ α × List Handle}
    (hr : MoveReaches c c') (hwf : WellFormed c.1 c.2) {P C : Handle} {next : Option α → σ}
    (hP : c.1.point? P = some (.taskAwait C next)) (hC : c.1.point? C = some .finalSuspend) :
    WellFormed c'.1 c'.2 ∧
      c'.1.point? P = some (.taskAwait C next) ∧ c'.1.point? C = some .finalSuspend := by
  induction hr with
  | refl => exact ⟨hwf, hP, hC⟩
  | tail _ hs ih => exact ⟨move_wellFormed hs ih.1, move_stranded hs ih.1 ih.2.1 ih.2.2⟩

/-- The state `nothingDone` is reached from the start state by state changes
of the process: the calls of `waiter()` and `nothing()` and the completion of
`nothing()`. -/
theorem nothingDone_moves :
    MoveReaches (Machine.init tickReadings, []) (nothingDone, []) := by
  have h1 : Move (Machine.init tickReadings, [])
      ((Machine.init tickReadings : Machine Scene Int).create .void, []) :=
    Move.call _ [] .void
  have h2 : Move ((Machine.init tickReadings : Machine Scene Int).create .void, [])
      (((Machine.init tickReadings : Machine Scene Int).create .void).create .void, []) :=
    Move.call _ [] .void
  have h3 : Move (((Machine.init tickReadings : Machine Scene Int).create .void).create .void, [])
      (nothingDone, []) :=
    Move.coReturnVoid (((Machine.init tickReadings : Machine Scene Int).create .void).create .void)
      [] 1 rfl
  exact Relation.ReflTransGen.tail (Relation.ReflTransGen.tail (Relation.ReflTransGen.single h1) h2)
    h3

/-- Claim C20.  In a state the process has reached, let the running coroutine
`P` await the task of frame `C`, of a task with no result, whose body has run
to completion (the frame is at its final suspend point) and which nobody awaits
yet.  `await_ready` is false; `P` is suspended in the `TaskAwaitable` on `C`;
`C` records `P` as its awaiting coroutine; the process does not fail;
`m_timerTasks` is unchanged and `P` is in no entry of it nor among the handles
a `processTimers` call under way has still to resume.  In every state reached
from there by state changes of the process, `P` is still suspended at that
await, is in no pending entry and is not due to any `resume()`: neither
`processTimers` (the state after any `processTimers` call is such a state) nor
the completion of any coroutine resumes it. -/
theorem await_of_completed_void_task_is_never_resumed [Movable α] (readings : Nat → TimePoint)
    (m : Machine σ α) (queue : List Handle) (P C : Handle) (fC : Frame σ α)
    (next : Option α → σ)
    (hreach : MoveReaches (Machine.init readings, []) (m, queue))
    (hP : m.Running P) (hC : m.frame? C = some fC) (hvoid : fC.kind = .void)
    (hdone : fC.point = .finalSuspend) (hfree : fC.m_awaitingCoroutine = none) :
    TaskAwaitable.await_ready fC = false ∧
    (coAwaitTask m P ⟨some C⟩ next).2 = none ∧
    (coAwaitTask m P ⟨some C⟩ next).1.point? P = some (.taskAwait C next) ∧
    (coAwaitTask m P ⟨some C⟩ next).1.awaiting? C = some P ∧
    (coAwaitTask m P ⟨some C⟩ next).1.status = m.status ∧
    (coAwaitTask m P ⟨some C⟩ next).1.m_timerTasks = m.m_timerTasks ∧
    P ∉ pendingHandles (coAwaitTask m P ⟨some C⟩ next).1 queue ∧
    (∀ (m' : Machine σ α) (queue' : List Handle),
      MoveReaches ((coAwaitTask m P ⟨some C⟩ next).1, queue) (m', queue') →
      m'.point? P = some (.taskAwait C next) ∧ ¬ m'.Running P ∧
        P ∉ pendingHandles m' queue' ∧
        ∀ (code : σ → Instr σ α) (fuel : Nat) (m2 : Machine σ α), queue' = [] →
          processTimers code fuel m' = some m2 →
          m2.point? P = some (.taskAwait C next) ∧ ¬ m2.Running P) := by
  have hwf : WellFormed m queue := moveReaches_wellFormed hreach (wellFormed_init readings)
  have hfr := (frame?_eq_some hC).1
  have hCP : C ≠ P := by
    intro h
    subst h
    have h1 : m.point? C = some .running := hP
    rw [point?_of_frames hfr, hdone] at h1
    simp at h1
  have hready : TaskAwaitable.await_ready fC = false := by
    simp [TaskAwaitable.await_ready, hvoid]
  have ht : transform m ⟨some C⟩ = .ok C := by
    simp [transform, Task.isValid, Task.isAwaited, hC, hfree]
  have hC1 : (m.setPoint P (.taskAwait C next)).frame? C = some fC := by
    obtain ⟨fP, hfP⟩ : ∃ fP, m.frames[P]? = some fP := by
      have h1 : m.point? P = some .running := hP
      cases hf : m.frames[P]? with
      | none => simp [Machine.point?, hf] at h1
      | some fP => exact ⟨fP, rfl⟩
    simp only [Machine.setPoint, hfP]
    rw [frame?_setFrame_ne _ _ (Ne.symm hCP)]
    exact hC
  have heq : coAwaitTask m P ⟨some C⟩ next =
      (TaskAwaitable.await_suspend (m.setPoint P (.taskAwait C next)) C P, none) := by
    simp [coAwaitTask, ht, hC, hready]
  have hstep : Move (m, queue) ((coAwaitTask m P ⟨some C⟩ next).1, queue) :=
    Move.awaitTask m queue P ⟨some C⟩ next hP
  have hwf1 : WellFormed (coAwaitTask m P ⟨some C⟩ next).1 queue := move_wellFormed hstep hwf
  have hpt : ∀ x, (coAwaitTask m P ⟨some C⟩ next).1.point? x =
      if x = P then some (.taskAwait C next) else m.point? x := by
    intro x
    rw [heq]
    simp only [point?_task_await_suspend]
    have h1 : m.point? P = some .running := hP
    rw [point?_setPoint, h1]
    rfl
  have hptP : (coAwaitTask m P ⟨some C⟩ next).1.point? P = some (.taskAwait C next) := by
    rw [hpt, if_pos rfl]
  have hptC : (coAwaitTask m P ⟨some C⟩ next).1.point? C = some .finalSuspend := by
    rw [hpt, if_neg hCP, point?_of_frames hfr, hdone]
  have hnot : ∀ (m' : Machine σ α) (queue' : List Handle), WellFormed m' queue' →
      m'.point? P = some (.taskAwait C next) →
      ¬ m'.Running P ∧ P ∉ pendingHandles m' queue' := by
    intro m' queue' hwf' hp
    refine ⟨?_, not_pending_of_point hwf' (fun n => by rw [hp]; simp)⟩
    intro hrun
    have h1 : m'.point? P = some .running := hrun
    rw [hp] at h1
    simp at h1
  refine ⟨hready, by rw [heq], hptP, ?_, ?_, by simp, (hnot _ _ hwf1 hptP).2, ?_⟩
  · rw [heq]
    show (TaskAwaitable.await_suspend (m.setPoint P (.taskAwait C next)) C P).awaiting? C = _
    rw [awaiting?_task_await_suspend hC1, if_pos rfl]
  · rw [heq]
    simp only [TaskAwaitable.await_suspend, hC1]
    show (m.setPoint P (.taskAwait C next)).status = m.status
    unfold Machine.setPoint
    split <;> rfl
  · intro m' queue' hr
    obtain ⟨hwf', hp', hc'⟩ := moveReaches_stranded hr hwf1 hptP hptC
    refine ⟨hp', (hnot _ _ hwf' hp').1, (hnot _ _ hwf' hp').2, ?_⟩
    intro code fuel m2 hq hpt2
    subst hq
    have hr2 : MoveReaches (m', []) (m2, []) := processTimers_moves code fuel m' m2 hwf' hpt2
    obtain ⟨hwf2, hp2, _⟩ := moveReaches_stranded hr2 hwf' hp' hc'
    exact ⟨hp2, (hnot _ _ hwf2 hp2).1⟩

theorem await_of_completed_void_task_is_never_resumed_witness :
    MoveReaches (Machine.init tickReadings, []) (nothingDone, []) ∧
      nothingDone.Running 0 ∧
      (coAwaitTask nothingDone 0 ⟨some 1⟩ (fun _ => Scene.waiterDrop ⟨some 1⟩)).2 = none ∧
      (coAwaitTask nothingDone 0 ⟨some 1⟩ (fun _ => Scene.waiterDrop ⟨some 1⟩)).1.awaiting? 1 =
        some 0 ∧
      ((processTimers sceneCode 0
          (coAwaitTask nothingDone 0 ⟨some 1⟩ (fun _ => Scene.waiterDrop ⟨some 1⟩)).1).getD
        nothingDone).point? 0 = some (.taskAwait 1 (fun _ => Scene.waiterDrop ⟨some 1⟩)) :=
  ⟨nothingDone_moves, rfl,
    (await_of_completed_void_task_is_never_resumed tickReadings nothingDone [] 0 1
      ⟨.void, none, none, .finalSuspend, false⟩ (fun _ => Scene.waiterDrop ⟨some 1⟩)
      nothingDone_moves rfl rfl rfl rfl rfl).2.1,
    (await_of_completed_void_task_is_never_resumed tickReadings nothingDone [] 0 1
      ⟨.void, none, none, .finalSuspend, false⟩ (fun _ => Scene.waiterDrop ⟨some 1⟩)
      nothingDone_moves rfl rfl rfl rfl rfl).2.2.2.1,
    (((await_of_completed_void_task_is_never_resumed tickReadings nothingDone [] 0 1
      ⟨.void, none, none, .finalSuspend, false⟩ (fun _ => Scene.waiterDrop ⟨some 1⟩)
      nothingDone_moves rfl rfl rfl rfl rfl).2.2.2.2.2.2.2 _ []
        Relation.ReflTransGen.refl).2.2.2 sceneCode 0 _ rfl rfl).1⟩

end Stranded

/-! ## Readiness and completion -/

section Readiness

variable {σ α : Type}

/-- The state `delayFinished` is reached from the start state by state changes
of the process. -/
theorem delayFinished_moves :
    MoveReaches (Machine.init tickReadings, []) (delayFinished, []) := by
  have hwf0 : WellFormed (Machine.init tickReadings : Machine Demo Int) [] :=
    wellFormed_init tickReadings
  have h1 : MoveReaches (Machine.init tickReadings, [])
      (((invoke demoCode 1 (Machine.init tickReadings) .value (.delayEntry 100 7)).getD
        (delayPending, ⟨none⟩)).1, []) :=
    invoke_moves demoCode 1 _ _ [] .value (.delayEntry 100 7) ⟨some 0⟩ hwf0 rfl
  have h2 : MoveReaches
      (((invoke demoCode 1 (Machine.init tickReadings) .value (.delayEntry 100 7)).getD
        (delayPending, ⟨none⟩)).1, []) (delayPending, []) :=
    processTimers_moves demoCode 1 _ _ (moveReaches_wellFormed h1 hwf0) rfl
  have h12 := Relation.ReflTransGen.trans h1 h2
  have h3 : MoveReaches (delayPending, []) (delayFinished, []) :=
    processTimers_moves demoCode 1 _ _ (moveReaches_wellFormed h12 hwf0) rfl
  exact Relation.ReflTransGen.trans h12 h3

/-- Claim C12, refuted as stated.  The task `pause(100)`, a task with no
result, is called at time 0 and its body has run to completion after the
`processTimers` calls at times 60 and 120: its frame is at the final suspend
point.  The handle is non-empty, and `isReady()` on it is not true: the
promise of a task with no result has no `m_value` and `return_void` has
recorded nothing, so the member has nothing to read. -/
theorem isReady_of_completed_void_task_is_not_true :
    ((invoke sceneCode 1 (Machine.init tickReadings) .void (.pauseEntry 100)).bind
        fun r => (processTimers sceneCode 1 r.1).bind fun a => processTimers sceneCode 1 a) =
      some pauseFinished ∧
    Task.isValid ⟨some 0⟩ = true ∧
    pauseFinished.point? 0 = some .finalSuspend ∧
    pauseFinished.hasValue 0 = false ∧
    Task.isReady pauseFinished ⟨some 0⟩ = .undefined ∧
    Task.isReady pauseFinished ⟨some 0⟩ ≠ .ok true := by
  refine ⟨rfl, rfl, rfl, rfl, rfl, ?_⟩
  intro h
  have hu : (Outcome.undefined : Outcome Bool) = .ok true := h
  cases hu

/-- Claim C12, amended.  In every state the process reaches: `isReady()` on
an empty handle is false; on a non-empty handle of a result-bearing task it is
true if and only if the promise holds a stored result, and then the body has
run to completion (the frame is at its final suspend point); for a task with
no result, `return_void` records nothing at completion and `isReady()` has
nothing to read, whether the body has completed or not. -/
theorem isReady_true_iff_result_stored [Movable α] (readings : Nat → TimePoint)
    (m : Machine σ α) (queue : List Handle) (t : Task)
    (hreach : MoveReaches (Machine.init readings, []) (m, queue)) :
    (t.m_coroutineHandle = none → Task.isReady m t = .ok false) ∧
    (∀ h f, t.m_coroutineHandle = some h → m.frame? h = some f → f.kind = .value →
      (Task.isReady m t = .ok true ↔ f.m_value.isSome = true) ∧
      (Task.isReady m t = .ok true → f.point = .finalSuspend)) ∧
    (∀ h f, t.m_coroutineHandle = some h → m.frame? h = some f → f.kind = .void →
      Task.isReady m t = .undefined) ∧
    (∀ h, return_void m h = m) := by
  have hwf : WellFormed m queue := moveReaches_wellFormed hreach (wellFormed_init readings)
  refine ⟨?_, ?_, ?_, fun _ => rfl⟩
  · intro ht
    simp [Task.isReady, ht]
  · intro h f ht hf hk
    have hr : Task.isReady m t = .ok f.m_value.isSome := isReady_of_frame ht hf hk
    have hiff : Task.isReady m t = .ok true ↔ f.m_value.isSome = true := by
      rw [hr]
      constructor
      · intro h1
        injection h1
      · intro h1
        rw [h1]
    refine ⟨hiff, ?_⟩
    intro h1
    have hfr := (frame?_eq_some hf).1
    have hv : m.hasValue h = true := by
      rw [hasValue_of_frames hfr]
      exact hiff.1 h1
    have := hwf.completed h hv
    rw [point?_of_frames hfr] at this
    exact Option.some.inj this
  · intro h f ht hf hk
    simp [Task.isReady, ht, hf, hk]

theorem isReady_true_iff_result_stored_witness :
    MoveReaches (Machine.init tickReadings, []) (delayFinished, []) ∧
      Task.isReady delayFinished ⟨some 0⟩ = .ok true ∧
      (Task.isReady delayFinished ⟨none⟩ = .ok false) :=
  ⟨delayFinished_moves,
    ((isReady_true_iff_result_stored tickReadings delayFinished [] ⟨some 0⟩
      delayFinished_moves).2.1 0 ⟨.value, none, some 7, .finalSuspend, false⟩ rfl rfl rfl).1.2 rfl,
    (isReady_true_iff_result_stored tickReadings delayFinished [] ⟨none⟩
      delayFinished_moves).1 rfl⟩

end Readiness

/-! ## Entries added while `processTimers` resumes -/

section Reentry

variable {σ α : Type}

/-- A relation between states that every coroutine event of a body keeps holds
between the state a body starts in and the one it returns in. -/
theorem run_keeps [Movable α] (code : σ → Instr σ α) (R : Machine σ α → Machine σ α → Prop)
    (htrans : ∀ a b c, R a b → R b c → R a c)
    (hduration : ∀ m h d next, R m (coAwaitDuration m h d next).1)
    (htask : ∀ m h t next, R m (coAwaitTask m h t next).1)
    (hcall : ∀ m kind, R m (m.create kind))
    (hdrop : ∀ m t, R m (Task.drop m t))
    (hreturn : ∀ m h val, R m (finalSuspend (return_value m h val) h).1)
    (hvoid : ∀ m h, R m (finalSuspend (return_void m h) h).1) :
    ∀ (fuel : Nat) (m : Machine σ α) (h : Handle) (pc : σ) (m' : Machine σ α),
      run code fuel m h pc = some m' → R m m' := by
  intro fuel
  induction fuel with
  | zero => intro m h pc m' hr; simp [run] at hr
  | succ fuel ih =>
    intro m h pc m' hr
    rw [run] at hr
    cases hi : code pc with
    | awaitDuration d next =>
      simp only [hi] at hr
      have hstep := hduration m h d next
      rcases hc : coAwaitDuration m h d next with ⟨m1, _ | pc1⟩
      · simp [hc] at hr
        rw [hc, hr] at hstep
        exact hstep
      · simp only [hc] at hr
        rw [hc] at hstep
        exact htrans _ _ _ hstep (ih _ _ _ _ hr)
    | awaitTask t next =>
      simp only [hi] at hr
      have hstep := htask m h t next
      rcases hc : coAwaitTask m h t next with ⟨m1, _ | pc1⟩
      · simp [hc] at hr
        rw [hc, hr] at hstep
        exact hstep
      · simp only [hc] at hr
        rw [hc] at hstep
        exact htrans _ _ _ hstep (ih _ _ _ _ hr)
    | call kind entry next =>
      simp only [hi] at hr
      cases hc : run code fuel (m.create kind) m.frames.length entry with
      | none => simp [hc] at hr
      | some m1 =>
        simp only [hc] at hr
        have h1 : R m m1 := htrans _ _ _ (hcall m kind) (ih _ _ _ _ hc)
        by_cases hs : m1.status = .running
        · simp only [hs, if_true] at hr
          exact htrans _ _ _ h1 (ih _ _ _ _ hr)
        · simp [hs] at hr
          rw [← hr]; exact h1
    | dropTask t next =>
      simp only [hi] at hr
      by_cases hs : (Task.drop m t).status = .running
      · simp only [hs, if_true] at hr
        exact htrans _ _ _ (hdrop m t) (ih _ _ _ _ hr)
      · simp [hs] at hr
        rw [← hr]
        exact hdrop m t
    | coReturn val =>
      simp only [hi] at hr
      have hstep := hreturn m h val
      rcases hc : finalSuspend (return_value m h val) h with ⟨m1, _ | ⟨p, pc1⟩⟩
      · simp [hc] at hr
        rw [hc, hr] at hstep
        exact hstep
      · simp only [hc] at hr
        rw [hc] at hstep
        exact htrans _ _ _ hstep (ih _ _ _ _ hr)
    | coReturnVoid =>
      simp only [hi] at hr
      have hstep := hvoid m h
      rcases hc : finalSuspend (return_void m h) h with ⟨m1, _ | ⟨p, pc1⟩⟩
      · simp [hc] at hr
        rw [hc, hr] at hstep
        exact hstep
      · simp only [hc] at hr
        rw [hc] at hstep
        exact htrans _ _ _ hstep (ih _ _ _ _ hr)

/-- Running a coroutine body removes no entry of `m_timerTasks`: it only
appends entries. -/
theorem run_timers [Movable α] (code : σ → Instr σ α) (fuel : Nat) (m : Machine σ α)
    (h : Handle) (pc : σ) (m' : Machine σ α) (hr : run code fuel m h pc = some m') :
    ∃ added, m'.m_timerTasks = m.m_timerTasks ++ added := by
  refine run_keeps code (fun a b => ∃ added, b.m_timerTasks = a.m_timerTasks ++ added)
    ?_ ?_ (fun m h t next => ⟨[], by simp⟩) (fun m kind => ⟨[], by
      simp [Machine.create]⟩) (fun m t => ⟨[], by simp⟩) (fun m h val => ⟨[], by simp⟩)
    (fun m h => ⟨[], by simp [return_void]⟩) fuel m h pc m' hr
  · rintro a b c ⟨l1, h1⟩ ⟨l2, h2⟩
    exact ⟨l1 ++ l2, by rw [h2, h1]; simp⟩
  · intro m h d next
    exact ⟨[⟨m.clock.now.1 + d, h⟩], by
      simp [coAwaitDuration, TimerAwaitable.await_ready, TimerAwaitable.await_suspend]⟩

theorem resumeHandles_timers [Movable α] (code : σ → Instr σ α) (fuel : Nat)
    (handles : List Handle) :
    ∀ (m m' : Machine σ α), resumeHandles code fuel m handles = some m' →
      ∃ added, m'.m_timerTasks = m.m_timerTasks ++ added := by
  induction handles with
  | nil =>
    intro m m' hr
    simp [resumeHandles] at hr
    exact ⟨[], by rw [hr]; simp⟩
  | cons handle rest ih =>
    intro m m' hr
    rw [resumeHandles] at hr
    by_cases hs : m.status = .running
    · simp only [hs, if_true] at hr
      cases h1 : resume code fuel (m.record (.resumed handle)) handle with
      | none => simp [h1] at hr
      | some m1 =>
        simp only [h1] at hr
        have hm1 : ∃ added, m1.m_timerTasks = m.m_timerTasks ++ added := by
          unfold resume at h1
          cases hp : resumePoint (m.record (.resumed handle)) handle with
          | none =>
            simp [hp] at h1
            exact ⟨[], by rw [← h1]; simp [Machine.undefinedBehaviour, Machine.record]⟩
          | some x =>
            obtain ⟨m2, pc⟩ := x
            simp only [hp] at h1
            obtain ⟨l, hl⟩ := run_timers code _ _ _ _ _ h1
            exact ⟨l, by rw [hl, resumePoint_timers hp]; rfl⟩
        obtain ⟨l1, hl1⟩ := hm1
        obtain ⟨l2, hl2⟩ := ih _ _ hr
        exact ⟨l1 ++ l2, by rw [hl2, hl1]; simp⟩
    · simp [hs] at hr
      exact ⟨[], by rw [← hr]; simp⟩

theorem dueHandles_length (rest : List AsyncTimerTask) :
    ∀ clock : SteadyClock, (dueHandles clock rest).length ≤ rest.length := by
  induction rest with
  | nil => intro clock; simp [dueHandles]
  | cons timer rest ih =>
    intro clock
    unfold dueHandles
    by_cases hd : timer.m_timePoint < clock.now.1
    · rw [if_pos hd]
      simpa using ih clock.now.2
    · rw [if_neg hd]
      exact Nat.le_succ_of_le (ih clock.now.2)

/-- More fuel does not change what a body execution that returns leaves. -/
theorem run_fuel_succ [Movable α] (code : σ → Instr σ α) :
    ∀ (fuel : Nat) (m : Machine σ α) (h : Handle) (pc : σ) (m' : Machine σ α),
      run code fuel m h pc = some m' → run code (fuel + 1) m h pc = some m' := by
  intro fuel
  induction fuel with
  | zero => intro m h pc m' hr; simp [run] at hr
  | succ fuel ih =>
    intro m h pc m' hr
    rw [run] at hr ⊢
    cases hi : code pc with
    | awaitDuration d next =>
      simp only [hi] at hr ⊢
      rcases hc : coAwaitDuration m h d next with ⟨m1, _ | pc1⟩
      · simpa [hc] using hr
      · simp only [hc] at hr ⊢
        exact ih _ _ _ _ hr
    | awaitTask t next =>
      simp only [hi] at hr ⊢
      rcases hc : coAwaitTask m h t next with ⟨m1, _ | pc1⟩
      · simpa [hc] using hr
      · simp only [hc] at hr ⊢
        exact ih _ _ _ _ hr
    | call kind entry next =>
      simp only [hi] at hr ⊢
      cases hc : run code fuel (m.create kind) m.frames.length entry with
      | none => simp [hc] at hr
      | some m1 =>
        simp only [hc] at hr
        rw [ih _ _ _ _ hc]
        simp only []
        by_cases hs : m1.status = .running
        · simp only [hs, if_true] at hr ⊢
          exact ih _ _ _ _ hr
        · simpa [hs] using hr
    | dropTask t next =>
      simp only [hi] at hr ⊢
      by_cases hs : (Task.drop m t).status = .running
      · simp only [hs, if_true] at hr ⊢
        exact ih _ _ _ _ hr
      · simpa [hs] using hr
    | coReturn val =>
      simp only [hi] at hr ⊢
      rcases hc : finalSuspend (return_value m h val) h with ⟨m1, _ | ⟨p, pc1⟩⟩
      · simpa [hc] using hr
      · simp only [hc] at hr ⊢
        exact ih _ _ _ _ hr
    | coReturnVoid =>
      simp only [hi] at hr ⊢
      rcases hc : finalSuspend (return_void m h) h with ⟨m1, _ | ⟨p, pc1⟩⟩
      · simpa [hc] using hr
      · simp only [hc] at hr ⊢
        exact ih _ _ _ _ hr

theorem run_fuel_add [Movable α] (code : σ → Instr σ α) (k : Nat) :
    ∀ (fuel : Nat) (m : Machine σ α) (h : Handle) (pc : σ) (m' : Machine σ α),
      run code fuel m h pc = some m' → run code (fuel + k) m h pc = some m' := by
  induction k with
  | zero => intro fuel m h pc m' hr; exact hr
  | succ k ih =>
    intro fuel m h pc m' hr
    exact run_fuel_succ code _ _ _ _ _ (ih _ _ _ _ _ hr)

theorem resume_fuel_add [Movable α] (code : σ → Instr σ α) (k fuel : Nat) (m m' : Machine σ α)
    (handle : Handle) (hr : resume code fuel m handle = some m') :
    resume code (fuel + k) m handle = some m' := by
  unfold resume at hr ⊢
  cases hp : resumePoint m handle with
  | none => simpa [hp] using hr
  | some x =>
    obtain ⟨m2, pc⟩ := x
    simp only [hp] at hr ⊢
    exact run_fuel_add code k _ _ _ _ _ hr

theorem resumeHandles_fuel_add [Movable α] (code : σ → Instr σ α) (k fuel : Nat)
    (handles : List Handle) :
    ∀ (m m' : Machine σ α), resumeHandles code fuel m handles = some m' →
      resumeHandles code (fuel + k) m handles = some m' := by
  induction handles with
  | nil => intro m m' hr; simpa [resumeHandles] using hr
  | cons handle rest ih =>
    intro m m' hr
    rw [resumeHandles] at hr ⊢
    by_cases hs : m.status = .running
    · simp only [hs, if_true] at hr ⊢
      cases h1 : resume code fuel (m.record (.resumed handle)) handle with
      | none => simp [h1] at hr
      | some m1 =>
        simp only [h1] at hr
        rw [resume_fuel_add code k fuel _ _ _ h1]
        exact ih _ _ hr
    · simpa [hs] using hr

/-- The `for` loop of `processTimers` returns when every body execution it
starts returns. -/
theorem resumeHandles_returns [Movable α] (code : σ → Instr σ α)
    (hret : ∀ (m : Machine σ α) (h : Handle) (pc : σ), ∃ fuel, run code fuel m h pc ≠ none)
    (handles : List Handle) :
    ∀ m : Machine σ α, ∃ fuel m', resumeHandles code fuel m handles = some m' := by
  induction handles with
  | nil => intro m; exact ⟨0, m, rfl⟩
  | cons handle rest ih =>
    intro m
    by_cases hs : m.status = .running
    · have h1 : ∃ fuel m1, resume code fuel (m.record (.resumed handle)) handle = some m1 := by
        cases hp : resumePoint (m.record (.resumed handle)) handle with
        | none => exact ⟨0, (m.record (.resumed handle)).undefinedBehaviour, by simp [resume, hp]⟩
        | some x =>
          obtain ⟨m2, pc⟩ := x
          obtain ⟨fuel, hf⟩ := hret m2 handle pc
          cases hrun : run code fuel m2 handle pc with
          | none => exact absurd hrun hf
          | some m1 => exact ⟨fuel, m1, by simp [resume, hp, hrun]⟩
      obtain ⟨f1, m1, hm1⟩ := h1
      obtain ⟨f2, m', hm'⟩ := ih m1
      refine ⟨f1 + f2, m', ?_⟩
      rw [resumeHandles]
      simp only [hs, if_true]
      rw [resume_fuel_add code f2 f1 _ _ _ hm1]
      simp only []
      have := resumeHandles_fuel_add code f1 f2 rest _ _ hm'
      rw [Nat.add_comm] at this
      exact this
    · exact ⟨0, m, by simp [resumeHandles, hs]⟩

/-- The body of `spinner()` never leaves its loop. -/
theorem spinnerLooping_runs_on :
    ∀ fuel, run sceneCode fuel spinnerLooping 0 (.spinnerLoop ⟨some 1⟩) = none := by
  intro fuel
  induction fuel with
  | zero => rfl
  | succ fuel ih =>
    have h1 : run sceneCode (fuel + 1) spinnerLooping 0 (.spinnerLoop ⟨some 1⟩) =
        run sceneCode fuel spinnerLooping 0 (.spinnerLoop ⟨some 1⟩) := rfl
    rw [h1, ih]

/-- Claim C19, refuted as stated.  The task `spinner()` is called at time 0
and suspended on its timer; it is the one entry of `m_timerTasks`.  The
`processTimers` call at time 60 resumes it, and its body never gives control
back: the call does not return, whatever fuel it is given. -/
theorem processTimers_does_not_return_from_looping_task :
    invoke sceneCode 1 (Machine.init tickReadings) .void .spinnerEntry =
        some (spinnerPending, ⟨some 0⟩) ∧
      spinnerPending.m_timerTasks.length = 1 ∧
      ((resumePoint ((scanPhase spinnerPending).record (.resumed 0)) 0).bind
        fun r => run sceneCode 1 (r.1.create .value) 1 .unitEntry) = some spinnerLooping ∧
      ∀ fuel, processTimers sceneCode fuel spinnerPending = none := by
  refine ⟨rfl, rfl, rfl, ?_⟩
  intro fuel
  match fuel with
  | 0 => rfl
  | 1 => rfl
  | fuel + 2 =>
    have e1 : processTimers sceneCode (fuel + 2) spinnerPending =
        resumeHandles sceneCode (fuel + 2) (scanPhase spinnerPending) [0] := rfl
    have e2 : resume sceneCode (fuel + 2) ((scanPhase spinnerPending).record (.resumed 0)) 0 =
        run sceneCode (fuel + 1) spinnerLooping 0 (.spinnerLoop ⟨some 1⟩) := rfl
    have e3 : (scanPhase spinnerPending).status = .running := rfl
    rw [e1, resumeHandles]
    simp only [e3, if_true]
    rw [e2, spinnerLooping_runs_on]

/-- Claim C19, amended.  A `processTimers` call made in a running process
that returns: leaves in `m_timerTasks` the entries its scan kept, followed by
every entry the tasks it resumed have inserted, none of which it has examined
or removed; and has called `resume()` only on handles its scan found due among
the entries present at the start, at most as many times as there were entries
then.  So the `for` loop makes a bounded number of `resume()` calls, and the
call returns whenever every execution of a task body returns control. -/
theorem processTimers_keeps_entries_added_by_resumed_tasks [Movable α]
    (code : σ → Instr σ α) (m : Machine σ α) (hs : m.status = .running) :
    (∀ (fuel : Nat) (m' : Machine σ α), processTimers code fuel m = some m' →
      (∃ added, m'.m_timerTasks = (scanPhase m).m_timerTasks ++ added) ∧
      resumedHandles (m'.log.drop m.log.length) <+: dueHandles m.clock m.m_timerTasks ∧
      (resumedHandles (m'.log.drop m.log.length)).length ≤ m.m_timerTasks.length) ∧
    ((∀ (m1 : Machine σ α) (h : Handle) (pc : σ), ∃ fuel, run code fuel m1 h pc ≠ none) →
      ∃ fuel m', processTimers code fuel m = some m') := by
  constructor
  · intro fuel m' hp
    have hpre := (processTimers_log code fuel m m' hp).1
    refine ⟨?_, hpre, le_trans hpre.length_le (dueHandles_length _ _)⟩
    unfold processTimers at hp
    simp only [hs, if_true] at hp
    exact resumeHandles_timers code fuel _ _ _ hp
  · intro hret
    obtain ⟨fuel, m', h⟩ :=
      resumeHandles_returns code hret (scanPhase m).m_handlesToResume (scanPhase m)
    exact ⟨fuel, m', by simp [processTimers, hs, h]⟩

theorem processTimers_keeps_entries_added_by_resumed_tasks_witness :
    tickerPending.status = .running ∧
      invoke tickerCode 1 (Machine.init tickReadings) .void () =
        some (tickerPending, ⟨some 0⟩) ∧
      processTimers tickerCode 1 tickerPending = some tickerAgain ∧
      (∃ added, tickerAgain.m_timerTasks = (scanPhase tickerPending).m_timerTasks ++ added) ∧
      tickerAgain.m_timerTasks = [⟨120, 0⟩] ∧
      (scanPhase tickerAgain).m_handlesToResume = [0] ∧
      (resumedHandles (tickerAgain.log.drop tickerPending.log.length)).length ≤
        tickerPending.m_timerTasks.length ∧
      ∃ fuel m', processTimers tickerCode fuel tickerPending = some m' :=
  ⟨rfl, rfl, rfl,
    ((processTimers_keeps_entries_added_by_resumed_tasks tickerCode tickerPending rfl).1 1
      tickerAgain rfl).1,
    rfl, rfl,
    ((processTimers_keeps_entries_added_by_resumed_tasks tickerCode tickerPending rfl).1 1
      tickerAgain rfl).2.2,
    (processTimers_keeps_entries_added_by_resumed_tasks tickerCode tickerPending rfl).2
      (fun m1 h pc => ⟨1, by
        simp [run, tickerCode, coAwaitDuration, TimerAwaitable.await_ready]⟩)⟩

end Reentry

end Corotest
